import Mathlib

/-!
MapReduce coordinator and worker (package `mr`)

A shallow embedding of `6.824/src/mr/coordinator.go` and
`6.824/src/mr/worker.go`.

* Go `string` is a sequence of bytes: `GoString = List (Fin 256)`, compared
  with the lexicographic order on bytes, which is Go's `<` on strings.
* Go `int` is `Int`; no arithmetic in the modelled code can overflow except
  the 32-bit hash, which is reduced modulo `2^32` explicitly.
* Go `map[int]string` is a list of entries in which no key occurs twice.
* The file system is a function from names to contents; opening a file that
  is absent fails, creating a file replaces it.
* `sort.Sort` is an argument of the reduce side, constrained by what the
  library guarantees (a sorted rearrangement; the sort is not stable).
* `for k, v := range m { ...; break }` visits one entry chosen by the
  runtime; the choice is the extra argument `pick` of `RequestTask`.
* The coordinator's lock makes `ResponseTask`, `Register`, `Done` and the
  part of `RequestTask` after `lock.Lock()` exclude one another.  The
  goroutine started by `RequestTask` takes no lock, and the test
  `if c.Done()` of `RequestTask` comes before `lock.Lock()`.
* `Sys` and `Event` describe the schedules in which every call of
  `RequestTask` and every run of the goroutine's body (`expiryCheck`, the
  event `Event.expiry`) is atomic.  `RaceSys` and `RaceEvent` describe the
  schedules with interleaving: the `Done` test of `RequestTask`, its locked
  part, `ResponseTask`, `Register` and `Done` are one step each, every
  statement of a goroutine is a step of its own, and the steps come in any
  order.  Not described: a statement of a goroutine that runs between two
  statements of a call that holds the lock.  Every run of `Sys` is a
  schedule of `RaceSys` (`run_is_schedule`).
-/

namespace mr

/-! ## Strings -/

abbrev Byte := Fin 256

abbrev GoString := List Byte

/-- Bytes of a string literal (UTF-8). -/
def lit (s : String) : GoString :=
  (s.data.flatMap String.utf8EncodeChar).map (fun b => b.val)

/-- Decimal digits of a natural number, most significant first; `fuel`
bounds the number of digits. -/
def natDigits : Nat → Nat → GoString
  | 0, _ => []
  | fuel + 1, n =>
    if n < 10 then [Fin.ofNat (48 + n)]
    else natDigits fuel (n / 10) ++ [Fin.ofNat (48 + n % 10)]

/-- The function `strconv.Itoa`. -/
def Itoa (i : Int) : GoString :=
  if i < 0 then lit "-" ++ natDigits (i.natAbs + 1) i.natAbs
  else natDigits (i.natAbs + 1) i.natAbs

/-! ## Data types of `worker.go` -/

structure KeyValue where
  Key : GoString
  Value : GoString
deriving DecidableEq

abbrev TaskPhase := Int

def MapPhase : TaskPhase := 0
def ReducePhase : TaskPhase := 1
def WaitingPhase : TaskPhase := 1

structure Task where
  FileName : GoString
  TaskNumber : Int
  Phase : TaskPhase
  NReduce : Int
  NMap : Int
  Alive : Bool
deriving DecidableEq

/-- The zero value `Task{}`, which is what the RPC layer hands to a handler as
its reply. -/
def Task.zero : Task :=
  { FileName := [], TaskNumber := 0, Phase := 0, NReduce := 0, NMap := 0, Alive := false }

/-! ## Go maps `map[int]string` -/

/-- A Go map from `int` to `string`: its entries, no key twice. -/
structure GoMap where
  entries : List (Int × GoString)
  nodupKeys : (entries.map Prod.fst).Nodup

namespace GoMap

instance : DecidableEq GoMap := fun a b =>
  decidable_of_iff (a.entries = b.entries)
    (by cases a; cases b; simp)

/-- The literal `map[int]string{}`. -/
def empty : GoMap := ⟨[], List.nodup_nil⟩

/-- The read `v, ok := m[k]` on the entries. -/
def lookupEntries (k : Int) : List (Int × GoString) → Option GoString
  | [] => none
  | (k', v) :: rest => if k' = k then some v else lookupEntries k rest

/-- The read `v, ok := m[k]`. -/
def lookup (m : GoMap) (k : Int) : Option GoString := lookupEntries k m.entries

/-- The statement `delete(m, k)`. -/
def delete (m : GoMap) (k : Int) : GoMap :=
  ⟨m.entries.filter (fun e => !decide (e.1 = k)),
   m.nodupKeys.sublist ((List.filter_sublist m.entries).map Prod.fst)⟩

/-- The assignment `m[k] = v`. -/
def set (m : GoMap) (k : Int) (v : GoString) : GoMap :=
  ⟨(k, v) :: (m.delete k).entries,
   List.nodup_cons.mpr ⟨by simp [delete, List.mem_filter], (m.delete k).nodupKeys⟩⟩

/-- The builtin `len(m)`. -/
def len (m : GoMap) : Int := m.entries.length

/-- The entry that `for k, v := range m` visits first; `pick` is the
runtime's choice of starting point. -/
def rangeFirst (m : GoMap) (pick : Nat) : Option (Int × GoString) :=
  m.entries[pick % m.entries.length]?

/-- Key `k` is present in `m`. -/
def has (m : GoMap) (k : Int) : Bool := (m.lookup k).isSome

end GoMap

/-! ## The coordinator (`coordinator.go`) -/

structure Coordinator where
  mapTasks : GoMap
  reduceTasks : GoMap
  reduceTaskNumber : Int
  mapWaitingResponseQueue : GoMap
  reduceWaitingResponseQueue : GoMap
  singleFileWordNumber : Int
  totalMapTasks : Int
  phase : TaskPhase
  assignWorkerID : Int
deriving DecidableEq

/-- The method `Coordinator.Done`. -/
def Coordinator.Done (c : Coordinator) : Bool :=
  if c.mapTasks.len ≤ 0 ∧ c.reduceTasks.len ≤ 0 ∧ c.mapWaitingResponseQueue.len ≤ 0
      ∧ c.reduceWaitingResponseQueue.len ≤ 0 then true
  else false

/-- The handler `Coordinator.RequestTask`, without the goroutine it starts:
the new coordinator state, the reply, and whether the handler went past the
`Done` test and therefore started the ten-second timer. -/
def Coordinator.RequestTask (c : Coordinator) (pick : Nat) : Coordinator × Task × Bool :=
  let t := Task.zero
  if c.Done then
    (c, { t with Alive := false }, false)
  else if c.phase = MapPhase then
    let t := { t with Phase := c.phase, Alive := true, NMap := c.singleFileWordNumber,
                      NReduce := c.reduceTaskNumber }
    let t := if c.mapTasks.len = 0 then { t with TaskNumber := -1 } else t
    match c.mapTasks.rangeFirst pick with
    | none => (c, t, true)
    | some (taskNumber, filename) =>
      let t := { t with FileName := filename, TaskNumber := taskNumber }
      ({ c with mapTasks := c.mapTasks.delete t.TaskNumber,
                mapWaitingResponseQueue := c.mapWaitingResponseQueue.set t.TaskNumber t.FileName },
       t, true)
  else if c.phase = ReducePhase then
    let t := { t with Phase := c.phase, Alive := true, NMap := c.totalMapTasks,
                      NReduce := c.reduceTaskNumber }
    let t := if c.reduceTasks.len = 0 then { t with TaskNumber := -1 } else t
    match c.reduceTasks.rangeFirst pick with
    | none => (c, t, true)
    | some (taskNumber, filename) =>
      let t := { t with FileName := filename, TaskNumber := taskNumber }
      ({ c with reduceTasks := c.reduceTasks.delete t.TaskNumber,
                reduceWaitingResponseQueue :=
                  c.reduceWaitingResponseQueue.set t.TaskNumber t.FileName },
       t, true)
  else (c, t, true)

/-- The body of the goroutine started by `RequestTask`, run after
`<-timer.C`; `taskNumber` is the `t.TaskNumber` of the reply of that request. -/
def Coordinator.expiryCheck (c : Coordinator) (taskNumber : Int) : Coordinator :=
  if c.phase = MapPhase then
    match c.mapWaitingResponseQueue.lookup taskNumber with
    | some value =>
      { c with mapWaitingResponseQueue := c.mapWaitingResponseQueue.delete taskNumber,
               mapTasks := c.mapTasks.set taskNumber value }
    | none => c
  else if c.phase = ReducePhase then
    match c.reduceWaitingResponseQueue.lookup taskNumber with
    | some value =>
      { c with reduceWaitingResponseQueue := c.reduceWaitingResponseQueue.delete taskNumber,
               reduceTasks := c.reduceTasks.set taskNumber value }
    | none => c
  else c

/-- The handler `Coordinator.ResponseTask`. -/
def Coordinator.ResponseTask (c : Coordinator) (args : Task) : Coordinator :=
  if args.Phase = MapPhase then
    let c := { c with mapWaitingResponseQueue := c.mapWaitingResponseQueue.delete args.TaskNumber }
    if c.mapTasks.len = 0 ∧ c.mapWaitingResponseQueue.len = 0 then
      { c with phase := ReducePhase }
    else c
  else if args.Phase = ReducePhase then
    { c with reduceWaitingResponseQueue := c.reduceWaitingResponseQueue.delete args.TaskNumber }
  else c

/-- The handler `Coordinator.Register`: the new state and `reply.Id`. -/
def Coordinator.Register (c : Coordinator) : Coordinator × Int :=
  ({ c with assignWorkerID := c.assignWorkerID + 1 }, c.assignWorkerID)

/-- The loop `for i, file := range files { c.mapTasks[i] = file }`, from
index `i` on. -/
def fillMapTasks (m : GoMap) (i : Nat) (files : List GoString) : GoMap :=
  match files with
  | [] => m
  | file :: rest => fillMapTasks (m.set i file) (i + 1) rest

/-- The loop `for i := 0; i < nReduce; i++ { c.reduceTasks[i] = ... }`. -/
def fillReduceTasks (m : GoMap) (nReduce : Int) : GoMap :=
  (List.range nReduce.toNat).foldl
    (fun m (i : Nat) => m.set (i : Int) (lit "mr-reduce-" ++ Itoa (i : Int))) m

/-- The constructor `MakeCoordinator` (without starting the RPC server). -/
def MakeCoordinator (files : List GoString) (nReduce : Int) : Coordinator :=
  { singleFileWordNumber := 4000
    reduceTaskNumber := nReduce
    totalMapTasks := files.length
    phase := MapPhase
    mapTasks := fillMapTasks GoMap.empty 0 files
    reduceTasks := fillReduceTasks GoMap.empty nReduce
    mapWaitingResponseQueue := GoMap.empty
    reduceWaitingResponseQueue := GoMap.empty
    assignWorkerID := 0 }

/-! ## Runs of the coordinator with a clock -/

/-- The constant `time.Second`, in nanoseconds. -/
def Second : Nat := 1000000000

/-- The lease duration `d := time.Duration(time.Second * 10)`. -/
def leaseDuration : Nat := Second * 10

/-- A timer started by a `RequestTask`: when it fires, the task number its
goroutine will look for, and the phase and time of the request (the last
two are not read by the code). -/
structure Timer where
  deadline : Nat
  taskNumber : Int
  grantPhase : TaskPhase
  grantTime : Nat
deriving DecidableEq

/-- The coordinator, the clock, and the timers whose goroutine has not run. -/
structure Sys where
  c : Coordinator
  now : Nat
  timers : List Timer
deriving DecidableEq

inductive Event where
  | requestTask (pick : Nat)
  | responseTask (args : Task)
  | register
  | expiry (i : Nat)
  | advance (dt : Nat)
deriving DecidableEq

/-- One step of a schedule in which calls of `RequestTask` and expiry checks
are atomic.  `expiry i` runs the whole goroutine of the `i`-th outstanding
timer, with no handler between its statements, and is possible only when
that timer has fired.  The goroutine takes no lock: the schedules in which
handlers run between its statements are those of `RaceSys.step`. -/
def Sys.step (s : Sys) : Event → Option Sys
  | .requestTask pick =>
    let r := s.c.RequestTask pick
    if r.2.2 then
      some { s with c := r.1
                    timers := s.timers ++ [{ deadline := s.now + leaseDuration
                                             taskNumber := r.2.1.TaskNumber
                                             grantPhase := s.c.phase
                                             grantTime := s.now }] }
    else some { s with c := r.1 }
  | .responseTask args => some { s with c := s.c.ResponseTask args }
  | .register => some { s with c := (s.c.Register).1 }
  | .expiry i =>
    match s.timers[i]? with
    | none => none
    | some tm =>
      if tm.deadline ≤ s.now then
        some { s with c := s.c.expiryCheck tm.taskNumber, timers := s.timers.eraseIdx i }
      else none
  | .advance dt => some { s with now := s.now + dt }

/-- Run a list of events, stopping with `none` at one that is not possible. -/
def Sys.run (s : Sys) : List Event → Option Sys
  | [] => some s
  | e :: es => (s.step e).bind (fun s' => s'.run es)

/-- The system right after `MakeCoordinator(files, nReduce)`. -/
def Sys.init (files : List GoString) (nReduce : Int) : Sys :=
  { c := MakeCoordinator files nReduce, now := 0, timers := [] }

/-- States reachable from `MakeCoordinator(files, nReduce)`. -/
def Reachable (files : List GoString) (nReduce : Int) (s : Sys) : Prop :=
  ∃ es, (Sys.init files nReduce).run es = some s

/-- The state after the events `es`, or `s` itself when one of them is not
possible. -/
def Sys.runD (s : Sys) (es : List Event) : Sys := (s.run es).getD s

/-! ## The worker (`worker.go`) -/

/-- The hash `fnv.New32a()`: offset basis of 32-bit FNV-1a. -/
def New32a : Nat := 2166136261

/-- The method `Write` of the 32-bit FNV-1a hash: for every byte,
`hash ^= c; hash *= prime32` in `uint32` arithmetic. -/
def Write32a (hash : Nat) (data : GoString) : Nat :=
  data.foldl (fun hash c => ((hash ^^^ c.val) * 16777619) % 2 ^ 32) hash

/-- The function `ihash`: `int(h.Sum32() & 0x7fffffff)`. -/
def ihash (key : GoString) : Int :=
  ((Write32a New32a key &&& 0x7fffffff : Nat) : Int)

/-- The file system: names to contents; `none` is a file that does not
exist. -/
abbrev FS := GoString → Option GoString

/-- Create (or truncate) the file `name` and write `content` to it. -/
def FS.write (fs : FS) (name content : GoString) : FS :=
  fun n => if n = name then some content else fs n

/-- Write the files `ws` in order. -/
def FS.writeAll (fs : FS) (ws : List (GoString × GoString)) : FS :=
  ws.foldl (fun fs w => fs.write w.1 w.2) fs

/-- The slice `make([][]KeyValue, nReduce)` with every element set to an empty
slice; `make` panics on a negative length. -/
def makeBuckets (nReduce : Int) : Option (List (List KeyValue)) :=
  if nReduce < 0 then none else some (List.replicate nReduce.toNat [])

/-- The index `ihash(kv.Key) % t.NReduce` of `doMapTask`; `none` is the
division by zero. -/
def bucketIndex (key : GoString) (nReduce : Int) : Option Int :=
  if nReduce = 0 then none else some ((ihash key).tmod nReduce)

/-- The loop `for _, kv := range kva` of `doMapTask`; `none` is a run-time
panic (division by zero, index out of range). -/
def route (nReduce : Int) (reduce : List (List KeyValue)) :
    List KeyValue → Option (List (List KeyValue))
  | [] => some reduce
  | kv :: rest =>
    match bucketIndex kv.Key nReduce with
    | none => none
    | some idx =>
      if idx < 0 ∨ (reduce.length : Int) ≤ idx then none
      else route nReduce (reduce.set idx.toNat (reduce.getD idx.toNat [] ++ [kv])) rest

/-- The name of the shard of map task `taskNumber` for bucket `index`. -/
def shardName (taskNumber index : Int) : GoString :=
  lit "mr-" ++ Itoa taskNumber ++ lit "-" ++ Itoa index

/-- The name of the output of reduce task `taskNumber`. -/
def outName (taskNumber : Int) : GoString :=
  lit "mr-out-" ++ Itoa taskNumber

/-- The line `fmt.Fprintf(ofile, "%v %v\n", key, value)`. -/
def formatLine (key value : GoString) : GoString :=
  key ++ lit " " ++ value ++ lit "\n"

/-- The content of a shard: one line per pair. -/
def encodeRecords (ys : List KeyValue) : GoString :=
  (ys.map (fun y => formatLine y.Key y.Value)).flatten

/-- The loop `for index, ys := range reduce` of `doMapTask`, from index
`index` on: the files it creates, with their content. -/
def shardWrites (taskNumber : Int) : Nat → List (List KeyValue) → List (GoString × GoString)
  | _, [] => []
  | index, ys :: rest =>
    if ys.length > 0 then
      (shardName taskNumber index, encodeRecords ys) :: shardWrites taskNumber (index + 1) rest
    else shardWrites taskNumber (index + 1) rest

/-- The method `doMapTask`: the file system afterwards and the task reported
to the coordinator, if any; `none` is a run-time panic. -/
def doMapTask (Mapf : GoString → GoString → List KeyValue) (fs : FS) (t : Task) :
    Option (FS × Option Task) :=
  match fs t.FileName with
  | none => some (fs, none)
  | some content =>
    let kva := Mapf t.FileName content
    match makeBuckets t.NReduce with
    | none => none
    | some reduce0 =>
      match route t.NReduce reduce0 kva with
      | none => none
      | some reduce => some (fs.writeAll (shardWrites t.TaskNumber 0 reduce), some t)

/-- The function `strings.Split(s, sep)` for a separator of one byte. -/
def Split (sep : Byte) : GoString → List GoString
  | [] => [[]]
  | b :: rest =>
    if b = sep then [] :: Split sep rest
    else
      match Split sep rest with
      | [] => [[b]]
      | w :: ws => (b :: w) :: ws

/-- The inner loop `for _, w := range lines` of `doReduceTask`. -/
def parseLines (lines : List GoString) : List KeyValue :=
  lines.filterMap (fun w =>
    match Split 32 w with
    | k :: v :: _ => some { Key := k, Value := v }
    | _ => none)

/-- The pairs `doReduceTask` reads from one shard. -/
def parseShard (content : GoString) : List KeyValue :=
  parseLines (Split 10 content)

/-- The loop `for i := 0; i <= t.NMap; i++` of `doReduceTask`: the pairs read
from the shards that exist. -/
def readShards (fs : FS) (t : Task) : List KeyValue :=
  (List.range (t.NMap + 1).toNat).flatMap (fun i =>
    match fs (shardName (i : Int) t.TaskNumber) with
    | none => []
    | some content => parseShard content)

/-- The comparison `ByKey.Less`. -/
def ByKey.Less (a b : KeyValue) : Prop := a.Key < b.Key

instance (a b : KeyValue) : Decidable (ByKey.Less a b) :=
  inferInstanceAs (Decidable (a.Key < b.Key))

/-- What `sort.Sort(ByKey(l))` guarantees: the result is a rearrangement of
`l` in which no element is `Less` than an earlier one.  The sort is not
stable. -/
structure SortsByKey (sortSort : List KeyValue → List KeyValue) : Prop where
  perm : ∀ l, (sortSort l).Perm l
  sorted : ∀ l, (sortSort l).Pairwise (fun a b => ¬ ByKey.Less b a)

/-- The loop `for i < len(intermediate)` of `doReduceTask` on the sorted
pairs: the key and the values of every call of `Reducef`, in order.  The
first pair is `intermediate[i]`, the pairs taken while the key is equal are
`intermediate[i+1..j)`; `fuel` bounds the number of rounds. -/
def reduceGroups : Nat → List KeyValue → List (GoString × List GoString)
  | 0, _ => []
  | _, [] => []
  | fuel + 1, kv :: rest =>
    let same := rest.takeWhile (fun x => decide (x.Key = kv.Key))
    let values := kv.Value :: same.map (fun x => x.Value)
    (kv.Key, values) :: reduceGroups fuel (rest.dropWhile (fun x => decide (x.Key = kv.Key)))

/-- The content of the output file: one line per call of `Reducef`. -/
def encodeOutput (Reducef : GoString → List GoString → GoString)
    (groups : List (GoString × List GoString)) : GoString :=
  (groups.map (fun g => formatLine g.1 (Reducef g.1 g.2))).flatten

/-- The part of `doReduceTask` from `sort.Sort` on: the calls of `Reducef`
for the pairs `intermediate` read from the shards. -/
def reduceCalls (sortSort : List KeyValue → List KeyValue) (intermediate : List KeyValue) :
    List (GoString × List GoString) :=
  let intermediate := sortSort intermediate
  reduceGroups intermediate.length intermediate

/-- The method `doReduceTask`: the file system afterwards and the task
reported to the coordinator. -/
def doReduceTask (sortSort : List KeyValue → List KeyValue)
    (Reducef : GoString → List GoString → GoString) (fs : FS) (t : Task) :
    FS × Option Task :=
  let intermediate := readShards fs t
  (fs.write (outName t.TaskNumber)
      (encodeOutput Reducef (reduceCalls sortSort intermediate)),
   some t)

/-- An insertion sort by key, one function that meets `SortsByKey`. -/
def insertionSortByKey (l : List KeyValue) : List KeyValue :=
  l.insertionSort (fun a b => a.Key ≤ b.Key)

/-! ## Vocabulary of the properties -/

/-- The barrier: in the Reduce phase no map task is pending or leased. -/
def Barrier (c : Coordinator) : Prop :=
  c.phase = ReducePhase → c.mapTasks.len = 0 ∧ c.mapWaitingResponseQueue.len = 0

/-- The report a worker sends for map task `k` of input `file`. -/
def mapReport (k : Int) (file : GoString) : Task :=
  { FileName := file, TaskNumber := k, Phase := MapPhase, NReduce := 1, NMap := 4000,
    Alive := true }

/-- A run in which the only map task is granted and reported. -/
def runOneMap : List Event := [.requestTask 0, .responseTask (mapReport 0 (lit "a"))]

/-- Task `k` of the Map phase is pending or leased. -/
def liveMap (c : Coordinator) (k : Int) : Prop :=
  c.mapTasks.has k = true ∨ c.mapWaitingResponseQueue.has k = true

/-- Task `k` of the Reduce phase is pending or leased. -/
def liveReduce (c : Coordinator) (k : Int) : Prop :=
  c.reduceTasks.has k = true ∨ c.reduceWaitingResponseQueue.has k = true

/-- No task is both pending and leased. -/
def Exclusive (c : Coordinator) : Prop :=
  ∀ k, ¬ (c.mapTasks.has k = true ∧ c.mapWaitingResponseQueue.has k = true) ∧
       ¬ (c.reduceTasks.has k = true ∧ c.reduceWaitingResponseQueue.has k = true)

/-- Some `ResponseTask` call among the events `es` reported task `k` of phase
`phase`. -/
def reportedIn (es : List Event) (phase : TaskPhase) (k : Int) : Bool :=
  es.any (fun e =>
    match e with
    | .responseTask args => decide (args.Phase = phase) && decide (args.TaskNumber = k)
    | _ => false)

/-- The report a worker sends for reduce task `k`. -/
def reduceReport (k : Int) : Task :=
  { FileName := lit "mr-reduce-" ++ Itoa k, TaskNumber := k, Phase := ReducePhase,
    NReduce := 1, NMap := 1, Alive := true }

/-- The right-hand side of the completion property as the specification
words it: every map task and every reduce task has been reported at least
once among the events `es`, and no task is leased in `c`. -/
def allReportedNoLease (files : List GoString) (nReduce : Int) (es : List Event)
    (c : Coordinator) : Prop :=
  (∀ k : Int, 0 ≤ k → k < files.length → reportedIn es MapPhase k = true) ∧
  (∀ k : Int, 0 ≤ k → k < nReduce → reportedIn es ReducePhase k = true) ∧
  (∀ k : Int, c.mapWaitingResponseQueue.has k = false ∧
    c.reduceWaitingResponseQueue.has k = false)

/-- A run in which the only map task is granted, its lease expires, and the
slow worker reports afterwards. -/
def runLateReport : List Event :=
  [.requestTask 0, .advance leaseDuration, .expiry 0, .responseTask (mapReport 0 (lit "a"))]

/-- A complete run of a job with one input and one reduce task. -/
def runWholeJob : List Event :=
  [.requestTask 0, .responseTask (mapReport 0 (lit "a")),
   .requestTask 0, .responseTask (reduceReport 0)]

/-- One more task is granted and, ten seconds later, the goroutine of the
oldest outstanding timer runs. -/
def laterEvents : List Event := [.requestTask 0, .advance leaseDuration, .expiry 0]

/-- The pending pool of the current phase. -/
def Coordinator.pendingPool (c : Coordinator) : GoMap :=
  if c.phase = MapPhase then c.mapTasks else c.reduceTasks

/-- The waiting-response queue of the current phase. -/
def Coordinator.waitingQueue (c : Coordinator) : GoMap :=
  if c.phase = MapPhase then c.mapWaitingResponseQueue else c.reduceWaitingResponseQueue

/-- A coordinator in the Reduce phase with reduce tasks 3 and 5 pending. -/
def twoPendingReduces : Coordinator :=
  { mapTasks := GoMap.empty
    reduceTasks := (GoMap.empty.set 3 (lit "mr-reduce-3")).set 5 (lit "mr-reduce-5")
    reduceTaskNumber := 6
    mapWaitingResponseQueue := GoMap.empty
    reduceWaitingResponseQueue := GoMap.empty
    singleFileWordNumber := 4000
    totalMapTasks := 2
    phase := ReducePhase
    assignWorkerID := 1 }

/-- Map task 0 is granted and reported, reduce task 0 is granted, and ten
seconds pass since the first request. -/
def runUntilFirstTimer : List Event :=
  runOneMap ++ [.requestTask 0, .advance leaseDuration]

/-- Map task 0 is granted at time 0 and reported nine seconds later; reduce
task 0 is granted right away; one more second passes. -/
def runNineSeconds : List Event :=
  [.requestTask 0, .advance (9 * Second), .responseTask (mapReport 0 (lit "a")),
   .requestTask 0, .advance Second]

/-- The state after `runUntilFirstTimer`, for one input and one reduce task. -/
def sysAtFirstTimer : Sys := (Sys.init [lit "a"] 1).runD runUntilFirstTimer

/-- The state after `runNineSeconds`, for one input and one reduce task. -/
def sysNineSeconds : Sys := (Sys.init [lit "a"] 1).runD runNineSeconds

/-- The state after `runNineSeconds` and the expiry check of the first
request. -/
def sysEarlyExpiry : Sys := (Sys.init [lit "a"] 1).runD (runNineSeconds ++ [.expiry 0])

/-- The 32-bit FNV-1a hash as the specification words it: starting from
`h`, every byte is xor-ed in and the result multiplied by the prime
16777619, modulo `2^32`. -/
def fnv1a32From (h : Nat) : GoString → Nat
  | [] => h
  | b :: bs => fnv1a32From (((h ^^^ b.val) * 16777619) % 2 ^ 32) bs

/-- The 32-bit FNV-1a hash with offset basis 2166136261. -/
def fnv1a32 (key : GoString) : Nat := fnv1a32From 2166136261 key

/-- The pairs of `kva` whose key hashes to bucket `b`, in their order. -/
def bucketOf (kva : List KeyValue) (nReduce : Int) (b : Nat) : List KeyValue :=
  kva.filter (fun kv => decide (ihash kv.Key % nReduce = (b : Int)))

/-- The number a string of decimal digits stands for. -/
def decodeNat (l : GoString) : Nat :=
  l.foldl (fun a d => 10 * a + (d.val - 48)) 0

/-- A Map function in the style of word count: one pair `(word, "1")` per
word of the content. -/
def wordsMapf (_filename content : GoString) : List KeyValue :=
  ((Split 32 content).filter (fun w => decide (w ≠ []))).map
    (fun w => { Key := w, Value := lit "1" })

/-- A Reduce function in the style of word count: the number of values. -/
def countReducef (_key : GoString) (values : List GoString) : GoString :=
  Itoa values.length

/-- Two input files. -/
def wcFS : FS := fun n =>
  if n = lit "a" then some (lit "x y x")
  else if n = lit "b" then some (lit "y z")
  else none

/-- The map task `m` for input `file`, as `RequestTask` hands it out in the
Map phase of `MakeCoordinator(files, nReduce)`. -/
def mapTaskOf (nReduce : Int) (m : Nat) (file : GoString) : Task :=
  { FileName := file, TaskNumber := m, Phase := MapPhase, NReduce := nReduce, NMap := 4000,
    Alive := true }

/-- The reduce task `r`, as `RequestTask` hands it out in the Reduce phase
of a coordinator made for `nMap` input files. -/
def reduceTaskOf (nMap : Nat) (nReduce : Int) (r : Nat) : Task :=
  { FileName := lit "mr-reduce-" ++ Itoa (r : Int), TaskNumber := r, Phase := ReducePhase,
    NReduce := nReduce, NMap := nMap, Alive := true }

/-- Run `doMapTask` for the inputs `files`, numbered from `m` on. -/
def runMapTasks (Mapf : GoString → GoString → List KeyValue) (nReduce : Int) :
    FS → Nat → List GoString → Option FS
  | fs, _, [] => some fs
  | fs, m, file :: rest =>
    match doMapTask Mapf fs (mapTaskOf nReduce m file) with
    | none => none
    | some r => runMapTasks Mapf nReduce r.1 (m + 1) rest

/-- Run `doReduceTask` for the reduce tasks `rs` in order. -/
def runReduceTasks (sortSort : List KeyValue → List KeyValue)
    (Reducef : GoString → List GoString → GoString) (nMap : Nat) (nReduce : Int)
    (fs : FS) (rs : List Nat) : FS :=
  rs.foldl (fun fs r => (doReduceTask sortSort Reducef fs (reduceTaskOf nMap nReduce r)).1) fs

/-- A whole job: every map task 0..len(files)-1, then every reduce task
0..nReduce-1. -/
def runJob (sortSort : List KeyValue → List KeyValue)
    (Mapf : GoString → GoString → List KeyValue)
    (Reducef : GoString → List GoString → GoString)
    (files : List GoString) (nReduce : Int) (fs : FS) : Option FS :=
  (runMapTasks Mapf nReduce fs 0 files).map (fun fs1 =>
    runReduceTasks sortSort Reducef files.length nReduce fs1 (List.range nReduce.toNat))

/-- The pairs the map task for `file` emits when its input is read from
`fs`. -/
def emittedBy (Mapf : GoString → GoString → List KeyValue) (fs : FS) (file : GoString) :
    List KeyValue :=
  match fs file with
  | none => []
  | some content => Mapf file content

/-- All pairs emitted by all map tasks, in the order of the tasks. -/
def emitted (Mapf : GoString → GoString → List KeyValue) (fs : FS) (files : List GoString) :
    List KeyValue :=
  files.flatMap (emittedBy Mapf fs)

/-- Neither the key nor the value contains a space or a newline. -/
def cleanPair (kv : KeyValue) : Prop :=
  (32 : Byte) ∉ kv.Key ∧ (10 : Byte) ∉ kv.Key ∧ (32 : Byte) ∉ kv.Value ∧ (10 : Byte) ∉ kv.Value

instance (kv : KeyValue) : Decidable (cleanPair kv) :=
  inferInstanceAs (Decidable ((32 : Byte) ∉ kv.Key ∧ (10 : Byte) ∉ kv.Key ∧
    (32 : Byte) ∉ kv.Value ∧ (10 : Byte) ∉ kv.Value))

/-- The names `doReduceTask` passes to `os.Open`, in the order of its loop
`for i := 0; i <= t.NMap; i++`. -/
def scanNames (t : Task) : List GoString :=
  (List.range (t.NMap + 1).toNat).map (fun (i : Nat) => shardName (i : Int) t.TaskNumber)

/-- A file system with one file, named like the shard of map task 1 for
bucket 0, left over from an earlier job. -/
def staleFS : FS := fun n =>
  if n = lit "mr-1-0" then some (lit "k v\n") else none

/-- Pairs with an empty key and with an empty value. -/
def emptyFieldPairs : List KeyValue :=
  [{ Key := [], Value := lit "v" }, { Key := lit "k", Value := [] },
   { Key := lit "k", Value := lit "v" }]

/-- The phase is one of the two phases the coordinator ever assigns. -/
def ValidPhase (c : Coordinator) : Prop :=
  c.phase = MapPhase ∨ c.phase = ReducePhase

/-- In the Map phase some map task is pending or leased. -/
def MapBusy (c : Coordinator) : Prop :=
  c.phase = MapPhase →
    ¬ (c.mapTasks.entries = [] ∧ c.mapWaitingResponseQueue.entries = [])

/-- Every task number in a pool or a queue is non-negative. -/
def NonNegKeys (c : Coordinator) : Prop :=
  ∀ k : Int, liveMap c k ∨ liveReduce c k → 0 ≤ k

/-- The coordinator made for no input file and one reduce task. -/
def noInputs : Coordinator := MakeCoordinator [] 1

/-- A coordinator in which nothing is left to do. -/
def finished : Coordinator :=
  { twoPendingReduces with reduceTasks := GoMap.empty }

/-- The number of `Register` calls among the events. -/
def registerCount : List Event → Nat
  | [] => 0
  | .register :: es => registerCount es + 1
  | _ :: es => registerCount es

/-- The ids returned by the `Register` calls of a run, in order. -/
def Sys.registerReplies (s : Sys) : List Event → List Int
  | [] => []
  | e :: es =>
    match s.step e with
    | none => []
    | some s' =>
      match e with
      | .register => (s.c.Register).2 :: s'.registerReplies es
      | _ => s'.registerReplies es

/-- A run with three `Register` calls between other steps. -/
def runThreeWorkers : List Event :=
  [.register, .requestTask 0, .register, .advance leaseDuration, .expiry 0,
   .responseTask (mapReport 0 (lit "a")), .register]

/-- One round of a worker: `RequestTask`, then `ResponseTask` for the task
in the reply.  The result is the state afterwards and the reply. -/
def Coordinator.requestAndReport (c : Coordinator) (pick : Nat) : Coordinator × Task :=
  ((c.RequestTask pick).1.ResponseTask (c.RequestTask pick).2.1, (c.RequestTask pick).2.1)

/-- Rounds of `requestAndReport`, one per element of `picks`: the state
afterwards and the replies in order. -/
def Coordinator.rounds (c : Coordinator) : List Nat → Coordinator × List Task
  | [] => (c, [])
  | pick :: picks =>
    ((c.requestAndReport pick).1.rounds picks |>.1,
     (c.requestAndReport pick).2 :: ((c.requestAndReport pick).1.rounds picks).2)

/-- The keys of a map, in the order of its entries. -/
def GoMap.keys (m : GoMap) : List Int := m.entries.map Prod.fst

/-- The events of `rounds`: every `RequestTask` followed by the
`ResponseTask` for the task in its reply. -/
def roundEvents (c : Coordinator) : List Nat → List Event
  | [] => []
  | pick :: picks =>
    .requestTask pick :: .responseTask (c.requestAndReport pick).2 ::
      roundEvents (c.requestAndReport pick).1 picks


/-! ## Runs in which the statements of the goroutine interleave with the handlers -/

/-- The part of `RequestTask` from `lock.Lock()` to the end of the
`if`/`else if` on the phase, which a call runs once its test `if c.Done()`
has returned false: the new coordinator state and the reply. -/
def Coordinator.requestTaskLocked (c : Coordinator) (pick : Nat) : Coordinator × Task :=
  let t := Task.zero
  if c.phase = MapPhase then
    let t := { t with Phase := c.phase, Alive := true, NMap := c.singleFileWordNumber,
                      NReduce := c.reduceTaskNumber }
    let t := if c.mapTasks.len = 0 then { t with TaskNumber := -1 } else t
    match c.mapTasks.rangeFirst pick with
    | none => (c, t)
    | some (taskNumber, filename) =>
      let t := { t with FileName := filename, TaskNumber := taskNumber }
      ({ c with mapTasks := c.mapTasks.delete t.TaskNumber,
                mapWaitingResponseQueue := c.mapWaitingResponseQueue.set t.TaskNumber t.FileName },
       t)
  else if c.phase = ReducePhase then
    let t := { t with Phase := c.phase, Alive := true, NMap := c.totalMapTasks,
                      NReduce := c.reduceTaskNumber }
    let t := if c.reduceTasks.len = 0 then { t with TaskNumber := -1 } else t
    match c.reduceTasks.rangeFirst pick with
    | none => (c, t)
    | some (taskNumber, filename) =>
      let t := { t with FileName := filename, TaskNumber := taskNumber }
      ({ c with reduceTasks := c.reduceTasks.delete t.TaskNumber,
                reduceWaitingResponseQueue :=
                  c.reduceWaitingResponseQueue.set t.TaskNumber t.FileName },
       t)
  else (c, t)

/-- The branch of the goroutine: the one of `if c.phase == MapPhase` or the
one of `else if c.phase == ReducePhase`. -/
inductive Branch where
  | mapBranch
  | reduceBranch
deriving DecidableEq

/-- A goroutine of `RequestTask` that is past `<-timer.C`, at the statement
it runs next: the test `if c.phase == MapPhase`, the test
`else if c.phase == ReducePhase`, the read `value, ok := queue[t.TaskNumber]`
of its branch, the `delete` (so `ok` was true), or the assignment
`pool[t.TaskNumber] = value`.  `taskNumber` is `t.TaskNumber`. -/
inductive Goroutine where
  | atTest (taskNumber : Int)
  | atElseTest (taskNumber : Int)
  | atRead (taskNumber : Int) (branch : Branch)
  | atDelete (taskNumber : Int) (branch : Branch) (value : GoString)
  | atInsert (taskNumber : Int) (branch : Branch) (value : GoString)
deriving DecidableEq

/-- The goroutine runs its next statement: the new coordinator state and
what is left of the goroutine, `none` when it has ended. -/
def Goroutine.next (g : Goroutine) (c : Coordinator) : Coordinator × Option Goroutine :=
  match g with
  | .atTest taskNumber =>
    if c.phase = MapPhase then (c, some (.atRead taskNumber .mapBranch))
    else (c, some (.atElseTest taskNumber))
  | .atElseTest taskNumber =>
    if c.phase = ReducePhase then (c, some (.atRead taskNumber .reduceBranch))
    else (c, none)
  | .atRead taskNumber .mapBranch =>
    match c.mapWaitingResponseQueue.lookup taskNumber with
    | some value => (c, some (.atDelete taskNumber .mapBranch value))
    | none => (c, none)
  | .atRead taskNumber .reduceBranch =>
    match c.reduceWaitingResponseQueue.lookup taskNumber with
    | some value => (c, some (.atDelete taskNumber .reduceBranch value))
    | none => (c, none)
  | .atDelete taskNumber .mapBranch value =>
    ({ c with mapWaitingResponseQueue := c.mapWaitingResponseQueue.delete taskNumber },
     some (.atInsert taskNumber .mapBranch value))
  | .atDelete taskNumber .reduceBranch value =>
    ({ c with reduceWaitingResponseQueue := c.reduceWaitingResponseQueue.delete taskNumber },
     some (.atInsert taskNumber .reduceBranch value))
  | .atInsert taskNumber .mapBranch value =>
    ({ c with mapTasks := c.mapTasks.set taskNumber value }, none)
  | .atInsert taskNumber .reduceBranch value =>
    ({ c with reduceTasks := c.reduceTasks.set taskNumber value }, none)

/-- The goroutine has run its `delete` and not yet its assignment. -/
def Goroutine.midWrite : Goroutine → Bool
  | .atInsert _ _ _ => true
  | _ => false

/-- The coordinator, the clock, the timers that have not fired, the number
of `RequestTask` calls that are between their test `if c.Done()` and
`lock.Lock()`, and the goroutines that are past `<-timer.C` and have not
ended. -/
structure RaceSys where
  c : Coordinator
  now : Nat
  timers : List Timer
  entering : Nat
  running : List Goroutine
deriving DecidableEq

inductive RaceEvent where
  | requestTaskDone
  | requestTaskLocked (pick : Nat)
  | responseTask (args : Task)
  | register
  | advance (dt : Nat)
  | fire (i : Nat)
  | goroutine (j : Nat)
deriving DecidableEq

/-- One step of a schedule with interleaving.  `requestTaskDone` is the test
`if c.Done()` of a call of `RequestTask`, which returns when the test is
true; `requestTaskLocked pick` is the rest of a call that is past that test,
run under the lock, with the timer it creates; `fire i` is the `i`-th timer
firing, after which its goroutine is at its first test; `goroutine j` is the
next statement of the `j`-th running goroutine.  `Done()` is read off the
state between two steps. -/
def RaceSys.step (s : RaceSys) : RaceEvent → Option RaceSys
  | .requestTaskDone =>
    if s.c.Done then some s else some { s with entering := s.entering + 1 }
  | .requestTaskLocked pick =>
    if s.entering = 0 then none
    else
      let r := s.c.requestTaskLocked pick
      some { s with c := r.1
                    entering := s.entering - 1
                    timers := s.timers ++ [{ deadline := s.now + leaseDuration
                                             taskNumber := r.2.TaskNumber
                                             grantPhase := s.c.phase
                                             grantTime := s.now }] }
  | .responseTask args => some { s with c := s.c.ResponseTask args }
  | .register => some { s with c := (s.c.Register).1 }
  | .advance dt => some { s with now := s.now + dt }
  | .fire i =>
    match s.timers[i]? with
    | none => none
    | some tm =>
      if tm.deadline ≤ s.now then
        some { s with timers := s.timers.eraseIdx i
                      running := s.running ++ [.atTest tm.taskNumber] }
      else none
  | .goroutine j =>
    match s.running[j]? with
    | none => none
    | some g =>
      match (g.next s.c).2 with
      | some g' => some { s with c := (g.next s.c).1, running := s.running.set j g' }
      | none => some { s with c := (g.next s.c).1, running := s.running.eraseIdx j }

/-- Run a list of steps, stopping with `none` at one that is not possible. -/
def RaceSys.run (s : RaceSys) : List RaceEvent → Option RaceSys
  | [] => some s
  | e :: es => (s.step e).bind (fun s' => s'.run es)

/-- The system right after `MakeCoordinator(files, nReduce)`. -/
def RaceSys.init (files : List GoString) (nReduce : Int) : RaceSys :=
  { c := MakeCoordinator files nReduce, now := 0, timers := [], entering := 0, running := [] }

/-- States reachable from `MakeCoordinator(files, nReduce)` under any
schedule. -/
def RaceReachable (files : List GoString) (nReduce : Int) (s : RaceSys) : Prop :=
  ∃ es, (RaceSys.init files nReduce).run es = some s

/-- The state after the steps `es`, or `s` itself when one of them is not
possible. -/
def RaceSys.runD (s : RaceSys) (es : List RaceEvent) : RaceSys := (s.run es).getD s

/-- A state of `Sys` as a state in which no call of `RequestTask` is past its
`Done` test and no goroutine is running. -/
def RaceSys.ofSys (s : Sys) : RaceSys :=
  { c := s.c, now := s.now, timers := s.timers, entering := 0, running := [] }

/-- Some `ResponseTask` call among the steps `es` reported task `k` of phase
`phase`. -/
def raceReportedIn (es : List RaceEvent) (phase : TaskPhase) (k : Int) : Bool :=
  es.any (fun e =>
    match e with
    | .responseTask args => decide (args.Phase = phase) && decide (args.TaskNumber = k)
    | _ => false)

/-- Map task 0 is granted; ten seconds later its timer fires and its
goroutine runs its phase test and reads the lease from
`mapWaitingResponseQueue`; then the report of the worker arrives. -/
def raceReportAfterRead : List RaceEvent :=
  [.requestTaskDone, .requestTaskLocked 0, .advance leaseDuration, .fire 0, .goroutine 0,
   .goroutine 0, .responseTask (mapReport 0 (lit "a"))]

/-- The `delete` and the assignment of the only running goroutine. -/
def raceWrites : List RaceEvent := [.goroutine 0, .goroutine 0]

/-- The state after `raceReportAfterRead` for one input file. -/
def raceSysReported : RaceSys := (RaceSys.init [lit "a"] 1).runD raceReportAfterRead

/-- The state after `raceReportAfterRead` and `raceWrites` for one input
file. -/
def raceSysReentered : RaceSys := raceSysReported.runD raceWrites

/-- The map task is granted and reported, reduce task 0 is granted, ten
seconds pass, the timer of the reduce grant fires and its goroutine runs up
to and including its `delete`. -/
def raceDeleteOfReduce : List RaceEvent :=
  [.requestTaskDone, .requestTaskLocked 0, .responseTask (mapReport 0 (lit "a")),
   .requestTaskDone, .requestTaskLocked 0, .advance leaseDuration, .fire 1,
   .goroutine 0, .goroutine 0, .goroutine 0, .goroutine 0]

/-- The state after `raceDeleteOfReduce` for one input file and one reduce
task. -/
def raceSysDeletedReduce : RaceSys := (RaceSys.init [lit "a"] 1).runD raceDeleteOfReduce

/-- Of two map tasks, task 0 is granted and reported, task 1 is granted, ten
seconds pass, the timer of task 1 fires and its goroutine runs up to and
including its `delete`. -/
def raceDeleteOfMap : List RaceEvent :=
  [.requestTaskDone, .requestTaskLocked 1, .responseTask (mapReport 0 (lit "a")),
   .requestTaskDone, .requestTaskLocked 0, .advance leaseDuration, .fire 1,
   .goroutine 0, .goroutine 0, .goroutine 0]

/-- The state after `raceDeleteOfMap` for two input files. -/
def raceSysDeletedMap : RaceSys := (RaceSys.init [lit "a", lit "b"] 1).runD raceDeleteOfMap

/-- A complete job with one input and one reduce task, during which the
timer of the map grant fires and its goroutine runs up to its map read. -/
def raceWholeJob : List RaceEvent :=
  [.requestTaskDone, .requestTaskLocked 0, .responseTask (mapReport 0 (lit "a")),
   .requestTaskDone, .requestTaskLocked 0, .advance leaseDuration, .fire 0,
   .goroutine 0, .goroutine 0, .responseTask (reduceReport 0)]

/-- The state after `raceWholeJob` for one input file and one reduce task. -/
def raceSysWholeJob : RaceSys := (RaceSys.init [lit "a"] 1).runD raceWholeJob

/-- The only map task is granted, its goroutine moves it back to the pool
and ends, and the timer of a later idle request fires. -/
def raceReclaimed : List RaceEvent :=
  [.requestTaskDone, .requestTaskLocked 0, .requestTaskDone, .requestTaskLocked 0,
   .advance leaseDuration, .fire 0, .goroutine 0, .goroutine 0, .goroutine 0, .goroutine 0,
   .fire 0, .goroutine 0]

/-- The state after `raceReclaimed` for one input file and one reduce task. -/
def raceSysReclaimed : RaceSys := (RaceSys.init [lit "a"] 1).runD raceReclaimed

/-- The map task is granted and reported and reduce task 0 is granted; ten
seconds later the timers of both grants fire and both goroutines read the
lease of reduce task 0; both run their `delete`, the first runs its
assignment, reduce task 0 is granted again, and the second runs its
assignment. -/
def raceTwoReclaims : List RaceEvent :=
  [.requestTaskDone, .requestTaskLocked 0, .responseTask (mapReport 0 (lit "a")),
   .requestTaskDone, .requestTaskLocked 0, .advance leaseDuration, .fire 0, .fire 0,
   .goroutine 0, .goroutine 0, .goroutine 0, .goroutine 1, .goroutine 1, .goroutine 1,
   .goroutine 0, .goroutine 1, .goroutine 0, .requestTaskDone, .requestTaskLocked 0,
   .goroutine 0]

/-- The state after `raceTwoReclaims` for one input file and one reduce
task. -/
def raceSysTwoReclaims : RaceSys := (RaceSys.init [lit "a"] 1).runD raceTwoReclaims

/-! # Properties of the coordinator -/

namespace GoMap

theorem lookupEntries_filter (k k' : Int) (l : List (Int × GoString)) :
    lookupEntries k' (l.filter (fun e => !decide (e.1 = k)))
      = if k' = k then none else lookupEntries k' l := by
  induction l with
  | nil => simp [lookupEntries]
  | cons e rest ih =>
    obtain ⟨a, v⟩ := e
    by_cases ha : a = k
    · subst ha
      by_cases hk : k' = a
      · subst hk
        simp [lookupEntries, ih]
      · have : ¬ a = k' := fun h => hk h.symm
        simp [lookupEntries, ih, hk, this]
    · by_cases hk : k' = k
      · subst hk
        simp [lookupEntries, ih, ha, List.filter_cons]
      · simp [lookupEntries, ih, ha, hk, List.filter_cons]

theorem lookup_delete (m : GoMap) (k k' : Int) :
    (m.delete k).lookup k' = if k' = k then none else m.lookup k' :=
  lookupEntries_filter k k' m.entries

theorem lookup_set (m : GoMap) (k k' : Int) (v : GoString) :
    (m.set k v).lookup k' = if k' = k then some v else m.lookup k' := by
  by_cases hk : k' = k
  · subst hk
    simp [set, lookup, lookupEntries]
  · have : ¬ k = k' := fun h => hk h.symm
    have h := lookup_delete m k k'
    simp only [lookup] at h
    simp [set, lookup, lookupEntries, this, hk, h]

theorem len_eq_zero_iff (m : GoMap) : m.len = 0 ↔ m.entries = [] := by
  simp [len]

theorem len_le_zero_iff (m : GoMap) : m.len ≤ 0 ↔ m.entries = [] := by
  unfold len
  constructor
  · intro h
    have : m.entries.length = 0 := by omega
    simpa using this
  · intro h
    simp [h]

theorem lookupEntries_eq_none_iff (k : Int) (l : List (Int × GoString)) :
    lookupEntries k l = none ↔ k ∉ l.map Prod.fst := by
  induction l with
  | nil => simp [lookupEntries]
  | cons e rest ih =>
    obtain ⟨a, v⟩ := e
    by_cases ha : a = k
    · simp [lookupEntries, ha]
    · have : ¬ k = a := fun h => ha h.symm
      simp only [lookupEntries, ha, if_false, ih]
      simp [this]

theorem entries_eq_nil_iff (m : GoMap) : m.entries = [] ↔ ∀ k, m.lookup k = none := by
  constructor
  · intro h k
    simp [lookup, h, lookupEntries]
  · intro h
    cases hm : m.entries with
    | nil => rfl
    | cons e rest =>
      have := h e.1
      rw [lookup, lookupEntries_eq_none_iff, hm] at this
      simp at this

theorem len_eq_zero_iff_lookup (m : GoMap) : m.len = 0 ↔ ∀ k, m.lookup k = none := by
  rw [len_eq_zero_iff, entries_eq_nil_iff]

theorem delete_entries_nil (m : GoMap) (k : Int) (h : m.entries = []) :
    (m.delete k).entries = [] := by
  simp [delete, h]

theorem lookupEntries_of_mem (k : Int) (v : GoString) (l : List (Int × GoString))
    (hnd : (l.map Prod.fst).Nodup) (hmem : (k, v) ∈ l) : lookupEntries k l = some v := by
  induction l with
  | nil => simp at hmem
  | cons e rest ih =>
    obtain ⟨a, w⟩ := e
    rw [List.map_cons, List.nodup_cons] at hnd
    rcases List.mem_cons.mp hmem with h | h
    · cases h
      simp [lookupEntries]
    · have hne : ¬ a = k := by
        intro hak
        subst hak
        exact hnd.1 (List.mem_map.mpr ⟨(a, v), h, rfl⟩)
      simp [lookupEntries, hne, ih hnd.2 h]

theorem rangeFirst_some (m : GoMap) (pick : Nat) (k : Int) (v : GoString)
    (h : m.rangeFirst pick = some (k, v)) : m.lookup k = some v := by
  unfold rangeFirst at h
  exact lookupEntries_of_mem k v m.entries m.nodupKeys (List.getElem?_mem h)

theorem rangeFirst_eq_none_iff (m : GoMap) (pick : Nat) :
    m.rangeFirst pick = none ↔ m.entries = [] := by
  unfold rangeFirst
  constructor
  · intro h
    cases hm : m.entries with
    | nil => rfl
    | cons e rest =>
      rw [hm] at h
      have hlt : pick % (e :: rest).length < (e :: rest).length :=
        Nat.mod_lt _ (by simp)
      rw [List.getElem?_eq_getElem hlt] at h
      simp at h
  · intro h
    simp [h]

theorem has_delete_iff (m : GoMap) (j k : Int) :
    (m.delete j).has k = true ↔ k ≠ j ∧ m.has k = true := by
  unfold has
  rw [lookup_delete]
  by_cases h : k = j <;> simp [h]

theorem has_set_iff (m : GoMap) (j k : Int) (v : GoString) :
    (m.set j v).has k = true ↔ k = j ∨ m.has k = true := by
  unfold has
  rw [lookup_set]
  by_cases h : k = j <;> simp [h]

theorem has_of_lookup (m : GoMap) (k : Int) (v : GoString) (h : m.lookup k = some v) :
    m.has k = true := by
  simp [has, h]

theorem has_empty (k : Int) : empty.has k = false := rfl

theorem has_eq_false_of_nil (m : GoMap) (k : Int) (h : m.entries = []) :
    m.has k = false := by
  simp [has, (entries_eq_nil_iff m).mp h k]

theorem entries_nil_of_has (m : GoMap) (h : ∀ k, m.has k = false) : m.entries = [] := by
  rw [entries_eq_nil_iff]
  intro k
  have := h k
  simpa [has] using this

end GoMap

/-! ## The barrier -/

theorem mapPhase_ne_reducePhase : MapPhase ≠ ReducePhase := by decide

/-- The six ways `RequestTask` can go. -/
theorem RequestTask_cases (c : Coordinator) (pick : Nat) :
    (c.Done = true ∧ c.RequestTask pick = (c, { Task.zero with Alive := false }, false)) ∨
    (c.Done = false ∧ c.phase = MapPhase ∧ c.mapTasks.entries = [] ∧
      c.RequestTask pick =
        (c, { FileName := [], TaskNumber := -1, Phase := c.phase,
              NReduce := c.reduceTaskNumber, NMap := c.singleFileWordNumber, Alive := true },
         true)) ∨
    (c.Done = false ∧ c.phase = MapPhase ∧ ∃ k v, c.mapTasks.rangeFirst pick = some (k, v) ∧
      c.RequestTask pick =
        ({ c with mapTasks := c.mapTasks.delete k,
                  mapWaitingResponseQueue := c.mapWaitingResponseQueue.set k v },
         { FileName := v, TaskNumber := k, Phase := c.phase,
           NReduce := c.reduceTaskNumber, NMap := c.singleFileWordNumber, Alive := true },
         true)) ∨
    (c.Done = false ∧ c.phase = ReducePhase ∧ c.reduceTasks.entries = [] ∧
      c.RequestTask pick =
        (c, { FileName := [], TaskNumber := -1, Phase := c.phase,
              NReduce := c.reduceTaskNumber, NMap := c.totalMapTasks, Alive := true },
         true)) ∨
    (c.Done = false ∧ c.phase = ReducePhase ∧
      ∃ k v, c.reduceTasks.rangeFirst pick = some (k, v) ∧
      c.RequestTask pick =
        ({ c with reduceTasks := c.reduceTasks.delete k,
                  reduceWaitingResponseQueue := c.reduceWaitingResponseQueue.set k v },
         { FileName := v, TaskNumber := k, Phase := c.phase,
           NReduce := c.reduceTaskNumber, NMap := c.totalMapTasks, Alive := true },
         true)) ∨
    (c.Done = false ∧ c.phase ≠ MapPhase ∧ c.phase ≠ ReducePhase ∧
      c.RequestTask pick = (c, Task.zero, true)) := by
  by_cases hd : c.Done = true
  · left
    exact ⟨hd, by simp [Coordinator.RequestTask, hd]⟩
  · right
    have hd' : c.Done = false := by simpa using hd
    by_cases hm : c.phase = MapPhase
    · cases hrf : c.mapTasks.rangeFirst pick with
      | none =>
        left
        have he := (GoMap.rangeFirst_eq_none_iff _ _).mp hrf
        have hl : c.mapTasks.len = 0 := (GoMap.len_eq_zero_iff _).mpr he
        exact ⟨hd', hm, he, by simp [Coordinator.RequestTask, hd', hm, hrf, hl, Task.zero]⟩
      | some e =>
        right; left
        obtain ⟨k, v⟩ := e
        refine ⟨hd', hm, k, v, rfl, ?_⟩
        have hl : ¬ c.mapTasks.len = 0 := by
          intro h0
          rw [GoMap.len_eq_zero_iff, ← GoMap.rangeFirst_eq_none_iff _ pick, hrf] at h0
          cases h0
        simp [Coordinator.RequestTask, hd', hm, hrf, hl, Task.zero]
    · right; right
      by_cases hr : c.phase = ReducePhase
      · cases hrf : c.reduceTasks.rangeFirst pick with
        | none =>
          left
          have he := (GoMap.rangeFirst_eq_none_iff _ _).mp hrf
          have hl : c.reduceTasks.len = 0 := (GoMap.len_eq_zero_iff _).mpr he
          exact ⟨hd', hr, he, by simp [Coordinator.RequestTask, hd', hr, mapPhase_ne_reducePhase.symm, hrf, hl, Task.zero]⟩
        | some e =>
          right; left
          obtain ⟨k, v⟩ := e
          refine ⟨hd', hr, k, v, rfl, ?_⟩
          have hl : ¬ c.reduceTasks.len = 0 := by
            intro h0
            rw [GoMap.len_eq_zero_iff, ← GoMap.rangeFirst_eq_none_iff _ pick, hrf] at h0
            cases h0
          simp [Coordinator.RequestTask, hd', hr, mapPhase_ne_reducePhase.symm, hrf, hl, Task.zero]
      · right; right
        exact ⟨hd', hm, hr, by simp [Coordinator.RequestTask, hd', hm, hr]⟩

theorem barrier_RequestTask (c : Coordinator) (pick : Nat) (h : Barrier c) :
    Barrier (c.RequestTask pick).1 := by
  rcases RequestTask_cases c pick with ⟨_, he⟩ | ⟨_, _, _, he⟩ | ⟨_, hm, k, v, _, he⟩ |
    ⟨_, _, _, he⟩ | ⟨_, hr, k, v, _, he⟩ | ⟨_, _, _, he⟩ <;> rw [he]
  · exact h
  · exact h
  · intro hp
    exact absurd (hm.symm.trans hp) mapPhase_ne_reducePhase
  · exact h
  · intro _
    exact h hr
  · exact h

theorem barrier_ResponseTask (c : Coordinator) (args : Task) (h : Barrier c) :
    Barrier (c.ResponseTask args) := by
  unfold Coordinator.ResponseTask
  simp only []
  split_ifs with hm hb hr
  · intro _
    exact hb
  · intro hp
    obtain ⟨h1, h2⟩ := h hp
    refine ⟨h1, ?_⟩
    rw [GoMap.len_eq_zero_iff] at h2 ⊢
    exact GoMap.delete_entries_nil _ _ h2
  · exact h
  · exact h

theorem barrier_expiryCheck (c : Coordinator) (k : Int) (h : Barrier c) :
    Barrier (c.expiryCheck k) := by
  unfold Coordinator.expiryCheck
  split_ifs with hm hr
  · cases hl : c.mapWaitingResponseQueue.lookup k with
    | none => exact h
    | some v =>
      intro hp
      simp only [] at hp
      exact absurd (hm.symm.trans hp) mapPhase_ne_reducePhase
  · cases hl : c.reduceWaitingResponseQueue.lookup k with
    | none => exact h
    | some v =>
      intro _
      exact h hr
  · exact h

theorem barrier_MakeCoordinator (files : List GoString) (nReduce : Int) :
    Barrier (MakeCoordinator files nReduce) := by
  intro hp
  exact absurd hp mapPhase_ne_reducePhase

/-- A property of the coordinator kept by every handler and by the expiry
check holds after every step of a run. -/
theorem step_preserves (P : Coordinator → Prop)
    (hreq : ∀ c pick, P c → P (c.RequestTask pick).1)
    (hresp : ∀ c args, P c → P (c.ResponseTask args))
    (hreg : ∀ c, P c → P (c.Register).1)
    (hexp : ∀ c k, P c → P (c.expiryCheck k))
    (s s' : Sys) (e : Event) (hs : P s.c) (hstep : s.step e = some s') : P s'.c := by
  cases e with
  | requestTask pick =>
    simp only [Sys.step] at hstep
    split_ifs at hstep <;>
    · cases hstep
      exact hreq _ _ hs
  | responseTask args =>
    simp only [Sys.step, Option.some.injEq] at hstep
    subst hstep
    exact hresp _ _ hs
  | register =>
    simp only [Sys.step, Option.some.injEq] at hstep
    subst hstep
    exact hreg _ hs
  | expiry i =>
    simp only [Sys.step] at hstep
    cases ht : s.timers[i]? with
    | none => simp [ht] at hstep
    | some tm =>
      simp only [ht] at hstep
      split_ifs at hstep
      cases hstep
      exact hexp _ _ hs
  | advance dt =>
    simp only [Sys.step, Option.some.injEq] at hstep
    subst hstep
    exact hs

theorem run_preserves (P : Coordinator → Prop)
    (hreq : ∀ c pick, P c → P (c.RequestTask pick).1)
    (hresp : ∀ c args, P c → P (c.ResponseTask args))
    (hreg : ∀ c, P c → P (c.Register).1)
    (hexp : ∀ c k, P c → P (c.expiryCheck k))
    (es : List Event) : ∀ (s s' : Sys), P s.c → s.run es = some s' → P s'.c := by
  induction es with
  | nil =>
    intro s s' hs hrun
    simp only [Sys.run, Option.some.injEq] at hrun
    subst hrun
    exact hs
  | cons e es ih =>
    intro s s' hs hrun
    simp only [Sys.run] at hrun
    cases hst : s.step e with
    | none => simp [hst] at hrun
    | some s1 =>
      simp only [hst, Option.some_bind] at hrun
      exact ih s1 s' (step_preserves P hreq hresp hreg hexp s s1 e hs hst) hrun

theorem reachable_barrier (files : List GoString) (nReduce : Int) (s : Sys)
    (h : Reachable files nReduce s) : Barrier s.c := by
  obtain ⟨es, hes⟩ := h
  exact run_preserves Barrier barrier_RequestTask barrier_ResponseTask
    (fun c hc => hc) barrier_expiryCheck es _ _
    (barrier_MakeCoordinator files nReduce) hes

/-- C1: in every state reachable from MakeCoordinator by RequestTask calls,
ResponseTask calls, Register calls and expiry checks, phase == ReducePhase
implies that mapTasks and mapWaitingResponseQueue are both empty; and a
RequestTask reply with Alive=true and Phase=ReducePhase is only given in a
state where both are empty. -/
theorem barrier_invariant (files : List GoString) (nReduce : Int) (s : Sys)
    (h : Reachable files nReduce s) :
    (s.c.phase = ReducePhase →
      s.c.mapTasks.len = 0 ∧ s.c.mapWaitingResponseQueue.len = 0) ∧
    (∀ pick, (s.c.RequestTask pick).2.1.Alive = true →
      (s.c.RequestTask pick).2.1.Phase = ReducePhase →
      s.c.mapTasks.len = 0 ∧ s.c.mapWaitingResponseQueue.len = 0) := by
  have hb := reachable_barrier files nReduce s h
  refine ⟨hb, ?_⟩
  intro pick halive hphase
  rcases RequestTask_cases s.c pick with ⟨_, he⟩ | ⟨_, hm, _, he⟩ | ⟨_, hm, k, v, _, he⟩ |
    ⟨_, hr, _, he⟩ | ⟨_, hr, k, v, _, he⟩ | ⟨_, _, _, he⟩ <;> rw [he] at halive hphase
  · simp at halive
  · exact absurd (hm.symm.trans hphase) mapPhase_ne_reducePhase
  · exact absurd (hm.symm.trans hphase) mapPhase_ne_reducePhase
  · exact hb hr
  · exact hb hr
  · simp [Task.zero] at halive

theorem barrier_invariant_witness :
    Reachable [lit "a"] 1 ((Sys.init [lit "a"] 1).runD runOneMap) ∧
      ((Sys.init [lit "a"] 1).runD runOneMap).c.phase = ReducePhase ∧
      ((Sys.init [lit "a"] 1).runD runOneMap).c.mapTasks.len = 0 ∧
      ((Sys.init [lit "a"] 1).runD runOneMap).c.mapWaitingResponseQueue.len = 0 :=
  ⟨⟨runOneMap, by decide⟩, by decide,
    (barrier_invariant [lit "a"] 1 _ ⟨runOneMap, by decide⟩).1 (by decide)⟩

/-! ## Membership of tasks in pools and queues -/

theorem liveMap_RequestTask (c : Coordinator) (pick : Nat) (k : Int) :
    liveMap (c.RequestTask pick).1 k ↔ liveMap c k := by
  rcases RequestTask_cases c pick with ⟨_, he⟩ | ⟨_, _, _, he⟩ | ⟨_, hm, j, v, hrf, he⟩ |
    ⟨_, _, _, he⟩ | ⟨_, hr, j, v, hrf, he⟩ | ⟨_, _, _, he⟩ <;> rw [he]
  · have hj := GoMap.has_of_lookup _ _ _ (GoMap.rangeFirst_some _ _ _ _ hrf)
    simp only [liveMap, GoMap.has_delete_iff, GoMap.has_set_iff]
    by_cases hk : k = j
    · subst hk
      simp [hj]
    · simp [hk]
  · simp only [liveMap]

theorem liveReduce_RequestTask (c : Coordinator) (pick : Nat) (k : Int) :
    liveReduce (c.RequestTask pick).1 k ↔ liveReduce c k := by
  rcases RequestTask_cases c pick with ⟨_, he⟩ | ⟨_, _, _, he⟩ | ⟨_, hm, j, v, hrf, he⟩ |
    ⟨_, _, _, he⟩ | ⟨_, hr, j, v, hrf, he⟩ | ⟨_, _, _, he⟩ <;> rw [he]
  · simp only [liveReduce]
  · have hj := GoMap.has_of_lookup _ _ _ (GoMap.rangeFirst_some _ _ _ _ hrf)
    simp only [liveReduce, GoMap.has_delete_iff, GoMap.has_set_iff]
    by_cases hk : k = j
    · subst hk
      simp [hj]
    · simp [hk]

theorem liveMap_expiryCheck (c : Coordinator) (j k : Int) :
    liveMap (c.expiryCheck j) k ↔ liveMap c k := by
  unfold Coordinator.expiryCheck
  split_ifs with hm hr
  · cases hl : c.mapWaitingResponseQueue.lookup j with
    | none => rfl
    | some v =>
      have hj := GoMap.has_of_lookup _ _ _ hl
      simp only [liveMap, GoMap.has_delete_iff, GoMap.has_set_iff]
      by_cases hk : k = j
      · subst hk
        simp [hj]
      · simp [hk]
  · cases hl : c.reduceWaitingResponseQueue.lookup j with
    | none => rfl
    | some v => simp only [liveMap]
  · rfl

theorem liveReduce_expiryCheck (c : Coordinator) (j k : Int) :
    liveReduce (c.expiryCheck j) k ↔ liveReduce c k := by
  unfold Coordinator.expiryCheck
  split_ifs with hm hr
  · cases hl : c.mapWaitingResponseQueue.lookup j with
    | none => rfl
    | some v => simp only [liveReduce]
  · cases hl : c.reduceWaitingResponseQueue.lookup j with
    | none => rfl
    | some v =>
      have hj := GoMap.has_of_lookup _ _ _ hl
      simp only [liveReduce, GoMap.has_delete_iff, GoMap.has_set_iff]
      by_cases hk : k = j
      · subst hk
        simp [hj]
      · simp [hk]
  · rfl

theorem liveMap_ResponseTask (c : Coordinator) (args : Task) (k : Int) :
    liveMap (c.ResponseTask args) k ↔
      (c.mapTasks.has k = true ∨
        (c.mapWaitingResponseQueue.has k = true ∧
          ¬ (args.Phase = MapPhase ∧ args.TaskNumber = k))) := by
  unfold Coordinator.ResponseTask
  simp only []
  split_ifs with hm hb hr
  · simp only [liveMap, GoMap.has_delete_iff]
    constructor
    · rintro (h | ⟨h1, h2⟩)
      · exact Or.inl h
      · exact Or.inr ⟨h2, fun h => h1 h.2.symm⟩
    · rintro (h | ⟨h1, h2⟩)
      · exact Or.inl h
      · exact Or.inr ⟨fun h => h2 ⟨hm, h.symm⟩, h1⟩
  · simp only [liveMap, GoMap.has_delete_iff]
    constructor
    · rintro (h | ⟨h1, h2⟩)
      · exact Or.inl h
      · exact Or.inr ⟨h2, fun h => h1 h.2.symm⟩
    · rintro (h | ⟨h1, h2⟩)
      · exact Or.inl h
      · exact Or.inr ⟨fun h => h2 ⟨hm, h.symm⟩, h1⟩
  · simp only [liveMap]
    constructor
    · rintro (h | h)
      · exact Or.inl h
      · exact Or.inr ⟨h, fun h' => hm h'.1⟩
    · rintro (h | ⟨h, _⟩)
      · exact Or.inl h
      · exact Or.inr h
  · simp only [liveMap]
    constructor
    · rintro (h | h)
      · exact Or.inl h
      · exact Or.inr ⟨h, fun h' => hm h'.1⟩
    · rintro (h | ⟨h, _⟩)
      · exact Or.inl h
      · exact Or.inr h

theorem liveReduce_ResponseTask (c : Coordinator) (args : Task) (k : Int) :
    liveReduce (c.ResponseTask args) k ↔
      (c.reduceTasks.has k = true ∨
        (c.reduceWaitingResponseQueue.has k = true ∧
          ¬ (args.Phase = ReducePhase ∧ args.TaskNumber = k))) := by
  unfold Coordinator.ResponseTask
  simp only []
  split_ifs with hm hb hr
  · simp only [liveReduce]
    constructor
    · rintro (h | h)
      · exact Or.inl h
      · exact Or.inr ⟨h, fun h' => mapPhase_ne_reducePhase (hm.symm.trans h'.1)⟩
    · rintro (h | ⟨h, _⟩)
      · exact Or.inl h
      · exact Or.inr h
  · simp only [liveReduce]
    constructor
    · rintro (h | h)
      · exact Or.inl h
      · exact Or.inr ⟨h, fun h' => mapPhase_ne_reducePhase (hm.symm.trans h'.1)⟩
    · rintro (h | ⟨h, _⟩)
      · exact Or.inl h
      · exact Or.inr h
  · simp only [liveReduce, GoMap.has_delete_iff]
    constructor
    · rintro (h | ⟨h1, h2⟩)
      · exact Or.inl h
      · exact Or.inr ⟨h2, fun h => h1 h.2.symm⟩
    · rintro (h | ⟨h1, h2⟩)
      · exact Or.inl h
      · exact Or.inr ⟨fun h => h2 ⟨hr, h.symm⟩, h1⟩
  · simp only [liveReduce]
    constructor
    · rintro (h | h)
      · exact Or.inl h
      · exact Or.inr ⟨h, fun h' => hr h'.1⟩
    · rintro (h | ⟨h, _⟩)
      · exact Or.inl h
      · exact Or.inr h

theorem exclusive_RequestTask (c : Coordinator) (pick : Nat) (h : Exclusive c) :
    Exclusive (c.RequestTask pick).1 := by
  rcases RequestTask_cases c pick with ⟨_, he⟩ | ⟨_, _, _, he⟩ | ⟨_, hm, j, v, hrf, he⟩ |
    ⟨_, _, _, he⟩ | ⟨_, hr, j, v, hrf, he⟩ | ⟨_, _, _, he⟩ <;> rw [he]
  · exact h
  · exact h
  · intro k
    refine ⟨?_, (h k).2⟩
    simp only [GoMap.has_delete_iff, GoMap.has_set_iff]
    rintro ⟨⟨h1, h2⟩, h3 | h3⟩
    · exact h1 h3
    · exact (h k).1 ⟨h2, h3⟩
  · exact h
  · intro k
    refine ⟨(h k).1, ?_⟩
    simp only [GoMap.has_delete_iff, GoMap.has_set_iff]
    rintro ⟨⟨h1, h2⟩, h3 | h3⟩
    · exact h1 h3
    · exact (h k).2 ⟨h2, h3⟩
  · exact h

theorem exclusive_ResponseTask (c : Coordinator) (args : Task) (h : Exclusive c) :
    Exclusive (c.ResponseTask args) := by
  unfold Coordinator.ResponseTask
  simp only []
  split_ifs with hm hb hr
  · intro k
    refine ⟨?_, (h k).2⟩
    simp only [GoMap.has_delete_iff]
    rintro ⟨h1, _, h2⟩
    exact (h k).1 ⟨h1, h2⟩
  · intro k
    refine ⟨?_, (h k).2⟩
    simp only [GoMap.has_delete_iff]
    rintro ⟨h1, _, h2⟩
    exact (h k).1 ⟨h1, h2⟩
  · intro k
    refine ⟨(h k).1, ?_⟩
    simp only [GoMap.has_delete_iff]
    rintro ⟨h1, _, h2⟩
    exact (h k).2 ⟨h1, h2⟩
  · exact h

theorem exclusive_expiryCheck (c : Coordinator) (j : Int) (h : Exclusive c) :
    Exclusive (c.expiryCheck j) := by
  unfold Coordinator.expiryCheck
  split_ifs with hm hr
  · cases hl : c.mapWaitingResponseQueue.lookup j with
    | none => exact h
    | some v =>
      intro k
      refine ⟨?_, (h k).2⟩
      simp only [GoMap.has_delete_iff, GoMap.has_set_iff]
      rintro ⟨h3 | h3, h1, h2⟩
      · exact h1 h3
      · exact (h k).1 ⟨h3, h2⟩
  · cases hl : c.reduceWaitingResponseQueue.lookup j with
    | none => exact h
    | some v =>
      intro k
      refine ⟨(h k).1, ?_⟩
      simp only [GoMap.has_delete_iff, GoMap.has_set_iff]
      rintro ⟨h3 | h3, h1, h2⟩
      · exact h1 h3
      · exact (h k).2 ⟨h3, h2⟩
  · exact h

theorem exclusive_MakeCoordinator (files : List GoString) (nReduce : Int) :
    Exclusive (MakeCoordinator files nReduce) := by
  intro k
  simp [MakeCoordinator, GoMap.has_empty]

/-! ## The tasks created by `MakeCoordinator` -/

theorem has_fillMapTasks (files : List GoString) :
    ∀ (m : GoMap) (i : Nat) (k : Int),
      (fillMapTasks m i files).has k = true ↔
        (m.has k = true ∨ ((i : Int) ≤ k ∧ k < (i : Int) + files.length)) := by
  induction files with
  | nil =>
    intro m i k
    simp only [fillMapTasks, List.length_nil]
    constructor
    · exact Or.inl
    · rintro (h | ⟨h1, h2⟩)
      · exact h
      · omega
  | cons f rest ih =>
    intro m i k
    simp only [fillMapTasks, List.length_cons]
    rw [ih, GoMap.has_set_iff]
    constructor
    · rintro ((h | h) | ⟨h1, h2⟩)
      · exact Or.inr ⟨by omega, by omega⟩
      · exact Or.inl h
      · exact Or.inr ⟨by omega, by omega⟩
    · rintro (h | ⟨h1, h2⟩)
      · exact Or.inl (Or.inr h)
      · by_cases hk : k = (i : Int)
        · exact Or.inl (Or.inl hk)
        · exact Or.inr ⟨by omega, by omega⟩

theorem has_foldl_range (f : Nat → GoString) (m : GoMap) (n : Nat) (k : Int) :
    ((List.range n).foldl (fun m i => m.set (i : Int) (f i)) m).has k = true ↔
      (m.has k = true ∨ (0 ≤ k ∧ k < (n : Int))) := by
  induction n with
  | zero =>
    simp only [List.range_zero, List.foldl_nil]
    constructor
    · exact Or.inl
    · rintro (h | ⟨h1, h2⟩)
      · exact h
      · simp at h2
        omega
  | succ n ih =>
    rw [List.range_succ, List.foldl_append]
    simp only [List.foldl_cons, List.foldl_nil]
    rw [GoMap.has_set_iff, ih]
    constructor
    · rintro (h | h | ⟨h1, h2⟩)
      · exact Or.inr ⟨by omega, by push_cast; omega⟩
      · exact Or.inl h
      · exact Or.inr ⟨h1, by push_cast; omega⟩
    · rintro (h | ⟨h1, h2⟩)
      · exact Or.inr (Or.inl h)
      · by_cases hk : k = (n : Int)
        · exact Or.inl hk
        · exact Or.inr (Or.inr ⟨h1, by push_cast at h2; omega⟩)

theorem has_mapTasks_MakeCoordinator (files : List GoString) (nReduce k : Int) :
    (MakeCoordinator files nReduce).mapTasks.has k = true ↔ (0 ≤ k ∧ k < files.length) := by
  simp only [MakeCoordinator]
  rw [has_fillMapTasks]
  simp [GoMap.has_empty]

theorem has_reduceTasks_MakeCoordinator (files : List GoString) (nReduce k : Int) :
    (MakeCoordinator files nReduce).reduceTasks.has k = true ↔ (0 ≤ k ∧ k < nReduce) := by
  simp only [MakeCoordinator, fillReduceTasks]
  rw [has_foldl_range (fun i => lit "mr-reduce-" ++ Itoa i)]
  simp only [GoMap.has_empty, Bool.false_eq_true, false_or]
  constructor
  · rintro ⟨h1, h2⟩
    exact ⟨h1, by omega⟩
  · rintro ⟨h1, h2⟩
    exact ⟨h1, by omega⟩

/-! ## Runs -/

theorem run_append (es es' : List Event) :
    ∀ s : Sys, s.run (es ++ es') = (s.run es).bind (fun s' => s'.run es') := by
  induction es with
  | nil =>
    intro s
    simp [Sys.run]
  | cons e es ih =>
    intro s
    simp only [List.cons_append, Sys.run]
    cases hst : s.step e with
    | none => simp
    | some s1 => simp [ih]

/-- A property of the events so far and the coordinator, kept by every
handler and by the expiry check, holds along every run. -/
theorem run_trace_induction (Q : List Event → Coordinator → Prop) (s0 : Sys)
    (h0 : Q [] s0.c)
    (hreq : ∀ es c pick, Q es c → Q (es ++ [.requestTask pick]) (c.RequestTask pick).1)
    (hresp : ∀ es c args, Q es c → Q (es ++ [.responseTask args]) (c.ResponseTask args))
    (hreg : ∀ es c, Q es c → Q (es ++ [.register]) (c.Register).1)
    (hexp : ∀ es c i k, Q es c → Q (es ++ [.expiry i]) (c.expiryCheck k))
    (hadv : ∀ es c dt, Q es c → Q (es ++ [.advance dt]) c)
    (es : List Event) : ∀ s : Sys, s0.run es = some s → Q es s.c := by
  induction es using List.reverseRecOn with
  | nil =>
    intro s hrun
    simp only [Sys.run, Option.some.injEq] at hrun
    subst hrun
    exact h0
  | append_singleton es e ih =>
    intro s hrun
    rw [run_append] at hrun
    cases hs1 : s0.run es with
    | none => simp [hs1] at hrun
    | some s1 =>
      have hq := ih s1 hs1
      simp only [hs1, Option.some_bind, Sys.run] at hrun
      cases hst : s1.step e with
      | none => simp [hst] at hrun
      | some s2 =>
        simp only [hst, Option.some_bind, Option.some.injEq] at hrun
        subst hrun
        cases e with
        | requestTask pick =>
          simp only [Sys.step] at hst
          split_ifs at hst <;>
          · cases hst
            exact hreq _ _ _ hq
        | responseTask args =>
          simp only [Sys.step, Option.some.injEq] at hst
          subst hst
          exact hresp _ _ _ hq
        | register =>
          simp only [Sys.step, Option.some.injEq] at hst
          subst hst
          exact hreg _ _ hq
        | expiry i =>
          simp only [Sys.step] at hst
          cases ht : s1.timers[i]? with
          | none => simp [ht] at hst
          | some tm =>
            simp only [ht] at hst
            split_ifs at hst
            cases hst
            exact hexp _ _ _ _ hq
        | advance dt =>
          simp only [Sys.step, Option.some.injEq] at hst
          subst hst
          exact hadv _ _ _ hq

theorem reportedIn_append (es : List Event) (e : Event) (phase : TaskPhase) (k : Int) :
    reportedIn (es ++ [e]) phase k =
      (reportedIn es phase k || reportedIn [e] phase k) := by
  simp [reportedIn, List.any_append]

theorem reportedIn_mono (es : List Event) (e : Event) (phase : TaskPhase) (k : Int)
    (h : reportedIn es phase k = true) : reportedIn (es ++ [e]) phase k = true := by
  rw [reportedIn_append, h]
  rfl

theorem reportedIn_response (es : List Event) (args : Task) :
    reportedIn (es ++ [.responseTask args]) args.Phase args.TaskNumber = true := by
  rw [reportedIn_append]
  simp [reportedIn]

/-- Every task that `MakeCoordinator` created is pending, leased, or has
been reported. -/
theorem tracked (files : List GoString) (nReduce : Int) (es : List Event) (s : Sys)
    (hrun : (Sys.init files nReduce).run es = some s) :
    ∀ k : Int,
      (0 ≤ k ∧ k < files.length → liveMap s.c k ∨ reportedIn es MapPhase k = true) ∧
      (0 ≤ k ∧ k < nReduce → liveReduce s.c k ∨ reportedIn es ReducePhase k = true) := by
  refine run_trace_induction
    (fun es c => ∀ k : Int,
      (0 ≤ k ∧ k < files.length → liveMap c k ∨ reportedIn es MapPhase k = true) ∧
      (0 ≤ k ∧ k < nReduce → liveReduce c k ∨ reportedIn es ReducePhase k = true))
    (Sys.init files nReduce) ?_ ?_ ?_ ?_ ?_ ?_ es s hrun
  · intro k
    exact ⟨fun h => Or.inl (Or.inl ((has_mapTasks_MakeCoordinator files nReduce k).mpr h)),
      fun h => Or.inl (Or.inl ((has_reduceTasks_MakeCoordinator files nReduce k).mpr h))⟩
  · intro es c pick hq k
    refine ⟨fun h => ?_, fun h => ?_⟩
    · rcases (hq k).1 h with h1 | h1
      · exact Or.inl ((liveMap_RequestTask c pick k).mpr h1)
      · exact Or.inr (reportedIn_mono _ _ _ _ h1)
    · rcases (hq k).2 h with h1 | h1
      · exact Or.inl ((liveReduce_RequestTask c pick k).mpr h1)
      · exact Or.inr (reportedIn_mono _ _ _ _ h1)
  · intro es c args hq k
    refine ⟨fun h => ?_, fun h => ?_⟩
    · rcases (hq k).1 h with h1 | h1
      · by_cases hr : args.Phase = MapPhase ∧ args.TaskNumber = k
        · right
          have := reportedIn_response es args
          rw [hr.1, hr.2] at this
          exact this
        · left
          rw [liveMap_ResponseTask]
          rcases h1 with h1 | h1
          · exact Or.inl h1
          · exact Or.inr ⟨h1, hr⟩
      · exact Or.inr (reportedIn_mono _ _ _ _ h1)
    · rcases (hq k).2 h with h1 | h1
      · by_cases hr : args.Phase = ReducePhase ∧ args.TaskNumber = k
        · right
          have := reportedIn_response es args
          rw [hr.1, hr.2] at this
          exact this
        · left
          rw [liveReduce_ResponseTask]
          rcases h1 with h1 | h1
          · exact Or.inl h1
          · exact Or.inr ⟨h1, hr⟩
      · exact Or.inr (reportedIn_mono _ _ _ _ h1)
  · intro es c hq k
    refine ⟨fun h => ?_, fun h => ?_⟩
    · rcases (hq k).1 h with h1 | h1
      · exact Or.inl h1
      · exact Or.inr (reportedIn_mono _ _ _ _ h1)
    · rcases (hq k).2 h with h1 | h1
      · exact Or.inl h1
      · exact Or.inr (reportedIn_mono _ _ _ _ h1)
  · intro es c i j hq k
    refine ⟨fun h => ?_, fun h => ?_⟩
    · rcases (hq k).1 h with h1 | h1
      · exact Or.inl ((liveMap_expiryCheck c j k).mpr h1)
      · exact Or.inr (reportedIn_mono _ _ _ _ h1)
    · rcases (hq k).2 h with h1 | h1
      · exact Or.inl ((liveReduce_expiryCheck c j k).mpr h1)
      · exact Or.inr (reportedIn_mono _ _ _ _ h1)
  · intro es c dt hq k
    refine ⟨fun h => ?_, fun h => ?_⟩
    · rcases (hq k).1 h with h1 | h1
      · exact Or.inl h1
      · exact Or.inr (reportedIn_mono _ _ _ _ h1)
    · rcases (hq k).2 h with h1 | h1
      · exact Or.inl h1
      · exact Or.inr (reportedIn_mono _ _ _ _ h1)

theorem done_iff (c : Coordinator) :
    c.Done = true ↔
      (c.mapTasks.entries = [] ∧ c.reduceTasks.entries = [] ∧
        c.mapWaitingResponseQueue.entries = [] ∧ c.reduceWaitingResponseQueue.entries = []) := by
  unfold Coordinator.Done
  simp only [GoMap.len_le_zero_iff]
  split_ifs with h
  · simp [h]
  · simp [h]

/-- C2, as the claim states it, fails: after the only map task was granted,
reclaimed by its expiry check and then reported by the slow worker, every
task has been reported and nothing is leased, yet Done() is false (the map
task is pending again). -/
theorem done_iff_reported_counterexample :
    (Sys.init [lit "a"] 0).run runLateReport
        = some ((Sys.init [lit "a"] 0).runD runLateReport) ∧
      ((Sys.init [lit "a"] 0).runD runLateReport).c.Done = false ∧
      allReportedNoLease [lit "a"] 0 runLateReport
        ((Sys.init [lit "a"] 0).runD runLateReport).c := by
  refine ⟨by decide, by decide, ?_, ?_, ?_⟩
  · intro k h0 h1
    have hk : k = 0 := by
      simp only [List.length_singleton, Nat.cast_one] at h1
      omega
    subst hk
    decide
  · intro k h0 h1
    omega
  · intro k
    exact ⟨GoMap.has_eq_false_of_nil _ _ (by decide), GoMap.has_eq_false_of_nil _ _ (by decide)⟩

/-- The completion property in the schedules in which calls of RequestTask
and expiry checks are atomic: along every such run from
MakeCoordinator(files, nReduce), Done() is true exactly when every map task
id and every reduce task id has been reported through ResponseTask earlier
in the run and no task id is in any of mapTasks, reduceTasks,
mapWaitingResponseQueue, reduceWaitingResponseQueue. -/
theorem done_iff_reported_and_empty_atomic (files : List GoString) (nReduce : Int)
    (es : List Event) (s : Sys) (hrun : (Sys.init files nReduce).run es = some s) :
    s.c.Done = true ↔
      ((∀ k : Int, 0 ≤ k → k < files.length → reportedIn es MapPhase k = true) ∧
       (∀ k : Int, 0 ≤ k → k < nReduce → reportedIn es ReducePhase k = true) ∧
       (∀ k : Int, s.c.mapTasks.has k = false ∧ s.c.reduceTasks.has k = false ∧
          s.c.mapWaitingResponseQueue.has k = false ∧
          s.c.reduceWaitingResponseQueue.has k = false)) := by
  rw [done_iff]
  constructor
  · rintro ⟨h1, h2, h3, h4⟩
    have hnl : ∀ k, ¬ liveMap s.c k := by
      intro k hl
      rcases hl with hl | hl
      · rw [GoMap.has_eq_false_of_nil _ _ h1] at hl
        cases hl
      · rw [GoMap.has_eq_false_of_nil _ _ h3] at hl
        cases hl
    have hnr : ∀ k, ¬ liveReduce s.c k := by
      intro k hl
      rcases hl with hl | hl
      · rw [GoMap.has_eq_false_of_nil _ _ h2] at hl
        cases hl
      · rw [GoMap.has_eq_false_of_nil _ _ h4] at hl
        cases hl
    refine ⟨?_, ?_, ?_⟩
    · intro k hk0 hk1
      exact ((tracked files nReduce es s hrun k).1 ⟨hk0, hk1⟩).resolve_left (hnl k)
    · intro k hk0 hk1
      exact ((tracked files nReduce es s hrun k).2 ⟨hk0, hk1⟩).resolve_left (hnr k)
    · intro k
      exact ⟨GoMap.has_eq_false_of_nil _ _ h1, GoMap.has_eq_false_of_nil _ _ h2,
        GoMap.has_eq_false_of_nil _ _ h3, GoMap.has_eq_false_of_nil _ _ h4⟩
  · rintro ⟨_, _, h⟩
    exact ⟨GoMap.entries_nil_of_has _ (fun k => (h k).1),
      GoMap.entries_nil_of_has _ (fun k => (h k).2.1),
      GoMap.entries_nil_of_has _ (fun k => (h k).2.2.1),
      GoMap.entries_nil_of_has _ (fun k => (h k).2.2.2)⟩

theorem done_iff_reported_and_empty_atomic_witness :
    (Sys.init [lit "a"] 1).run runWholeJob = some ((Sys.init [lit "a"] 1).runD runWholeJob) ∧
      ((Sys.init [lit "a"] 1).runD runWholeJob).c.Done = true ∧
      reportedIn runWholeJob MapPhase 0 = true ∧
      reportedIn runWholeJob ReducePhase 0 = true :=
  ⟨by decide, by decide,
    ((done_iff_reported_and_empty_atomic [lit "a"] 1 runWholeJob
        ((Sys.init [lit "a"] 1).runD runWholeJob) (by decide)).mp (by decide)).1 0
      (by decide) (by decide),
    ((done_iff_reported_and_empty_atomic [lit "a"] 1 runWholeJob
        ((Sys.init [lit "a"] 1).runD runWholeJob) (by decide)).mp (by decide)).2.1 0
      (by decide) (by decide)⟩

theorem not_liveMap_run (k : Int) (es : List Event) (s s' : Sys)
    (h : ¬ liveMap s.c k) (hrun : s.run es = some s') : ¬ liveMap s'.c k := by
  refine run_preserves (fun c => ¬ liveMap c k) ?_ ?_ ?_ ?_ es s s' h hrun
  · intro c pick hc hl
    exact hc ((liveMap_RequestTask c pick k).mp hl)
  · intro c args hc hl
    rcases (liveMap_ResponseTask c args k).mp hl with h1 | ⟨h1, _⟩
    · exact hc (Or.inl h1)
    · exact hc (Or.inr h1)
  · intro c hc
    exact hc
  · intro c j hc hl
    exact hc ((liveMap_expiryCheck c j k).mp hl)

theorem not_liveReduce_run (k : Int) (es : List Event) (s s' : Sys)
    (h : ¬ liveReduce s.c k) (hrun : s.run es = some s') : ¬ liveReduce s'.c k := by
  refine run_preserves (fun c => ¬ liveReduce c k) ?_ ?_ ?_ ?_ es s s' h hrun
  · intro c pick hc hl
    exact hc ((liveReduce_RequestTask c pick k).mp hl)
  · intro c args hc hl
    rcases (liveReduce_ResponseTask c args k).mp hl with h1 | ⟨h1, _⟩
    · exact hc (Or.inl h1)
    · exact hc (Or.inr h1)
  · intro c hc
    exact hc
  · intro c j hc hl
    exact hc ((liveReduce_expiryCheck c j k).mp hl)

theorem not_live_iff (a b : Bool) : ¬ (a = true ∨ b = true) ↔ (a = false ∧ b = false) := by
  cases a <;> cases b <;> simp

/-- Exclusive membership in the schedules in which calls of RequestTask and
expiry checks are atomic: in every state `s` reached from MakeCoordinator by
such steps, no task id is in both mapTasks
and mapWaitingResponseQueue, nor in both reduceTasks and
reduceWaitingResponseQueue; a map task id 0..len(files)-1 (reduce task id
0..nReduce-1) that is in neither structure of its phase has been reported
through ResponseTask earlier in the run; and a task id that is in neither
is still in neither in every state `s'` reached later. -/
theorem exclusive_membership_atomic (files : List GoString) (nReduce : Int)
    (es es' : List Event) (s s' : Sys)
    (hrun : (Sys.init files nReduce).run es = some s) (hlater : s.run es' = some s') :
    (∀ k : Int,
      ¬ (s.c.mapTasks.has k = true ∧ s.c.mapWaitingResponseQueue.has k = true) ∧
      ¬ (s.c.reduceTasks.has k = true ∧ s.c.reduceWaitingResponseQueue.has k = true)) ∧
    (∀ k : Int, 0 ≤ k → k < files.length →
      s.c.mapTasks.has k = false → s.c.mapWaitingResponseQueue.has k = false →
      reportedIn es MapPhase k = true) ∧
    (∀ k : Int, 0 ≤ k → k < nReduce →
      s.c.reduceTasks.has k = false → s.c.reduceWaitingResponseQueue.has k = false →
      reportedIn es ReducePhase k = true) ∧
    (∀ k : Int, s.c.mapTasks.has k = false → s.c.mapWaitingResponseQueue.has k = false →
      s'.c.mapTasks.has k = false ∧ s'.c.mapWaitingResponseQueue.has k = false) ∧
    (∀ k : Int, s.c.reduceTasks.has k = false → s.c.reduceWaitingResponseQueue.has k = false →
      s'.c.reduceTasks.has k = false ∧ s'.c.reduceWaitingResponseQueue.has k = false) := by
  refine ⟨?_, ?_, ?_, ?_, ?_⟩
  · exact run_preserves Exclusive exclusive_RequestTask exclusive_ResponseTask
      (fun c hc => hc) exclusive_expiryCheck es _ _
      (exclusive_MakeCoordinator files nReduce) hrun
  · intro k h0 h1 hp hw
    exact ((tracked files nReduce es s hrun k).1 ⟨h0, h1⟩).resolve_left
      ((not_live_iff _ _).mpr ⟨hp, hw⟩)
  · intro k h0 h1 hp hw
    exact ((tracked files nReduce es s hrun k).2 ⟨h0, h1⟩).resolve_left
      ((not_live_iff _ _).mpr ⟨hp, hw⟩)
  · intro k hp hw
    exact (not_live_iff _ _).mp
      (not_liveMap_run k es' s s' ((not_live_iff _ _).mpr ⟨hp, hw⟩) hlater)
  · intro k hp hw
    exact (not_live_iff _ _).mp
      (not_liveReduce_run k es' s s' ((not_live_iff _ _).mpr ⟨hp, hw⟩) hlater)

theorem exclusive_membership_atomic_witness :
    (Sys.init [lit "a"] 1).run runOneMap = some ((Sys.init [lit "a"] 1).runD runOneMap) ∧
      ((Sys.init [lit "a"] 1).runD runOneMap).run laterEvents
        = some ((Sys.init [lit "a"] 1).runD (runOneMap ++ laterEvents)) ∧
      reportedIn runOneMap MapPhase 0 = true ∧
      ((Sys.init [lit "a"] 1).runD
        (runOneMap ++ laterEvents)).c.mapTasks.has 0 = false :=
  ⟨by decide, by decide,
    (exclusive_membership_atomic [lit "a"] 1 runOneMap laterEvents
      ((Sys.init [lit "a"] 1).runD runOneMap)
      ((Sys.init [lit "a"] 1).runD (runOneMap ++ laterEvents))
      (by decide) (by decide)).2.1 0 (by decide) (by decide) (by decide) (by decide),
    ((exclusive_membership_atomic [lit "a"] 1 runOneMap laterEvents
      ((Sys.init [lit "a"] 1).runD runOneMap)
      ((Sys.init [lit "a"] 1).runD (runOneMap ++ laterEvents))
      (by decide) (by decide)).2.2.2.1 0 (by decide) (by decide)).1⟩

/-! ## Granting a task -/

/-- C5: in a state where Done() is false and the pending pool of the current
phase is non-empty, RequestTask (whatever entry the map iteration visits
first) returns Alive=true, Phase = the current phase, a TaskNumber k that
was a key of that pool and FileName equal to the value stored for k;
afterwards k is absent from the pool and present in that phase's
waiting-response queue with the same value; every other entry of these two
maps is unchanged, the two maps of the other phase are unchanged, and so
are the phase and assignWorkerID. -/
theorem requestTask_grant (c : Coordinator) (pick : Nat)
    (hphase : c.phase = MapPhase ∨ c.phase = ReducePhase)
    (hdone : c.Done = false) (hne : c.pendingPool.len ≠ 0) :
    (c.RequestTask pick).2.1.Alive = true ∧
    (c.RequestTask pick).2.1.Phase = c.phase ∧
    c.pendingPool.lookup (c.RequestTask pick).2.1.TaskNumber
      = some (c.RequestTask pick).2.1.FileName ∧
    (c.RequestTask pick).1.pendingPool.lookup (c.RequestTask pick).2.1.TaskNumber = none ∧
    (c.RequestTask pick).1.waitingQueue.lookup (c.RequestTask pick).2.1.TaskNumber
      = some (c.RequestTask pick).2.1.FileName ∧
    (∀ j : Int, j ≠ (c.RequestTask pick).2.1.TaskNumber →
      (c.RequestTask pick).1.pendingPool.lookup j = c.pendingPool.lookup j ∧
      (c.RequestTask pick).1.waitingQueue.lookup j = c.waitingQueue.lookup j) ∧
    (c.phase = MapPhase →
      (c.RequestTask pick).1.reduceTasks = c.reduceTasks ∧
      (c.RequestTask pick).1.reduceWaitingResponseQueue = c.reduceWaitingResponseQueue) ∧
    (c.phase = ReducePhase →
      (c.RequestTask pick).1.mapTasks = c.mapTasks ∧
      (c.RequestTask pick).1.mapWaitingResponseQueue = c.mapWaitingResponseQueue) ∧
    (c.RequestTask pick).1.phase = c.phase ∧
    (c.RequestTask pick).1.assignWorkerID = c.assignWorkerID := by
  rcases RequestTask_cases c pick with ⟨hd, _⟩ | ⟨_, hm, hnil, _⟩ | ⟨_, hm, k, v, hrf, he⟩ |
    ⟨_, hr, hnil, _⟩ | ⟨_, hr, k, v, hrf, he⟩ | ⟨_, h1, h2, _⟩
  · rw [hd] at hdone
    cases hdone
  · exact absurd (by simp [Coordinator.pendingPool, hm, GoMap.len, hnil]) hne
  · have hl := GoMap.rangeFirst_some _ _ _ _ hrf
    rw [he]
    refine ⟨rfl, rfl, ?_, ?_, ?_, ?_, fun _ => ⟨rfl, rfl⟩, ?_, rfl, rfl⟩
    · simpa [Coordinator.pendingPool, hm] using hl
    · simp [Coordinator.pendingPool, hm, GoMap.lookup_delete]
    · simp [Coordinator.waitingQueue, hm, GoMap.lookup_set]
    · intro j hj
      simp only [] at hj
      simp [Coordinator.pendingPool, Coordinator.waitingQueue, hm, GoMap.lookup_delete,
        GoMap.lookup_set, hj]
    · intro h
      exact absurd (hm.symm.trans h) mapPhase_ne_reducePhase
  · have hr' : ¬ c.phase = MapPhase := fun h => mapPhase_ne_reducePhase (h.symm.trans hr)
    exact absurd (by simp [Coordinator.pendingPool, hr', GoMap.len, hnil]) hne
  · have hl := GoMap.rangeFirst_some _ _ _ _ hrf
    have hr' : ¬ c.phase = MapPhase := fun h => mapPhase_ne_reducePhase (h.symm.trans hr)
    rw [he]
    refine ⟨rfl, rfl, ?_, ?_, ?_, ?_, ?_, fun _ => ⟨rfl, rfl⟩, rfl, rfl⟩
    · simpa [Coordinator.pendingPool, hr'] using hl
    · simp [Coordinator.pendingPool, hr', GoMap.lookup_delete]
    · simp [Coordinator.waitingQueue, hr', GoMap.lookup_set]
    · intro j hj
      simp only [] at hj
      simp [Coordinator.pendingPool, Coordinator.waitingQueue, hr', GoMap.lookup_delete,
        GoMap.lookup_set, hj]
    · intro h
      exact absurd h hr'
  · rcases hphase with h | h
    · exact absurd h h1
    · exact absurd h h2

theorem requestTask_grant_witness :
    twoPendingReduces.Done = false ∧
      (twoPendingReduces.RequestTask 1).2.1.TaskNumber = 3 ∧
      (twoPendingReduces.RequestTask 1).2.1.Alive = true ∧
      (twoPendingReduces.RequestTask 1).1.waitingQueue.lookup
          (twoPendingReduces.RequestTask 1).2.1.TaskNumber
        = some (twoPendingReduces.RequestTask 1).2.1.FileName :=
  ⟨by decide, by decide,
    (requestTask_grant twoPendingReduces 1 (Or.inr (by decide)) (by decide) (by decide)).1,
    (requestTask_grant twoPendingReduces 1 (Or.inr (by decide)) (by decide)
      (by decide)).2.2.2.2.1⟩

/-! ## Lease expiry -/

/-- In the Map phase the expiry check for a leased map task moves it, with
its file name, from the waiting-response queue back to the pending pool and
changes nothing else; for a task that is not leased it changes nothing. -/
theorem expiryCheck_mapPhase (c : Coordinator) (k : Int) (hm : c.phase = MapPhase) :
    (∀ v, c.mapWaitingResponseQueue.lookup k = some v →
      c.expiryCheck k =
        { c with mapWaitingResponseQueue := c.mapWaitingResponseQueue.delete k,
                 mapTasks := c.mapTasks.set k v }) ∧
    (c.mapWaitingResponseQueue.lookup k = none → c.expiryCheck k = c) := by
  constructor
  · intro v hv
    simp [Coordinator.expiryCheck, hm, hv]
  · intro hv
    simp [Coordinator.expiryCheck, hm, hv]

/-- After a map task `k` was reclaimed in the Map phase and is the only
pending map task, the next RequestTask grants `k` again. -/
theorem requestTask_after_reclaim (c : Coordinator) (k : Int) (v : GoString) (pick : Nat)
    (hm : c.phase = MapPhase) (hv : c.mapWaitingResponseQueue.lookup k = some v)
    (honly : ∀ j, j ≠ k → c.mapTasks.has j = false) :
    ((c.expiryCheck k).RequestTask pick).2.1.TaskNumber = k ∧
    ((c.expiryCheck k).RequestTask pick).2.1.FileName = v ∧
    ((c.expiryCheck k).RequestTask pick).2.1.Alive = true ∧
    ((c.expiryCheck k).RequestTask pick).2.1.Phase = MapPhase := by
  rw [(expiryCheck_mapPhase c k hm).1 v hv]
  have hphase : ({ c with mapWaitingResponseQueue := c.mapWaitingResponseQueue.delete k,
                          mapTasks := c.mapTasks.set k v } : Coordinator).phase = MapPhase := hm
  have hnil : ({ c with mapWaitingResponseQueue := c.mapWaitingResponseQueue.delete k,
                        mapTasks := c.mapTasks.set k v } : Coordinator).mapTasks.entries ≠ [] := by
    simp [GoMap.set]
  rcases RequestTask_cases { c with mapWaitingResponseQueue := c.mapWaitingResponseQueue.delete k,
                                    mapTasks := c.mapTasks.set k v } pick with
    ⟨hd, _⟩ | ⟨_, _, hn, _⟩ | ⟨_, _, j, w, hrf, he⟩ | ⟨_, hr, _, _⟩ | ⟨_, hr, _, _, _, _⟩ |
    ⟨_, h1, _, _⟩
  · rw [done_iff] at hd
    exact absurd hd.1 hnil
  · exact absurd hn hnil
  · rw [he]
    have hl := GoMap.rangeFirst_some _ _ _ _ hrf
    simp only [] at hl
    rw [GoMap.lookup_set] at hl
    by_cases hj : j = k
    · subst hj
      simp only [if_true, Option.some.injEq] at hl
      exact ⟨rfl, hl.symm, rfl, hm⟩
    · have := honly j hj
      simp only [hj, if_false] at hl
      simp [GoMap.has, hl] at this
  · exact absurd (hphase.symm.trans hr) mapPhase_ne_reducePhase
  · exact absurd (hphase.symm.trans hr) mapPhase_ne_reducePhase
  · exact absurd hphase h1

/-- C3, the code at the failing input: with one input file and one reduce
task, map task 0 is granted and reported, reduce task 0 is granted, and
then the expiry check of the request that granted map task 0 runs.  Map
task 0 had been reported, yet the check changes the coordinator: it takes
reduce task 0 out of reduceWaitingResponseQueue and puts it back into
reduceTasks. -/
theorem expiry_after_report_changes_state :
    (Sys.init [lit "a"] 1).run runUntilFirstTimer = some sysAtFirstTimer ∧
      reportedIn runUntilFirstTimer MapPhase 0 = true ∧
      sysAtFirstTimer.timers[0]?
        = some { deadline := leaseDuration, taskNumber := 0, grantPhase := MapPhase,
                 grantTime := 0 } ∧
      sysAtFirstTimer.c.reduceWaitingResponseQueue.has 0 = true ∧
      (sysAtFirstTimer.step (.expiry 0)).map (fun s => s.c)
        = some (sysAtFirstTimer.c.expiryCheck 0) ∧
      sysAtFirstTimer.c.expiryCheck 0 ≠ sysAtFirstTimer.c ∧
      (sysAtFirstTimer.c.expiryCheck 0).reduceWaitingResponseQueue.has 0 = false ∧
      (sysAtFirstTimer.c.expiryCheck 0).reduceTasks.has 0 = true := by
  decide

/-- C4, the code at the failing input: map task 0 is granted at time 0 and
reported at 9 s, reduce task 0 is granted at 9 s (its own timer fires at
19 s), and at 10 s the expiry check of the first request runs: it finds
task number 0 in reduceWaitingResponseQueue and moves reduce task 0 back to
reduceTasks, 1 s after that lease was granted. -/
theorem lease_reclaimed_before_deadline :
    (Sys.init [lit "a"] 1).run (runNineSeconds ++ [.expiry 0]) = some sysEarlyExpiry ∧
      sysNineSeconds.timers
        = [{ deadline := 10 * Second, taskNumber := 0, grantPhase := MapPhase, grantTime := 0 },
           { deadline := 19 * Second, taskNumber := 0, grantPhase := ReducePhase,
             grantTime := 9 * Second }] ∧
      sysNineSeconds.c.reduceWaitingResponseQueue.has 0 = true ∧
      sysEarlyExpiry.now = 10 * Second ∧
      sysEarlyExpiry.now < 9 * Second + leaseDuration ∧
      sysEarlyExpiry.c.reduceWaitingResponseQueue.has 0 = false ∧
      sysEarlyExpiry.c.reduceTasks.has 0 = true ∧
      sysEarlyExpiry.timers
        = [{ deadline := 19 * Second, taskNumber := 0, grantPhase := ReducePhase,
             grantTime := 9 * Second }] := by
  decide

/-! # Properties of the worker -/

/-! ## The partitioner -/

theorem write32a_eq_fnv1a32From (key : GoString) :
    ∀ h : Nat, Write32a h key = fnv1a32From h key := by
  induction key with
  | nil => intro h; rfl
  | cons b bs ih =>
    intro h
    simp only [Write32a, List.foldl_cons, fnv1a32From]
    exact ih _

theorem ihash_eq (key : GoString) :
    ihash key = ((fnv1a32 key &&& 0x7fffffff : Nat) : Int) := by
  simp only [ihash, fnv1a32, New32a, write32a_eq_fnv1a32From]

theorem ihash_nonneg (key : GoString) : 0 ≤ ihash key := by
  simp only [ihash]
  exact Int.natCast_nonneg _

theorem ihash_lt (key : GoString) : ihash key < 2 ^ 31 := by
  simp only [ihash]
  have h : Write32a New32a key &&& 0x7fffffff < 2 ^ 31 :=
    Nat.and_lt_two_pow _ (by norm_num)
  exact_mod_cast h

theorem bucketIndex_pos (key : GoString) (nReduce : Int) (h : 0 < nReduce) :
    bucketIndex key nReduce = some (ihash key % nReduce) := by
  have hne : ¬ nReduce = 0 := by omega
  simp only [bucketIndex, hne, if_false]
  rw [Int.tmod_eq_emod (ihash_nonneg key) (le_of_lt h)]

theorem route_isSome (nReduce : Int) (h : 0 < nReduce) (kva : List KeyValue) :
    ∀ reduce : List (List KeyValue), (reduce.length : Int) = nReduce →
      (route nReduce reduce kva).isSome = true := by
  induction kva with
  | nil =>
    intro reduce _
    rfl
  | cons kv rest ih =>
    intro reduce hlen
    have h1 : 0 ≤ ihash kv.Key % nReduce := Int.emod_nonneg _ (by omega)
    have h2 : ihash kv.Key % nReduce < nReduce := Int.emod_lt_of_pos _ h
    have hcond : ¬ (ihash kv.Key % nReduce < 0 ∨ (reduce.length : Int) ≤ ihash kv.Key % nReduce) := by
      omega
    simp only [route, bucketIndex_pos _ _ h, hcond, if_false]
    exact ih _ (by rw [List.length_set]; exact hlen)

/-- C8: for every key and every nReduce > 0, the bucket index computed by
doMapTask is ((32-bit FNV-1a hash of the key, offset basis 2166136261, prime
16777619, modulo 2^32) AND 0x7fffffff) mod nReduce; ihash(key) lies in
[0, 2^31), the index lies in [0, nReduce), and the routing loop over any
list of pairs, on a slice of nReduce buckets, never indexes out of range. -/
theorem partitioner_bucket (key : GoString) (nReduce : Int) (h : 0 < nReduce) :
    bucketIndex key nReduce
      = some (((fnv1a32 key &&& 0x7fffffff : Nat) : Int) % nReduce) ∧
    0 ≤ ihash key ∧ ihash key < 2 ^ 31 ∧
    (∀ idx, bucketIndex key nReduce = some idx → 0 ≤ idx ∧ idx < nReduce) ∧
    (∀ (kva : List KeyValue) (reduce : List (List KeyValue)),
      (reduce.length : Int) = nReduce → (route nReduce reduce kva).isSome = true) := by
  refine ⟨?_, ihash_nonneg key, ihash_lt key, ?_, ?_⟩
  · rw [bucketIndex_pos key nReduce h, ihash_eq]
  · intro idx hidx
    rw [bucketIndex_pos key nReduce h] at hidx
    cases hidx
    exact ⟨Int.emod_nonneg _ (by omega), Int.emod_lt_of_pos _ h⟩
  · intro kva reduce hlen
    exact route_isSome nReduce h kva reduce hlen

theorem partitioner_bucket_witness :
    ihash [] = 18652613 ∧ bucketIndex [] 10 = some 3 ∧
      bucketIndex [] 10 = some (((fnv1a32 [] &&& 0x7fffffff : Nat) : Int) % 10) :=
  ⟨by decide, by decide, (partitioner_bucket [] 10 (by decide)).1⟩

/-! ## File names -/

theorem decodeNat_append_singleton (xs : GoString) (d : Byte) :
    decodeNat (xs ++ [d]) = 10 * decodeNat xs + (d.val - 48) := by
  simp [decodeNat, List.foldl_append]

theorem digit_val (d : Nat) (h : d < 10) : ((Fin.ofNat (48 + d) : Byte) : Nat) = 48 + d := by
  simp only [Fin.ofNat]
  omega

theorem decodeNat_natDigits : ∀ fuel n : Nat, n < fuel → decodeNat (natDigits fuel n) = n := by
  intro fuel
  induction fuel with
  | zero =>
    intro n h
    omega
  | succ fuel ih =>
    intro n h
    unfold natDigits
    split_ifs with h10
    · simp only [decodeNat, List.foldl_cons, List.foldl_nil, digit_val n h10]
      omega
    · rw [decodeNat_append_singleton, ih (n / 10) (by omega),
        digit_val (n % 10) (Nat.mod_lt _ (by norm_num))]
      omega

theorem natDigits_isDigit : ∀ (fuel n : Nat) (b : Byte), b ∈ natDigits fuel n →
    48 ≤ b.val ∧ b.val ≤ 57 := by
  intro fuel
  induction fuel with
  | zero =>
    intro n b hb
    simp [natDigits] at hb
  | succ fuel ih =>
    intro n b hb
    unfold natDigits at hb
    split_ifs at hb with h10
    · simp only [List.mem_singleton] at hb
      subst hb
      rw [digit_val n h10]
      omega
    · rcases List.mem_append.mp hb with hb | hb
      · exact ih _ _ hb
      · simp only [List.mem_singleton] at hb
        subst hb
        rw [digit_val (n % 10) (Nat.mod_lt _ (by norm_num))]
        have := Nat.mod_lt n (show 0 < 10 by norm_num)
        omega

theorem Itoa_natCast (n : Nat) : Itoa (n : Int) = natDigits (n + 1) n := by
  have h : ¬ ((n : Int) < 0) := by omega
  simp [Itoa, h]

theorem Itoa_natCast_injective (m n : Nat) (h : Itoa (m : Int) = Itoa (n : Int)) : m = n := by
  rw [Itoa_natCast, Itoa_natCast] at h
  have := congrArg decodeNat h
  rwa [decodeNat_natDigits _ _ (Nat.lt_succ_self m),
    decodeNat_natDigits _ _ (Nat.lt_succ_self n)] at this

theorem shardName_index_injective (t : Int) (b b' : Nat)
    (h : shardName t (b : Int) = shardName t (b' : Int)) : b = b' := by
  unfold shardName at h
  exact Itoa_natCast_injective b b' (List.append_cancel_left h)

/-! ## Routing in `doMapTask` -/

theorem bucketOf_cons (kv : KeyValue) (rest : List KeyValue) (nReduce : Int) (b : Nat) :
    bucketOf (kv :: rest) nReduce b =
      if ihash kv.Key % nReduce = (b : Int) then kv :: bucketOf rest nReduce b
      else bucketOf rest nReduce b := by
  simp only [bucketOf, List.filter_cons]
  split_ifs <;> simp_all

theorem route_spec (nReduce : Int) (h : 0 < nReduce) (kva : List KeyValue) :
    ∀ reduce : List (List KeyValue), reduce.length = nReduce.toNat →
      ∃ out, route nReduce reduce kva = some out ∧ out.length = nReduce.toNat ∧
        ∀ b : Nat, b < nReduce.toNat →
          out[b]? = some (reduce.getD b [] ++ bucketOf kva nReduce b) := by
  induction kva with
  | nil =>
    intro reduce hlen
    refine ⟨reduce, rfl, hlen, ?_⟩
    intro b hb
    have hb' : b < reduce.length := by omega
    simp [bucketOf, List.getD_eq_getElem?_getD, List.getElem?_eq_getElem hb']
  | cons kv rest ih =>
    intro reduce hlen
    have h1 : 0 ≤ ihash kv.Key % nReduce := Int.emod_nonneg _ (by omega)
    have h2 : ihash kv.Key % nReduce < nReduce := Int.emod_lt_of_pos _ h
    have hcond : ¬ (ihash kv.Key % nReduce < 0 ∨ (reduce.length : Int) ≤ ihash kv.Key % nReduce) := by
      omega
    simp only [route, bucketIndex_pos _ _ h, hcond, if_false]
    obtain ⟨out, hout, hlen', hb⟩ :=
      ih (reduce.set (ihash kv.Key % nReduce).toNat
        (reduce.getD (ihash kv.Key % nReduce).toNat [] ++ [kv]))
        (by rw [List.length_set]; exact hlen)
    refine ⟨out, hout, hlen', ?_⟩
    intro b hbn
    rw [hb b hbn, bucketOf_cons]
    have hbl : b < reduce.length := by omega
    by_cases hidx : ihash kv.Key % nReduce = (b : Int)
    · have : (ihash kv.Key % nReduce).toNat = b := by omega
      simp [hidx, List.getD_eq_getElem?_getD, List.getElem?_set, hbl]
    · have : ¬ (ihash kv.Key % nReduce).toNat = b := by omega
      simp [hidx, List.getD_eq_getElem?_getD, List.getElem?_set, this]

theorem mem_shardWrites (t : Int) (n c : GoString) :
    ∀ (reduce : List (List KeyValue)) (index : Nat),
      (n, c) ∈ shardWrites t index reduce ↔
        ∃ (j : Nat) (ys : List KeyValue), reduce[j]? = some ys ∧ ys ≠ [] ∧
          n = shardName t ((index + j : Nat) : Int) ∧ c = encodeRecords ys := by
  intro reduce
  induction reduce with
  | nil =>
    intro index
    simp [shardWrites]
  | cons ys rest ih =>
    intro index
    have hstep : (∃ (j : Nat) (zs : List KeyValue), (ys :: rest)[j]? = some zs ∧ zs ≠ [] ∧
          n = shardName t ((index + j : Nat) : Int) ∧ c = encodeRecords zs) ↔
        ((ys ≠ [] ∧ n = shardName t (index : Int) ∧ c = encodeRecords ys) ∨
          ∃ (j : Nat) (zs : List KeyValue), rest[j]? = some zs ∧ zs ≠ [] ∧
            n = shardName t ((index + 1 + j : Nat) : Int) ∧ c = encodeRecords zs) := by
      constructor
      · rintro ⟨j, zs, hj, hne, hn, hc⟩
        cases j with
        | zero =>
          simp only [List.getElem?_cons_zero, Option.some.injEq] at hj
          subst hj
          exact Or.inl ⟨hne, by simpa using hn, hc⟩
        | succ j =>
          simp only [List.getElem?_cons_succ] at hj
          exact Or.inr ⟨j, zs, hj, hne, by rw [hn]; congr 2; omega, hc⟩
      · rintro (⟨hne, hn, hc⟩ | ⟨j, zs, hj, hne, hn, hc⟩)
        · exact ⟨0, ys, by simp, hne, by simpa using hn, hc⟩
        · exact ⟨j + 1, zs, by simpa using hj, hne, by rw [hn]; congr 2; omega, hc⟩
    rw [hstep]
    unfold shardWrites
    by_cases hys : ys.length > 0
    · have hne : ys ≠ [] := by
        intro h0
        simp [h0] at hys
      simp only [hys, if_true, List.mem_cons, Prod.mk.injEq, ih (index + 1)]
      constructor
      · rintro (⟨h1, h2⟩ | h)
        · exact Or.inl ⟨hne, h1, h2⟩
        · exact Or.inr h
      · rintro (⟨_, h1, h2⟩ | h)
        · exact Or.inl ⟨h1, h2⟩
        · exact Or.inr h
    · have he : ys = [] := by
        cases ys with
        | nil => rfl
        | cons y ys' => simp at hys
      simp only [hys, if_false, ih (index + 1)]
      constructor
      · intro h
        exact Or.inr h
      · rintro (⟨h1, _⟩ | h)
        · exact absurd he h1
        · exact h

theorem takeWhile_dropWhile_sorted (k : GoString) (l : List KeyValue)
    (hs : l.Pairwise (fun a b => a.Key ≤ b.Key)) (hge : ∀ x ∈ l, k ≤ x.Key) :
    l.takeWhile (fun x => decide (x.Key = k)) = l.filter (fun x => decide (x.Key = k)) ∧
    l.dropWhile (fun x => decide (x.Key = k)) = l.filter (fun x => !decide (x.Key = k)) := by
  induction l with
  | nil => simp
  | cons x xs ih =>
    rw [List.pairwise_cons] at hs
    have hge' : ∀ y ∈ xs, k ≤ y.Key := fun y hy => hge y (List.mem_cons_of_mem _ hy)
    by_cases hx : x.Key = k
    · obtain ⟨h1, h2⟩ := ih hs.2 hge'
      simp [List.takeWhile_cons, List.dropWhile_cons, List.filter_cons, hx, h1, h2]
    · have hlt : k < x.Key := lt_of_le_of_ne (hge x (List.mem_cons_self _ _)) (Ne.symm hx)
      have hne : ∀ y ∈ xs, ¬ y.Key = k := by
        intro y hy hyk
        have := hs.1 y hy
        rw [hyk] at this
        exact absurd hlt (not_lt.mpr this)
      have hf1 : xs.filter (fun x => decide (x.Key = k)) = [] := by
        rw [List.filter_eq_nil_iff]
        intro y hy
        simpa using hne y hy
      have hf2 : xs.filter (fun x => !decide (x.Key = k)) = xs := by
        rw [List.filter_eq_self]
        intro y hy
        simpa using hne y hy
      simp [List.takeWhile_cons, List.dropWhile_cons, List.filter_cons, hx, hf1, hf2]

theorem reduceGroups_spec :
    ∀ (fuel : Nat) (l : List KeyValue), l.length ≤ fuel →
      l.Pairwise (fun a b => a.Key ≤ b.Key) →
      ((reduceGroups fuel l).map Prod.fst).Pairwise (· < ·) ∧
      (∀ g ∈ reduceGroups fuel l, (∃ kv ∈ l, kv.Key = g.1) ∧
        g.2 = (l.filter (fun x => decide (x.Key = g.1))).map (fun x => x.Value)) ∧
      (∀ kv ∈ l, kv.Key ∈ (reduceGroups fuel l).map Prod.fst) := by
  intro fuel
  induction fuel with
  | zero =>
    intro l hlen _
    have : l = [] := List.length_eq_zero.mp (by omega)
    subst this
    simp [reduceGroups]
  | succ fuel ih =>
    intro l hlen hs
    cases l with
    | nil => simp [reduceGroups]
    | cons kv rest =>
      rw [List.pairwise_cons] at hs
      obtain ⟨htw, hdw⟩ := takeWhile_dropWhile_sorted kv.Key rest hs.2 hs.1
      have hsub : (rest.dropWhile (fun x => decide (x.Key = kv.Key))).Sublist rest :=
        List.dropWhile_sublist _
      have hlen' : (rest.dropWhile (fun x => decide (x.Key = kv.Key))).length ≤ fuel := by
        have := hsub.length_le
        simp only [List.length_cons] at hlen
        omega
      obtain ⟨ih1, ih2, ih3⟩ := ih _ hlen' (hs.2.sublist hsub)
      have hgt : ∀ g ∈ reduceGroups fuel (rest.dropWhile (fun x => decide (x.Key = kv.Key))),
          kv.Key < g.1 := by
        intro g hg
        obtain ⟨⟨x, hx, hxk⟩, _⟩ := ih2 g hg
        rw [hdw, List.mem_filter] at hx
        have hne : ¬ x.Key = kv.Key := by simpa using hx.2
        rw [← hxk]
        exact lt_of_le_of_ne (hs.1 x hx.1) (Ne.symm hne)
      simp only [reduceGroups]
      refine ⟨?_, ?_, ?_⟩
      · rw [List.map_cons, List.pairwise_cons]
        refine ⟨?_, ih1⟩
        intro k hk
        obtain ⟨g, hg, rfl⟩ := List.mem_map.mp hk
        exact hgt g hg
      · intro g hg
        rcases List.mem_cons.mp hg with rfl | hg
        · refine ⟨⟨kv, List.mem_cons_self _ _, rfl⟩, ?_⟩
          simp [htw, List.filter_cons]
        · obtain ⟨⟨x, hx, hxk⟩, hval⟩ := ih2 g hg
          have hne : ¬ kv.Key = g.1 := ne_of_lt (hgt g hg)
          refine ⟨⟨x, List.mem_cons_of_mem _ (hsub.subset hx), hxk⟩, ?_⟩
          rw [hval, hdw, List.filter_filter, List.filter_cons]
          simp only [hne, decide_False, Bool.false_eq_true, if_false]
          congr 1
          apply List.filter_congr
          intro x _
          by_cases hxg : x.Key = g.1
          · have : ¬ g.1 = kv.Key := fun h => hne h.symm
            simp [hxg, this]
          · simp [hxg]
      · intro x hx
        rw [List.map_cons, List.mem_cons]
        rcases List.mem_cons.mp hx with rfl | hx
        · exact Or.inl rfl
        · by_cases hxk : x.Key = kv.Key
          · exact Or.inl hxk
          · right
            apply ih3
            rw [hdw, List.mem_filter]
            exact ⟨hx, by simpa using hxk⟩

theorem sortsByKey_insertionSortByKey : SortsByKey insertionSortByKey := by
  haveI : IsTotal KeyValue (fun a b => a.Key ≤ b.Key) := ⟨fun a b => le_total a.Key b.Key⟩
  haveI : IsTrans KeyValue (fun a b => a.Key ≤ b.Key) :=
    ⟨fun a b c hab hbc => le_trans hab hbc⟩
  constructor
  · intro l
    exact List.perm_insertionSort _ l
  · intro l
    have h := List.sorted_insertionSort (fun a b : KeyValue => a.Key ≤ b.Key) l
    exact List.Pairwise.imp (fun hab => not_lt.mpr hab) h

theorem reduceCalls_spec (sortSort : List KeyValue → List KeyValue)
    (hsort : SortsByKey sortSort) (intermediate : List KeyValue) :
    ((reduceCalls sortSort intermediate).map Prod.fst).Pairwise (· < ·) ∧
    (∀ k, k ∈ (reduceCalls sortSort intermediate).map Prod.fst ↔
      ∃ kv ∈ intermediate, kv.Key = k) ∧
    (∀ g ∈ reduceCalls sortSort intermediate,
      g.2.Perm ((intermediate.filter (fun x => decide (x.Key = g.1))).map
        (fun x => x.Value))) := by
  have hp := hsort.perm intermediate
  have hs : (sortSort intermediate).Pairwise (fun a b => a.Key ≤ b.Key) :=
    List.Pairwise.imp (fun hab => not_lt.mp hab) (hsort.sorted intermediate)
  obtain ⟨h1, h2, h3⟩ := reduceGroups_spec _ (sortSort intermediate) (le_refl _) hs
  refine ⟨h1, ?_, ?_⟩
  · intro k
    constructor
    · intro hk
      obtain ⟨g, hg, rfl⟩ := List.mem_map.mp hk
      obtain ⟨⟨x, hx, hxk⟩, _⟩ := h2 g hg
      exact ⟨x, hp.mem_iff.mp hx, hxk⟩
    · rintro ⟨x, hx, rfl⟩
      exact h3 x (hp.mem_iff.mpr hx)
  · intro g hg
    obtain ⟨_, hval⟩ := h2 g hg
    have hval' : g.2 = ((sortSort intermediate).filter
        (fun x => decide (x.Key = g.1))).map (fun x => x.Value) := hval
    rw [hval']
    exact (hp.filter _).map _

theorem encodeOutput_eq (Reducef : GoString → List GoString → GoString)
    (groups : List (GoString × List GoString)) :
    encodeOutput Reducef groups
      = (groups.map (fun g => g.1 ++ [32] ++ Reducef g.1 g.2 ++ [10])).flatten := by
  simp only [encodeOutput, formatLine]
  rfl

/-- C10: for every list of parsed pairs `intermediate` and every sort that
meets the contract of sort.Sort(ByKey(...)), the calls of Reducef made by
doReduceTask have strictly increasing keys (so one call, and one output
line, per distinct key), their keys are exactly the keys of the list, and
the values passed with key k are a permutation of the values paired with k
in the list; the output file of doReduceTask consists of the lines
k, space, Reducef(k, vs), newline of these calls, in that order. -/
theorem reduce_side_merge (sortSort : List KeyValue → List KeyValue)
    (hsort : SortsByKey sortSort) (Reducef : GoString → List GoString → GoString)
    (intermediate : List KeyValue) :
    ((reduceCalls sortSort intermediate).map Prod.fst).Pairwise (· < ·) ∧
    (∀ k, k ∈ (reduceCalls sortSort intermediate).map Prod.fst ↔
      ∃ kv ∈ intermediate, kv.Key = k) ∧
    (∀ g ∈ reduceCalls sortSort intermediate,
      g.2.Perm ((intermediate.filter (fun x => decide (x.Key = g.1))).map (fun x => x.Value))) ∧
    (∀ (fs : FS) (t : Task), readShards fs t = intermediate →
      (doReduceTask sortSort Reducef fs t).1 (outName t.TaskNumber)
        = some (((reduceCalls sortSort intermediate).map
            (fun g => g.1 ++ [32] ++ Reducef g.1 g.2 ++ [10])).flatten)) := by
  obtain ⟨h1, h2, h3⟩ := reduceCalls_spec sortSort hsort intermediate
  refine ⟨h1, h2, h3, ?_⟩
  intro fs t hread
  rw [← encodeOutput_eq]
  simp only [doReduceTask, FS.write, if_true, hread]

theorem reduce_side_merge_witness :
    reduceCalls insertionSortByKey
        [⟨lit "b", lit "1"⟩, ⟨lit "a", lit "2"⟩, ⟨lit "b", lit "3"⟩]
      = [(lit "a", [lit "2"]), (lit "b", [lit "1", lit "3"])] ∧
    ((reduceCalls insertionSortByKey
        [⟨lit "b", lit "1"⟩, ⟨lit "a", lit "2"⟩, ⟨lit "b", lit "3"⟩]).map
      Prod.fst).Pairwise (· < ·) :=
  ⟨by decide,
    (reduce_side_merge insertionSortByKey sortsByKey_insertionSortByKey countReducef
      [⟨lit "b", lit "1"⟩, ⟨lit "a", lit "2"⟩, ⟨lit "b", lit "3"⟩]).1⟩

/-! ## Names of shards and outputs -/

theorem split_at_separator (sep : Byte) :
    ∀ (xs xs' ys ys' : GoString), sep ∉ xs → sep ∉ xs' →
      xs ++ sep :: ys = xs' ++ sep :: ys' → xs = xs' ∧ ys = ys' := by
  intro xs
  induction xs with
  | nil =>
    intro xs' ys ys' _ h' h
    cases xs' with
    | nil =>
      simp only [List.nil_append, List.cons.injEq, true_and] at h
      exact ⟨rfl, h⟩
    | cons x xs' =>
      simp only [List.nil_append, List.cons_append, List.cons.injEq] at h
      exact absurd (List.mem_cons.mpr (Or.inl h.1)) h'
  | cons x xs ih =>
    intro xs' ys ys' hx h' h
    cases xs' with
    | nil =>
      simp only [List.nil_append, List.cons_append, List.cons.injEq] at h
      exact absurd (List.mem_cons.mpr (Or.inl h.1.symm)) hx
    | cons x' xs' =>
      simp only [List.cons_append, List.cons.injEq] at h
      obtain ⟨h1, h2⟩ := ih xs' ys ys'
        (fun hm => hx (List.mem_cons_of_mem _ hm))
        (fun hm => h' (List.mem_cons_of_mem _ hm)) h.2
      exact ⟨by rw [h.1, h1], h2⟩

theorem dash_not_mem_Itoa_natCast (n : Nat) : (45 : Byte) ∉ Itoa (n : Int) := by
  rw [Itoa_natCast]
  intro h
  have := natDigits_isDigit _ _ _ h
  have h45 : ((45 : Byte) : Nat) = 45 := rfl
  omega

theorem Itoa_natCast_head (n : Nat) :
    ∃ d rest, Itoa (n : Int) = d :: rest ∧ 48 ≤ d.val ∧ d.val ≤ 57 := by
  rw [Itoa_natCast]
  cases hd : natDigits (n + 1) n with
  | nil =>
    unfold natDigits at hd
    split_ifs at hd
    simp at hd
  | cons d rest =>
    exact ⟨d, rest, rfl, natDigits_isDigit (n + 1) n d (by rw [hd]; exact List.mem_cons_self _ _)⟩

theorem shardName_eq (t index : Int) :
    shardName t index = lit "mr-" ++ (Itoa t ++ (45 : Byte) :: Itoa index) := by
  have h : lit "-" = [(45 : Byte)] := by decide
  simp [shardName, h]

theorem shardName_injective (i j i' j' : Nat)
    (h : shardName (i : Int) (j : Int) = shardName (i' : Int) (j' : Int)) :
    i = i' ∧ j = j' := by
  rw [shardName_eq, shardName_eq] at h
  obtain ⟨h1, h2⟩ := split_at_separator 45 _ _ _ _ (dash_not_mem_Itoa_natCast i)
    (dash_not_mem_Itoa_natCast i') (List.append_cancel_left h)
  exact ⟨Itoa_natCast_injective _ _ h1, Itoa_natCast_injective _ _ h2⟩

theorem outName_injective (r r' : Nat) (h : outName (r : Int) = outName (r' : Int)) :
    r = r' := by
  unfold outName at h
  exact Itoa_natCast_injective _ _ (List.append_cancel_left h)

theorem shardName_ne_outName (i : Nat) (j r : Int) : shardName (i : Int) j ≠ outName r := by
  intro h
  rw [shardName_eq] at h
  have hout : outName r = lit "mr-" ++ ((111 : Byte) :: (lit "ut-" ++ Itoa r)) := by
    have : lit "mr-out-" = lit "mr-" ++ ((111 : Byte) :: lit "ut-") := by decide
    simp [outName, this]
  rw [hout] at h
  have h' := List.append_cancel_left h
  obtain ⟨d, rest, hd, h48, h57⟩ := Itoa_natCast_head i
  rw [hd] at h'
  simp only [List.cons_append, List.cons.injEq] at h'
  have h111 : ((111 : Byte) : Nat) = 111 := rfl
  rw [h'.1] at h57
  omega

/-! ## Reading a shard back -/

theorem Split_of_not_mem (sep : Byte) :
    ∀ xs : GoString, sep ∉ xs → Split sep xs = [xs] := by
  intro xs
  induction xs with
  | nil => intro _; rfl
  | cons x xs ih =>
    intro h
    have hx : ¬ x = sep := fun hx => h (by rw [hx]; exact List.mem_cons_self _ _)
    have ih' := ih (fun hm => h (List.mem_cons_of_mem _ hm))
    simp [Split, hx, ih']

theorem Split_append_separator (sep : Byte) :
    ∀ (xs ys : GoString), sep ∉ xs → Split sep (xs ++ sep :: ys) = xs :: Split sep ys := by
  intro xs
  induction xs with
  | nil =>
    intro ys _
    simp [Split]
  | cons x xs ih =>
    intro ys h
    have hx : ¬ x = sep := fun hx => h (by rw [hx]; exact List.mem_cons_self _ _)
    have ih' := ih ys (fun hm => h (List.mem_cons_of_mem _ hm))
    simp [Split, hx, ih']

/-- Parsing the shard written for `l` gives `l` back when no key and no
value contains a space or a newline. -/
theorem parseShard_encodeRecords :
    ∀ l : List KeyValue,
      (∀ kv ∈ l, (32 : Byte) ∉ kv.Key ∧ (10 : Byte) ∉ kv.Key ∧
        (32 : Byte) ∉ kv.Value ∧ (10 : Byte) ∉ kv.Value) →
      parseShard (encodeRecords l) = l := by
  intro l
  induction l with
  | nil =>
    intro _
    decide
  | cons kv rest ih =>
    intro h
    obtain ⟨hk32, hk10, hv32, hv10⟩ := h kv (List.mem_cons_self _ _)
    have ih' := ih (fun x hx => h x (List.mem_cons_of_mem _ hx))
    have hsp : lit " " = [(32 : Byte)] := by decide
    have hnl : lit "\n" = [(10 : Byte)] := by decide
    have henc : encodeRecords (kv :: rest)
        = (kv.Key ++ (32 : Byte) :: kv.Value) ++ (10 : Byte) :: encodeRecords rest := by
      simp [encodeRecords, formatLine, hsp, hnl]
    have hline : (10 : Byte) ∉ kv.Key ++ (32 : Byte) :: kv.Value := by
      intro hm
      rcases List.mem_append.mp hm with hm | hm
      · exact hk10 hm
      · rcases List.mem_cons.mp hm with hm | hm
        · exact absurd hm (by decide)
        · exact hv10 hm
    have hsplit : Split 32 (kv.Key ++ (32 : Byte) :: kv.Value) = [kv.Key, kv.Value] := by
      rw [Split_append_separator 32 _ _ hk32, Split_of_not_mem 32 _ hv32]
    unfold parseShard at ih' ⊢
    rw [henc, Split_append_separator 10 _ _ hline]
    simp only [parseLines, List.filterMap_cons, hsplit]
    simp only [parseLines] at ih'
    rw [ih']

/-! ## The file system after the map tasks -/

theorem writeAll_of_not_mem (ws : List (GoString × GoString)) :
    ∀ (fs : FS) (n : GoString), n ∉ ws.map Prod.fst → (fs.writeAll ws) n = fs n := by
  induction ws with
  | nil =>
    intro fs n _
    rfl
  | cons w ws ih =>
    intro fs n hn
    simp only [List.map_cons, List.mem_cons, not_or] at hn
    simp only [FS.writeAll, List.foldl_cons]
    have := ih (fs.write w.1 w.2) n hn.2
    simp only [FS.writeAll] at this
    rw [this]
    simp [FS.write, hn.1]

theorem writeAll_of_mem (ws : List (GoString × GoString)) :
    ∀ (fs : FS) (n c : GoString), (∀ c', (n, c') ∈ ws → c' = c) → (n, c) ∈ ws →
      (fs.writeAll ws) n = some c := by
  induction ws with
  | nil =>
    intro fs n c _ h
    simp at h
  | cons w ws ih =>
    intro fs n c hfun hmem
    simp only [FS.writeAll, List.foldl_cons]
    by_cases hex : ∃ c', (n, c') ∈ ws
    · obtain ⟨c', hc'⟩ := hex
      have hcc := hfun c' (List.mem_cons_of_mem _ hc')
      subst hcc
      have := ih (fs.write w.1 w.2) n c'
        (fun c'' h'' => hfun c'' (List.mem_cons_of_mem _ h'')) hc'
      simpa only [FS.writeAll] using this
    · have hw : w = (n, c) := by
        rcases List.mem_cons.mp hmem with h | h
        · exact h.symm
        · exact absurd ⟨c, h⟩ hex
      have hn : n ∉ ws.map Prod.fst := by
        intro hm
        obtain ⟨p, hp, hpn⟩ := List.mem_map.mp hm
        exact hex ⟨p.2, by rw [← hpn]; exact hp⟩
      have := writeAll_of_not_mem ws (fs.write w.1 w.2) n hn
      simp only [FS.writeAll] at this
      rw [this, hw]
      simp [FS.write]

/-- What a map task whose input can be read does to the file system. -/
theorem doMapTask_effect (Mapf : GoString → GoString → List KeyValue) (fs : FS) (t : Task)
    (content : GoString) (hpos : 0 < t.NReduce) (hfile : fs t.FileName = some content) :
    ∃ fs', doMapTask Mapf fs t = some (fs', some t) ∧
      (∀ b : Nat, b < t.NReduce.toNat →
        bucketOf (Mapf t.FileName content) t.NReduce b ≠ [] →
        fs' (shardName t.TaskNumber (b : Int))
          = some (encodeRecords (bucketOf (Mapf t.FileName content) t.NReduce b))) ∧
      (∀ name : GoString,
        (∀ b : Nat, b < t.NReduce.toNat →
          bucketOf (Mapf t.FileName content) t.NReduce b ≠ [] →
          name ≠ shardName t.TaskNumber (b : Int)) →
        fs' name = fs name) := by
  have hmk : makeBuckets t.NReduce = some (List.replicate t.NReduce.toNat []) := by
    have : ¬ t.NReduce < 0 := by omega
    simp [makeBuckets, this]
  obtain ⟨reduce, hroute, hlen, hb⟩ :=
    route_spec t.NReduce hpos (Mapf t.FileName content)
      (List.replicate t.NReduce.toNat []) (by simp)
  have hbucket : ∀ b : Nat, b < t.NReduce.toNat →
      reduce[b]? = some (bucketOf (Mapf t.FileName content) t.NReduce b) := by
    intro b hbn
    rw [hb b hbn]
    simp [List.getD_eq_getElem?_getD, List.getElem?_replicate, hbn]
  have hidx : ∀ (j : Nat) (ys : List KeyValue), reduce[j]? = some ys →
      j < t.NReduce.toNat ∧ ys = bucketOf (Mapf t.FileName content) t.NReduce j := by
    intro j ys hj
    have hjl : j < reduce.length := by
      by_contra hge
      rw [List.getElem?_eq_none (by omega)] at hj
      cases hj
    have hjn : j < t.NReduce.toNat := by omega
    rw [hbucket j hjn] at hj
    cases hj
    exact ⟨hjn, rfl⟩
  refine ⟨fs.writeAll (shardWrites t.TaskNumber 0 reduce), ?_, ?_, ?_⟩
  · simp [doMapTask, hfile, hmk, hroute]
  · intro b hbn hne
    apply writeAll_of_mem
    · intro c' hc'
      obtain ⟨j, ys, hj, _, hn, hcc⟩ := (mem_shardWrites _ _ _ _ _).mp hc'
      have hjb : b = 0 + j := shardName_index_injective _ _ _ hn
      have hjb' : j = b := by omega
      subst hjb'
      rw [hcc, (hidx j ys hj).2]
    · exact (mem_shardWrites _ _ _ _ _).mpr ⟨b, _, hbucket b hbn, hne, by simp, rfl⟩
  · intro name hname
    apply writeAll_of_not_mem
    intro hm
    obtain ⟨p, hp, hpn⟩ := List.mem_map.mp hm
    obtain ⟨j, ys, hj, hne, hn, _⟩ := (mem_shardWrites t.TaskNumber p.1 p.2 _ _).mp hp
    obtain ⟨hjn, hys⟩ := hidx j ys hj
    rw [hys] at hne
    apply hname j hjn hne
    rw [← hpn, hn]
    simp

/-- What a map task does to the file system, whether or not its input can
be read. -/
theorem doMapTask_step (Mapf : GoString → GoString → List KeyValue) (nReduce : Int)
    (hpos : 0 < nReduce) (fs0 fs : FS) (m0 : Nat) (f : GoString) (hff : fs f = fs0 f) :
    ∃ r, doMapTask Mapf fs (mapTaskOf nReduce m0 f) = some r ∧
      (∀ b : Nat, b < nReduce.toNat → bucketOf (emittedBy Mapf fs0 f) nReduce b ≠ [] →
        r.1 (shardName (m0 : Int) (b : Int))
          = some (encodeRecords (bucketOf (emittedBy Mapf fs0 f) nReduce b))) ∧
      (∀ name : GoString,
        (∀ b : Nat, b < nReduce.toNat → bucketOf (emittedBy Mapf fs0 f) nReduce b ≠ [] →
          name ≠ shardName (m0 : Int) (b : Int)) →
        r.1 name = fs name) := by
  cases hc : fs0 f with
  | none =>
    have hem : emittedBy Mapf fs0 f = [] := by simp [emittedBy, hc]
    refine ⟨(fs, none), ?_, ?_, ?_⟩
    · simp [doMapTask, mapTaskOf, hff, hc]
    · intro b _ hne
      rw [hem] at hne
      exact absurd rfl hne
    · intro name _
      rfl
  | some c =>
    have hem : emittedBy Mapf fs0 f = Mapf f c := by simp [emittedBy, hc]
    have hfile : fs (mapTaskOf nReduce m0 f).FileName = some c := by
      simp only [mapTaskOf]
      rw [hff, hc]
    obtain ⟨fs', hdo, e1, e2⟩ := doMapTask_effect Mapf fs (mapTaskOf nReduce m0 f) c hpos hfile
    simp only [mapTaskOf] at e1 e2
    rw [hem]
    exact ⟨(fs', some (mapTaskOf nReduce m0 f)), hdo, e1, e2⟩

theorem runMapTasks_spec (Mapf : GoString → GoString → List KeyValue) (nReduce : Int)
    (hpos : 0 < nReduce) (fs0 : FS) :
    ∀ (rest : List GoString) (m0 : Nat) (fs : FS),
      (∀ f ∈ rest, fs f = fs0 f ∧
        ∀ i j : Nat, m0 ≤ i → i < m0 + rest.length → j < nReduce.toNat →
          f ≠ shardName (i : Int) (j : Int)) →
      (∀ i j : Nat, m0 ≤ i → i < m0 + rest.length → j < nReduce.toNat →
        fs (shardName (i : Int) (j : Int)) = none) →
      ∃ fs1, runMapTasks Mapf nReduce fs m0 rest = some fs1 ∧
        (∀ (k b : Nat) (f : GoString), rest[k]? = some f → b < nReduce.toNat →
          fs1 (shardName ((m0 + k : Nat) : Int) (b : Int)) =
            if bucketOf (emittedBy Mapf fs0 f) nReduce b = [] then none
            else some (encodeRecords (bucketOf (emittedBy Mapf fs0 f) nReduce b))) ∧
        (∀ name : GoString,
          (∀ k b : Nat, k < rest.length → b < nReduce.toNat →
            name ≠ shardName ((m0 + k : Nat) : Int) (b : Int)) →
          fs1 name = fs name) := by
  intro rest
  induction rest with
  | nil =>
    intro m0 fs _ _
    refine ⟨fs, rfl, ?_, ?_⟩
    · intro k b f hk
      simp at hk
    · intro name _
      rfl
  | cons f rest ih =>
    intro m0 fs h1 h2
    obtain ⟨hff, _⟩ := h1 f (List.mem_cons_self _ _)
    obtain ⟨r, hdo, e1, e2⟩ := doMapTask_step Mapf nReduce hpos fs0 fs m0 f hff
    have h1' : ∀ f' ∈ rest, r.1 f' = fs0 f' ∧
        ∀ i j : Nat, m0 + 1 ≤ i → i < m0 + 1 + rest.length → j < nReduce.toNat →
          f' ≠ shardName (i : Int) (j : Int) := by
      intro f' hf'
      obtain ⟨ha, hb⟩ := h1 f' (List.mem_cons_of_mem _ hf')
      refine ⟨?_, ?_⟩
      · rw [e2 f', ha]
        intro b hbn _
        exact hb m0 b (le_refl _) (by simp) hbn
      · intro i j hi hi' hj
        exact hb i j (by omega) (by simp only [List.length_cons]; omega) hj
    have h2' : ∀ i j : Nat, m0 + 1 ≤ i → i < m0 + 1 + rest.length → j < nReduce.toNat →
        r.1 (shardName (i : Int) (j : Int)) = none := by
      intro i j hi hi' hj
      rw [e2]
      · exact h2 i j (by omega) (by simp only [List.length_cons]; omega) hj
      · intro b _ _ heq
        have := (shardName_injective _ _ _ _ heq).1
        omega
    obtain ⟨fs1, hrun, r1, r2⟩ := ih (m0 + 1) r.1 h1' h2'
    refine ⟨fs1, ?_, ?_, ?_⟩
    · simp only [runMapTasks, hdo]
      exact hrun
    · intro k b g hk hbn
      cases k with
      | zero =>
        simp only [List.getElem?_cons_zero, Option.some.injEq] at hk
        subst hk
        have hr2 : fs1 (shardName ((m0 + 0 : Nat) : Int) (b : Int))
            = r.1 (shardName ((m0 + 0 : Nat) : Int) (b : Int)) := by
          apply r2
          intro k' b' _ _ heq
          have := (shardName_injective _ _ _ _ heq).1
          omega
        rw [hr2]
        simp only [Nat.add_zero]
        by_cases hbe : bucketOf (emittedBy Mapf fs0 f) nReduce b = []
        · simp only [hbe, if_true]
          rw [e2]
          · exact h2 m0 b (le_refl _) (by simp) hbn
          · intro b' _ hne heq
            have := (shardName_injective _ _ _ _ heq).2
            subst this
            exact hne hbe
        · simp only [hbe, if_false]
          exact e1 b hbn hbe
      | succ k =>
        simp only [List.getElem?_cons_succ] at hk
        have := r1 k b g hk hbn
        have hidx : m0 + 1 + k = m0 + (k + 1) := by omega
        rw [hidx] at this
        exact this
    · intro name hname
      rw [r2, e2]
      · intro b hbn _
        have := hname 0 b (by simp) hbn
        simpa using this
      · intro k b hk hbn
        have := hname (k + 1) b (by simp only [List.length_cons]; omega) hbn
        have hidx : m0 + 1 + k = m0 + (k + 1) := by omega
        rw [hidx]
        exact this

/-! ## The file system after the reduce tasks -/

theorem flatMap_range_getElem? {α β : Type} (h : α → List β) :
    ∀ (l : List α) (extra : Nat),
      (List.range (l.length + extra)).flatMap (fun i => ((l[i]?).map h).getD []) = l.flatMap h := by
  intro l
  induction l with
  | nil =>
    intro extra
    simp only [List.length_nil, Nat.zero_add, List.flatMap_nil]
    rw [List.flatMap_def]
    simp
  | cons x l ih =>
    intro extra
    have hlen : (x :: l).length + extra = (l.length + extra) + 1 := by
      simp only [List.length_cons]
      omega
    rw [hlen, List.range_succ_eq_map, List.flatMap_cons, List.flatMap_map, List.flatMap_cons]
    simp only [List.getElem?_cons_zero, Option.map_some', Option.getD_some, Nat.succ_eq_add_one,
      List.getElem?_cons_succ]
    rw [ih extra]

theorem readShards_congr (fs fs' : FS) (t : Task)
    (h : ∀ i : Nat, fs (shardName (i : Int) t.TaskNumber) = fs' (shardName (i : Int) t.TaskNumber)) :
    readShards fs t = readShards fs' t := by
  simp only [readShards, h]

theorem runReduceTasks_spec (sortSort : List KeyValue → List KeyValue)
    (Reducef : GoString → List GoString → GoString) (nMap : Nat) (nReduce : Int) (fs1 : FS) :
    ∀ n : Nat,
      (∀ name : GoString, (∀ r : Nat, r < n → name ≠ outName (r : Int)) →
        runReduceTasks sortSort Reducef nMap nReduce fs1 (List.range n) name = fs1 name) ∧
      (∀ r : Nat, r < n →
        runReduceTasks sortSort Reducef nMap nReduce fs1 (List.range n) (outName (r : Int))
          = some (encodeOutput Reducef
              (reduceCalls sortSort (readShards fs1 (reduceTaskOf nMap nReduce r))))) := by
  intro n
  induction n with
  | zero =>
    constructor
    · intro name _
      rfl
    · intro r hr
      omega
  | succ n ih =>
    obtain ⟨iha, ihb⟩ := ih
    have hstep : runReduceTasks sortSort Reducef nMap nReduce fs1 (List.range (n + 1))
        = (runReduceTasks sortSort Reducef nMap nReduce fs1 (List.range n)).write
            (outName (n : Int))
            (encodeOutput Reducef
              (reduceCalls sortSort (readShards fs1 (reduceTaskOf nMap nReduce n)))) := by
      have hread : readShards (runReduceTasks sortSort Reducef nMap nReduce fs1 (List.range n))
          (reduceTaskOf nMap nReduce n) = readShards fs1 (reduceTaskOf nMap nReduce n) := by
        apply readShards_congr
        intro i
        exact iha _ (fun r _ => shardName_ne_outName i _ _)
      simp only [runReduceTasks, List.range_succ, List.foldl_append, List.foldl_cons,
        List.foldl_nil, doReduceTask]
      simp only [runReduceTasks, doReduceTask] at hread
      rw [hread]
      rfl
    rw [hstep]
    constructor
    · intro name hname
      have hne : name ≠ outName (n : Int) := hname n (Nat.lt_succ_self n)
      simp only [FS.write, hne, if_false]
      exact iha name (fun r hr => hname r (Nat.lt_succ_of_lt hr))
    · intro r hr
      by_cases hrn : r = n
      · subst hrn
        simp [FS.write]
      · have hne : outName (r : Int) ≠ outName (n : Int) :=
          fun h => hrn (outName_injective r n h)
        simp only [FS.write, hne, if_false]
        exact ihb r (by omega)

theorem readShards_afterMaps (Mapf : GoString → GoString → List KeyValue) (fs0 fs1 : FS)
    (files : List GoString) (nReduce : Int) (r : Nat) (hr : r < nReduce.toNat)
    (hshards : ∀ (k b : Nat) (f : GoString), files[k]? = some f → b < nReduce.toNat →
      fs1 (shardName (k : Int) (b : Int)) =
        if bucketOf (emittedBy Mapf fs0 f) nReduce b = [] then none
        else some (encodeRecords (bucketOf (emittedBy Mapf fs0 f) nReduce b)))
    (hlast : fs1 (shardName (files.length : Int) (r : Int)) = none)
    (hclean : ∀ kv ∈ emitted Mapf fs0 files, cleanPair kv) :
    readShards fs1 (reduceTaskOf files.length nReduce r)
      = bucketOf (emitted Mapf fs0 files) nReduce r := by
  have hcount : ((files.length : Int) + 1).toNat = files.length + 1 := by omega
  have hg : ∀ i ∈ List.range (files.length + 1),
      (match fs1 (shardName (i : Int) (r : Int)) with
        | none => []
        | some content => parseShard content)
      = ((files[i]?).map (fun f => bucketOf (emittedBy Mapf fs0 f) nReduce r)).getD [] := by
    intro i hi
    rw [List.mem_range] at hi
    by_cases hil : i < files.length
    · have hfi : files[i]? = some files[i] := List.getElem?_eq_getElem hil
      rw [hshards i r files[i] hfi hr, hfi]
      simp only [Option.map_some', Option.getD_some]
      by_cases hbe : bucketOf (emittedBy Mapf fs0 files[i]) nReduce r = []
      · simp [hbe]
      · simp only [hbe, if_false]
        apply parseShard_encodeRecords
        intro kv hkv
        apply hclean
        simp only [emitted, List.mem_flatMap]
        exact ⟨files[i], List.getElem_mem hil, (List.mem_filter.mp hkv).1⟩
    · have hieq : i = files.length := by omega
      subst hieq
      rw [hlast, List.getElem?_eq_none (le_refl _)]
      rfl
  simp only [readShards, reduceTaskOf, hcount]
  rw [List.flatMap_def, List.map_congr_left hg, ← List.flatMap_def,
    flatMap_range_getElem? (fun f => bucketOf (emittedBy Mapf fs0 f) nReduce r) files 1]
  simp only [emitted, bucketOf, List.filter_flatMap]

/-- C7: with a file system that holds no shard mr-i-j of the job (i ≤ nMap,
j < nReduce) and in which every input file exists (or at least is not
named like such a shard), for every nReduce > 0, every list of inputs and
every Map function whose emitted keys and values contain no space or
newline, running doMapTask for every map task 0..nMap-1 and then
doReduceTask for every reduce task 0..nReduce-1 (NMap = nMap) does not
panic, and afterwards the output of every reduce task r consists of the
lines k, space, Reducef(k, vs), newline for strictly increasing keys k,
which are exactly the emitted keys with ihash(k) mod nReduce = r, and vs is
a permutation of all values emitted with k across all map tasks.  So every
emitted key has one line, in the output of reduce task ihash(k) mod nReduce
and in no other. -/
theorem end_to_end_placement (sortSort : List KeyValue → List KeyValue)
    (hsort : SortsByKey sortSort) (Mapf : GoString → GoString → List KeyValue)
    (Reducef : GoString → List GoString → GoString) (files : List GoString)
    (nReduce : Int) (fs0 : FS) (hpos : 0 < nReduce)
    (hinputs : ∀ f ∈ files, fs0 f = none →
      ∀ i j : Nat, i < files.length → j < nReduce.toNat → f ≠ shardName (i : Int) (j : Int))
    (hnoshard : ∀ i j : Nat, i ≤ files.length → j < nReduce.toNat →
      fs0 (shardName (i : Int) (j : Int)) = none)
    (hclean : ∀ kv ∈ emitted Mapf fs0 files, cleanPair kv) :
    ∃ fs', runJob sortSort Mapf Reducef files nReduce fs0 = some fs' ∧
      ∀ r : Nat, r < nReduce.toNat →
        ∃ groups : List (GoString × List GoString),
          fs' (outName (r : Int))
            = some ((groups.map (fun g => g.1 ++ [32] ++ Reducef g.1 g.2 ++ [10])).flatten) ∧
          (groups.map Prod.fst).Pairwise (· < ·) ∧
          (∀ k, k ∈ groups.map Prod.fst ↔
            ((∃ kv ∈ emitted Mapf fs0 files, kv.Key = k) ∧ ihash k % nReduce = (r : Int))) ∧
          (∀ g ∈ groups, g.2.Perm
            (((emitted Mapf fs0 files).filter (fun kv => decide (kv.Key = g.1))).map
              (fun kv => kv.Value))) := by
  have hnames : ∀ f ∈ files, ∀ i j : Nat, i < files.length → j < nReduce.toNat →
      f ≠ shardName (i : Int) (j : Int) := by
    intro f hf i j hi hj
    cases hc : fs0 f with
    | none => exact hinputs f hf hc i j hi hj
    | some c =>
      intro heq
      have := hnoshard i j (by omega) hj
      rw [← heq, hc] at this
      cases this
  obtain ⟨fs1, hrun, r1, r2⟩ := runMapTasks_spec Mapf nReduce hpos fs0 files 0 fs0
    (fun f hf => ⟨rfl, fun i j _ hi hj => hnames f hf i j (by omega) hj⟩)
    (fun i j _ hi hj => hnoshard i j (by omega) hj)
  simp only [Nat.zero_add] at r1 r2
  refine ⟨runReduceTasks sortSort Reducef files.length nReduce fs1 (List.range nReduce.toNat),
    by simp [runJob, hrun], ?_⟩
  intro r hr
  have hlast : fs1 (shardName (files.length : Int) (r : Int)) = none := by
    rw [r2]
    · exact hnoshard files.length r (le_refl _) hr
    · intro k b hk _ heq
      have := (shardName_injective _ _ _ _ heq).1
      omega
  have hread := readShards_afterMaps Mapf fs0 fs1 files nReduce r hr r1 hlast hclean
  have hout := (runReduceTasks_spec sortSort Reducef files.length nReduce fs1 nReduce.toNat).2 r hr
  rw [hread, encodeOutput_eq] at hout
  obtain ⟨h1, h2, h3⟩ := reduceCalls_spec sortSort hsort (bucketOf (emitted Mapf fs0 files) nReduce r)
  have hkeys : ∀ k, k ∈ (reduceCalls sortSort (bucketOf (emitted Mapf fs0 files) nReduce r)).map
      Prod.fst ↔ ((∃ kv ∈ emitted Mapf fs0 files, kv.Key = k) ∧ ihash k % nReduce = (r : Int)) := by
    intro k
    rw [h2 k]
    constructor
    · rintro ⟨kv, hkv, rfl⟩
      simp only [bucketOf, List.mem_filter, decide_eq_true_eq] at hkv
      exact ⟨⟨kv, hkv.1, rfl⟩, hkv.2⟩
    · rintro ⟨⟨kv, hkv, rfl⟩, hh⟩
      refine ⟨kv, ?_, rfl⟩
      simp only [bucketOf, List.mem_filter, decide_eq_true_eq]
      exact ⟨hkv, hh⟩
  refine ⟨_, hout, h1, hkeys, ?_⟩
  intro g hg
  have hgk := ((hkeys g.1).mp (List.mem_map.mpr ⟨g, hg, rfl⟩)).2
  have hfilter : (bucketOf (emitted Mapf fs0 files) nReduce r).filter
      (fun x => decide (x.Key = g.1))
      = (emitted Mapf fs0 files).filter (fun kv => decide (kv.Key = g.1)) := by
    simp only [bucketOf, List.filter_filter]
    apply List.filter_congr
    intro x _
    by_cases hx : x.Key = g.1
    · simp [hx, hgk]
    · simp [hx]
  rw [← hfilter]
  exact h3 g hg

theorem end_to_end_placement_witness :
    (runJob insertionSortByKey wordsMapf countReducef [lit "a", lit "b"] 2 wcFS).map
        (fun fs => (fs (outName 0), fs (outName 1)))
      = some (some (lit "y 2\n"), some (lit "x 2\nz 1\n")) ∧
    ∃ fs', runJob insertionSortByKey wordsMapf countReducef [lit "a", lit "b"] 2 wcFS
        = some fs' ∧
      ∃ groups : List (GoString × List GoString),
        fs' (outName 1)
          = some ((groups.map (fun g => g.1 ++ [32] ++ countReducef g.1 g.2 ++ [10])).flatten) ∧
        (groups.map Prod.fst).Pairwise (· < ·) := by
  refine ⟨by decide, ?_⟩
  obtain ⟨fs', h, hr⟩ := end_to_end_placement insertionSortByKey sortsByKey_insertionSortByKey
    wordsMapf countReducef [lit "a", lit "b"] 2 wcFS (by decide)
    (fun f hf hnone =>
      absurd hnone ((by decide : ∀ f ∈ [lit "a", lit "b"], wcFS f ≠ none) f hf))
    (by
      intro i j hi hj
      have hj' : j < 2 := hj
      simp only [List.length_cons, List.length_nil] at hi
      interval_cases i <;> interval_cases j <;> decide)
    (by decide)
  obtain ⟨groups, hg1, hg2, _⟩ := hr 1 (by decide)
  exact ⟨fs', h, groups, hg1, hg2⟩

/-! ## The shards a reduce task opens -/

theorem readShards_eq_scanNames (fs : FS) (t : Task) :
    readShards fs t = (scanNames t).flatMap (fun name =>
      match fs name with
      | none => []
      | some content => parseShard content) := by
  simp only [readShards, scanNames, List.flatMap_map]

/-- The loop of `doReduceTask` also opens the shard of map task number
`t.NMap`. -/
theorem scanNames_overscan (t : Task) (h : 0 ≤ t.NMap) :
    shardName t.NMap t.TaskNumber ∈ scanNames t := by
  simp only [scanNames, List.mem_map, List.mem_range]
  refine ⟨t.NMap.toNat, by omega, ?_⟩
  rw [Int.toNat_of_nonneg h]

/-- C11, the code at the failing input: for reduce task 0 with NMap = 1
(one map task, id 0) doReduceTask opens mr-0-0 and also mr-1-0, the shard of
the non-existent map task 1; when a file of that name exists, its pairs end
up in the output mr-out-0. -/
theorem reduce_scan_opens_shard_of_task_nMap :
    scanNames (reduceTaskOf 1 1 0) = [lit "mr-0-0", lit "mr-1-0"] ∧
      shardName 1 0 ∈ scanNames (reduceTaskOf 1 1 0) ∧
      readShards staleFS (reduceTaskOf 1 1 0) = [{ Key := lit "k", Value := lit "v" }] ∧
      (doReduceTask insertionSortByKey countReducef staleFS (reduceTaskOf 1 1 0)).1 (outName 0)
        = some (lit "k 1\n") := by
  decide

/-! ## Records -/

/-- C12: for every list of pairs whose keys and values contain no space and
no newline (empty keys and values included), the content doMapTask writes
for the list is each pair as key, space, value, newline, and parsing it with
the line parser of doReduceTask (split on newline, split each line on space,
skip lines with fewer than two fields, take fields 0 and 1) gives back the
same pairs in the same order. -/
theorem record_round_trip (l : List KeyValue) (hclean : ∀ kv ∈ l, cleanPair kv) :
    encodeRecords l = (l.map (fun kv => kv.Key ++ [32] ++ kv.Value ++ [10])).flatten ∧
    parseLines (Split 10 (encodeRecords l)) = l ∧
    parseShard (encodeRecords l) = l := by
  have hrt := parseShard_encodeRecords l hclean
  refine ⟨?_, ?_, hrt⟩
  · simp only [encodeRecords, formatLine]
    rfl
  · simpa only [parseShard] using hrt

theorem record_round_trip_witness :
    (∀ kv ∈ emptyFieldPairs, cleanPair kv) ∧
      encodeRecords emptyFieldPairs = lit " v\nk \nk v\n" ∧
      parseShard (encodeRecords emptyFieldPairs) = emptyFieldPairs :=
  ⟨by decide, by decide, (record_round_trip emptyFieldPairs (by decide)).2.2⟩

/-! ## Names of artifacts -/

theorem shardWrites_names (t : Int) :
    ∀ (reduce : List (List KeyValue)) (index : Nat) (b : Nat) (ys : List KeyValue),
      reduce[b]? = some ys → ys ≠ [] →
      (shardName t ((index + b : Nat) : Int), encodeRecords ys) ∈ shardWrites t index reduce := by
  intro reduce index b ys hb hne
  exact (mem_shardWrites t _ _ reduce index).mpr ⟨b, ys, hb, hne, rfl, rfl⟩

theorem scanNames_getElem? (t : Task) (m : Nat) (hm : (m : Int) ≤ t.NMap) :
    (scanNames t)[m]? = some (shardName (m : Int) t.TaskNumber) := by
  have hlt : m < (t.NMap + 1).toNat := by omega
  simp [scanNames, List.getElem?_map, List.getElem?_range hlt]

/-- C13: for all map task ids m ≥ 0 and bucket indices b ≥ 0, the file
doMapTask writes for a non-empty bucket b of map task m has the name that
doReduceTask for reduce task b opens at scan index m; distinct pairs (m, b)
give distinct shard names, distinct reduce ids give distinct output names,
and no shard name is an output name. -/
theorem artifact_naming (m b : Nat) :
    (∀ (reduce : List (List KeyValue)) (ys : List KeyValue) (t : Task),
      reduce[b]? = some ys → ys ≠ [] → t.TaskNumber = (b : Int) → (m : Int) ≤ t.NMap →
      ∃ name, (name, encodeRecords ys) ∈ shardWrites (m : Int) 0 reduce ∧
        (scanNames t)[m]? = some name ∧
        name = lit "mr-" ++ Itoa (m : Int) ++ lit "-" ++ Itoa (b : Int)) ∧
    (∀ m' b' : Nat, shardName (m : Int) (b : Int) = shardName (m' : Int) (b' : Int) →
      m = m' ∧ b = b') ∧
    (∀ r r' : Nat, outName (r : Int) = outName (r' : Int) → r = r') ∧
    (∀ r : Nat, shardName (m : Int) (b : Int) ≠ outName (r : Int)) := by
  refine ⟨?_, ?_, ?_, ?_⟩
  · intro reduce ys t hb hne ht hm
    refine ⟨shardName (m : Int) (b : Int), ?_, ?_, rfl⟩
    · have := shardWrites_names (m : Int) reduce 0 b ys hb hne
      simpa using this
    · rw [scanNames_getElem? t m hm, ht]
  · intro m' b' h
    exact shardName_injective m b m' b' h
  · intro r r' h
    exact outName_injective r r' h
  · intro r
    exact shardName_ne_outName m _ _

theorem artifact_naming_witness :
    (∃ name, (name, encodeRecords [{ Key := lit "k", Value := lit "v" }])
          ∈ shardWrites 1 0 [[], [], [{ Key := lit "k", Value := lit "v" }]] ∧
        (scanNames (reduceTaskOf 2 3 2))[1]? = some name ∧
        name = lit "mr-" ++ Itoa 1 ++ lit "-" ++ Itoa 2) ∧
      shardName 1 2 = lit "mr-1-2" ∧ shardName 1 2 ≠ outName 2 :=
  ⟨(artifact_naming 1 2).1 [[], [], [{ Key := lit "k", Value := lit "v" }]]
      [{ Key := lit "k", Value := lit "v" }] (reduceTaskOf 2 3 2) (by decide) (by decide)
      (by decide) (by decide),
    by decide, (artifact_naming 1 2).2.2.2 2⟩

/-! # Reports, the exit signal and the idle sentinel -/

theorem GoMap.ext_entries (a b : GoMap) (h : a.entries = b.entries) : a = b := by
  cases a
  cases b
  simp only at h
  subst h
  rfl

theorem GoMap.delete_eq_self (m : GoMap) (k : Int) (h : m.has k = false) : m.delete k = m := by
  apply GoMap.ext_entries
  simp only [GoMap.delete]
  rw [List.filter_eq_self]
  intro e he
  have hnone : GoMap.lookupEntries k m.entries = none := by
    simpa [GoMap.has, GoMap.lookup] using h
  rw [GoMap.lookupEntries_eq_none_iff] at hnone
  have hne : ¬ e.1 = k := by
    intro hek
    exact hnone (List.mem_map.mpr ⟨e, he, hek⟩)
  simp [hne]

theorem GoMap.has_delete_self (m : GoMap) (k : Int) : (m.delete k).has k = false := by
  have h := GoMap.has_delete_iff m k k
  cases hh : (m.delete k).has k with
  | false => rfl
  | true => exact absurd rfl (h.mp hh).1

theorem GoMap.delete_delete (m : GoMap) (k : Int) : (m.delete k).delete k = m.delete k :=
  GoMap.delete_eq_self _ _ (GoMap.has_delete_self m k)

/-- C14: for every coordinator state and every reported task (any
TaskNumber, any Phase), applying ResponseTask twice gives the same state as
applying it once: the second application changes no map and not the phase. -/
theorem responseTask_idempotent (c : Coordinator) (args : Task) :
    (c.ResponseTask args).ResponseTask args = c.ResponseTask args ∧
    ((c.ResponseTask args).ResponseTask args).phase = (c.ResponseTask args).phase := by
  have hmain : (c.ResponseTask args).ResponseTask args = c.ResponseTask args := by
    by_cases hm : args.Phase = MapPhase
    · by_cases hb : c.mapTasks.len = 0 ∧
          (c.mapWaitingResponseQueue.delete args.TaskNumber).len = 0
      · simp [Coordinator.ResponseTask, hm, hb, GoMap.delete_delete]
      · simp [Coordinator.ResponseTask, hm, hb, GoMap.delete_delete]
    · by_cases hr : args.Phase = ReducePhase
      · simp [Coordinator.ResponseTask, hr, mapPhase_ne_reducePhase.symm, GoMap.delete_delete]
      · simp [Coordinator.ResponseTask, hm, hr]
  exact ⟨hmain, by rw [hmain]⟩

theorem responseTask_phase (c : Coordinator) (args : Task) :
    (c.ResponseTask args).phase =
      if args.Phase = MapPhase ∧ c.mapTasks.len = 0 ∧
          (c.mapWaitingResponseQueue.delete args.TaskNumber).len = 0
      then ReducePhase else c.phase := by
  by_cases hm : args.Phase = MapPhase
  · by_cases hb : c.mapTasks.len = 0 ∧
        (c.mapWaitingResponseQueue.delete args.TaskNumber).len = 0
    · rw [if_pos ⟨hm, hb⟩]
      simp [Coordinator.ResponseTask, hm, hb]
    · rw [if_neg (fun h => hb h.2)]
      simp [Coordinator.ResponseTask, hm, hb]
  · rw [if_neg (fun h => hm h.1)]
    by_cases hr : args.Phase = ReducePhase
    · simp [Coordinator.ResponseTask, hr, mapPhase_ne_reducePhase.symm]
    · simp [Coordinator.ResponseTask, hm, hr]

theorem requestTask_phase (c : Coordinator) (pick : Nat) :
    (c.RequestTask pick).1.phase = c.phase := by
  rcases RequestTask_cases c pick with ⟨_, he⟩ | ⟨_, _, _, he⟩ | ⟨_, _, _, _, _, he⟩ |
    ⟨_, _, _, he⟩ | ⟨_, _, _, _, _, he⟩ | ⟨_, _, _, he⟩ <;> rw [he]

theorem expiryCheck_phase (c : Coordinator) (k : Int) : (c.expiryCheck k).phase = c.phase := by
  unfold Coordinator.expiryCheck
  split_ifs with hm hr
  · cases hl : c.mapWaitingResponseQueue.lookup k <;> rfl
  · cases hl : c.reduceWaitingResponseQueue.lookup k <;> rfl
  · rfl

/-- C16, as the claim states it, fails: in the coordinator made for no input
file the phase is Map and, after a report for reduce task 0, mapTasks and
mapWaitingResponseQueue are both empty, yet the phase is still Map: only a
report whose Phase is MapPhase runs the transition test. -/
theorem phase_transition_counterexample :
    noInputs.phase = MapPhase ∧
      (noInputs.ResponseTask (reduceReport 0)).mapTasks.len = 0 ∧
      (noInputs.ResponseTask (reduceReport 0)).mapWaitingResponseQueue.len = 0 ∧
      (noInputs.ResponseTask (reduceReport 0)).phase = MapPhase ∧
      (noInputs.ResponseTask (reduceReport 0)).phase ≠ ReducePhase := by
  decide

/-- C16, amended: for every coordinator state whose phase is Map or Reduce
and every reported task, ResponseTask changes the phase from Map to Reduce
exactly when the coordinator's phase is Map, the Phase of the reported task
is MapPhase and, after removing the reported id from
mapWaitingResponseQueue, mapTasks and mapWaitingResponseQueue are both
empty; in every other case the phase is unchanged; and neither RequestTask,
ResponseTask, Register nor the expiry check changes the phase from Reduce
back to Map. -/
theorem phase_transition (c : Coordinator) (args : Task) (hphase : ValidPhase c) :
    ((c.phase = MapPhase ∧ (c.ResponseTask args).phase = ReducePhase) ↔
      (c.phase = MapPhase ∧ args.Phase = MapPhase ∧ c.mapTasks.len = 0 ∧
        (c.mapWaitingResponseQueue.delete args.TaskNumber).len = 0)) ∧
    (¬ (c.phase = MapPhase ∧ args.Phase = MapPhase ∧ c.mapTasks.len = 0 ∧
        (c.mapWaitingResponseQueue.delete args.TaskNumber).len = 0) →
      (c.ResponseTask args).phase = c.phase) ∧
    (c.phase = ReducePhase →
      (c.ResponseTask args).phase = ReducePhase ∧
      (∀ pick, (c.RequestTask pick).1.phase = ReducePhase) ∧
      (∀ k, (c.expiryCheck k).phase = ReducePhase) ∧
      (c.Register).1.phase = ReducePhase) := by
  have hp := responseTask_phase c args
  refine ⟨?_, ?_, ?_⟩
  · constructor
    · rintro ⟨h1, h2⟩
      rw [hp] at h2
      split_ifs at h2 with hcond
      · exact ⟨h1, hcond⟩
      · exact absurd (h1.symm.trans h2) mapPhase_ne_reducePhase
    · rintro ⟨h1, h2⟩
      refine ⟨h1, ?_⟩
      rw [hp, if_pos h2]
  · intro hn
    rw [hp]
    split_ifs with hcond
    · rcases hphase with h | h
      · exact absurd ⟨h, hcond⟩ hn
      · exact h.symm
    · rfl
  · intro hr
    refine ⟨?_, ?_, ?_, hr⟩
    · rw [hp]
      split_ifs
      · rfl
      · exact hr
    · intro pick
      rw [requestTask_phase]
      exact hr
    · intro k
      rw [expiryCheck_phase]
      exact hr

theorem phase_transition_witness :
    ValidPhase ((Sys.init [lit "a"] 1).runD [.requestTask 0]).c ∧
      ((Sys.init [lit "a"] 1).runD [.requestTask 0]).c.phase = MapPhase ∧
      (((Sys.init [lit "a"] 1).runD [.requestTask 0]).c.ResponseTask
        (mapReport 0 (lit "a"))).phase = ReducePhase :=
  ⟨Or.inl (by decide), by decide,
    ((phase_transition ((Sys.init [lit "a"] 1).runD [.requestTask 0]).c
      (mapReport 0 (lit "a")) (Or.inl (by decide))).1.mpr (by decide)).2⟩

/-- C17: for every coordinator state whose phase is Map or Reduce,
RequestTask returns Alive=false if and only if Done() holds, that is, all
four maps are empty; in that case it changes no coordinator state, and in
every other case it returns Alive=true. -/
theorem exit_signal (c : Coordinator) (pick : Nat) (hphase : ValidPhase c) :
    ((c.RequestTask pick).2.1.Alive = false ↔ c.Done = true) ∧
    (c.Done = true ↔
      (c.mapTasks.entries = [] ∧ c.reduceTasks.entries = [] ∧
        c.mapWaitingResponseQueue.entries = [] ∧ c.reduceWaitingResponseQueue.entries = [])) ∧
    (c.Done = true → (c.RequestTask pick).1 = c) ∧
    (c.Done = false → (c.RequestTask pick).2.1.Alive = true) := by
  have halive : c.Done = false → (c.RequestTask pick).2.1.Alive = true := by
    intro hnd
    rcases RequestTask_cases c pick with ⟨hd, _⟩ | ⟨_, _, _, he⟩ | ⟨_, _, _, _, _, he⟩ |
      ⟨_, _, _, he⟩ | ⟨_, _, _, _, _, he⟩ | ⟨_, h1, h2, _⟩
    · rw [hd] at hnd
      cases hnd
    · rw [he]
    · rw [he]
    · rw [he]
    · rw [he]
    · rcases hphase with h | h
      · exact absurd h h1
      · exact absurd h h2
  have hdone : c.Done = true → c.RequestTask pick = (c, { Task.zero with Alive := false }, false) := by
    intro hd
    simp [Coordinator.RequestTask, hd]
  refine ⟨?_, done_iff c, ?_, halive⟩
  · constructor
    · intro hf
      cases hd : c.Done with
      | true => rfl
      | false =>
        rw [halive hd] at hf
        cases hf
    · intro hd
      rw [hdone hd]
  · intro hd
    rw [hdone hd]

theorem exit_signal_witness :
    ValidPhase finished ∧ finished.Done = true ∧
      (finished.RequestTask 0).2.1.Alive = false ∧
      (twoPendingReduces.RequestTask 0).2.1.Alive = true :=
  ⟨Or.inr (by decide), by decide,
    (exit_signal finished 0 (Or.inr (by decide))).1.mpr (by decide),
    (exit_signal twoPendingReduces 0 (Or.inr (by decide))).2.2.2 (by decide)⟩

/-! ## Invariants of reachable states -/

theorem reachable_validPhase (files : List GoString) (nReduce : Int) (s : Sys)
    (h : Reachable files nReduce s) : ValidPhase s.c := by
  obtain ⟨es, hes⟩ := h
  refine run_preserves ValidPhase ?_ ?_ ?_ ?_ es _ _ (Or.inl rfl) hes
  · intro c pick hc
    unfold ValidPhase
    rw [requestTask_phase]
    exact hc
  · intro c args hc
    unfold ValidPhase
    rw [responseTask_phase]
    split_ifs
    · exact Or.inr rfl
    · exact hc
  · intro c hc
    exact hc
  · intro c k hc
    unfold ValidPhase
    rw [expiryCheck_phase]
    exact hc

theorem mapBusy_RequestTask (c : Coordinator) (pick : Nat) (h : MapBusy c) :
    MapBusy (c.RequestTask pick).1 := by
  rcases RequestTask_cases c pick with ⟨_, he⟩ | ⟨_, _, _, he⟩ | ⟨_, hm, j, v, hrf, he⟩ |
    ⟨_, _, _, he⟩ | ⟨_, hr, j, v, hrf, he⟩ | ⟨_, _, _, he⟩ <;> rw [he]
  · exact h
  · exact h
  · intro _ hb
    simp [GoMap.set] at hb
  · exact h
  · intro hp
    exact absurd (hp.symm.trans hr) mapPhase_ne_reducePhase
  · exact h

theorem mapBusy_ResponseTask (c : Coordinator) (args : Task) (h : MapBusy c) :
    MapBusy (c.ResponseTask args) := by
  intro hp
  rw [responseTask_phase] at hp
  split_ifs at hp with hcond
  · exact absurd hp.symm mapPhase_ne_reducePhase
  · by_cases hm : args.Phase = MapPhase
    · have hb : ¬ (c.mapTasks.len = 0 ∧
          (c.mapWaitingResponseQueue.delete args.TaskNumber).len = 0) := fun hb => hcond ⟨hm, hb⟩
      simp only [Coordinator.ResponseTask, hm, if_true, hb, if_false]
      simpa only [GoMap.len_eq_zero_iff] using hb
    · by_cases hr : args.Phase = ReducePhase
      · simp only [Coordinator.ResponseTask, hm, if_false, hr, if_true]
        exact h hp
      · simp only [Coordinator.ResponseTask, hm, if_false, hr]
        exact h hp

theorem mapBusy_expiryCheck (c : Coordinator) (k : Int) (h : MapBusy c) :
    MapBusy (c.expiryCheck k) := by
  unfold Coordinator.expiryCheck
  split_ifs with hm hr
  · cases hl : c.mapWaitingResponseQueue.lookup k with
    | none => exact h
    | some v =>
      intro _ hb
      simp [GoMap.set] at hb
  · cases hl : c.reduceWaitingResponseQueue.lookup k with
    | none => exact h
    | some v =>
      intro hp
      exact absurd (hp.symm.trans hr) mapPhase_ne_reducePhase
  · exact h

theorem reachable_mapBusy (files : List GoString) (hne : files ≠ []) (nReduce : Int) (s : Sys)
    (h : Reachable files nReduce s) : MapBusy s.c := by
  obtain ⟨es, hes⟩ := h
  refine run_preserves MapBusy mapBusy_RequestTask mapBusy_ResponseTask (fun c hc => hc)
    mapBusy_expiryCheck es _ _ ?_ hes
  intro _ hb
  have h0 : (MakeCoordinator files nReduce).mapTasks.has 0 = true := by
    rw [has_mapTasks_MakeCoordinator]
    refine ⟨le_refl _, ?_⟩
    have : 0 < files.length := List.length_pos.mpr hne
    exact_mod_cast this
  have hb1 : (Sys.init files nReduce).c.mapTasks.entries = [] := hb.1
  rw [show (Sys.init files nReduce).c = MakeCoordinator files nReduce from rfl] at hb1
  rw [GoMap.has_eq_false_of_nil _ _ hb1] at h0
  cases h0

theorem reachable_nonNegKeys (files : List GoString) (nReduce : Int) (s : Sys)
    (h : Reachable files nReduce s) : NonNegKeys s.c := by
  obtain ⟨es, hes⟩ := h
  refine run_preserves NonNegKeys ?_ ?_ (fun c hc => hc) ?_ es _ _ ?_ hes
  · intro c pick hc k hk
    rcases hk with hk | hk
    · exact hc k (Or.inl ((liveMap_RequestTask c pick k).mp hk))
    · exact hc k (Or.inr ((liveReduce_RequestTask c pick k).mp hk))
  · intro c args hc k hk
    rcases hk with hk | hk
    · rcases (liveMap_ResponseTask c args k).mp hk with h1 | ⟨h1, _⟩
      · exact hc k (Or.inl (Or.inl h1))
      · exact hc k (Or.inl (Or.inr h1))
    · rcases (liveReduce_ResponseTask c args k).mp hk with h1 | ⟨h1, _⟩
      · exact hc k (Or.inr (Or.inl h1))
      · exact hc k (Or.inr (Or.inr h1))
  · intro c j hc k hk
    rcases hk with hk | hk
    · exact hc k (Or.inl ((liveMap_expiryCheck c j k).mp hk))
    · exact hc k (Or.inr ((liveReduce_expiryCheck c j k).mp hk))
  · intro k hk
    have hinit : (Sys.init files nReduce).c = MakeCoordinator files nReduce := rfl
    rw [hinit] at hk
    rcases hk with (hk | hk) | (hk | hk)
    · exact ((has_mapTasks_MakeCoordinator files nReduce k).mp hk).1
    · simp [MakeCoordinator, GoMap.has_empty] at hk
    · exact ((has_reduceTasks_MakeCoordinator files nReduce k).mp hk).1
    · simp [MakeCoordinator, GoMap.has_empty] at hk

/-- C15, as the claim states it, fails: the coordinator made for no input
file is in the Map phase with both map structures empty, and a report for
map task 0, which is in no waiting-response queue, moves it to the Reduce
phase. -/
theorem untracked_report_counterexample :
    Reachable [] 1 { c := noInputs, now := 0, timers := [] } ∧
      noInputs.mapWaitingResponseQueue.has 0 = false ∧
      noInputs.phase = MapPhase ∧
      (noInputs.ResponseTask (mapReport 0 (lit "a"))).phase = ReducePhase ∧
      noInputs.ResponseTask (mapReport 0 (lit "a")) ≠ noInputs :=
  ⟨⟨[], rfl⟩, by decide, by decide, by decide, by decide⟩

/-- Reports of untracked tasks in the schedules in which calls of RequestTask
and expiry checks are atomic: for every coordinator state reached by such
steps from MakeCoordinator(files, nReduce) with at least one input file and
every reported task whose TaskNumber is not in the waiting-response queue of
the reported phase, ResponseTask leaves the whole coordinator state
unchanged. -/
theorem untracked_report_noop_atomic (files : List GoString) (hne : files ≠ []) (nReduce : Int)
    (s : Sys) (hreach : Reachable files nReduce s) (args : Task)
    (hmap : args.Phase = MapPhase → s.c.mapWaitingResponseQueue.has args.TaskNumber = false)
    (hred : args.Phase = ReducePhase →
      s.c.reduceWaitingResponseQueue.has args.TaskNumber = false) :
    s.c.ResponseTask args = s.c := by
  have hbusy := reachable_mapBusy files hne nReduce s hreach
  have hbar := reachable_barrier files nReduce s hreach
  have hvalid := reachable_validPhase files nReduce s hreach
  by_cases hm : args.Phase = MapPhase
  · have hdel := GoMap.delete_eq_self _ _ (hmap hm)
    simp only [Coordinator.ResponseTask, hm, if_true, hdel]
    split_ifs with hb
    · rcases hvalid with hp | hp
      · exact absurd (by simpa only [GoMap.len_eq_zero_iff] using hb) (hbusy hp)
      · rw [← hp]
    · rfl
  · by_cases hr : args.Phase = ReducePhase
    · have hdel := GoMap.delete_eq_self _ _ (hred hr)
      simp [Coordinator.ResponseTask, hr, mapPhase_ne_reducePhase.symm, hdel]
    · simp only [Coordinator.ResponseTask, hm, if_false, hr]

theorem untracked_report_noop_atomic_witness :
    Reachable [lit "a"] 1 ((Sys.init [lit "a"] 1).runD runLateReport) ∧
      ((Sys.init [lit "a"] 1).runD runLateReport).c.mapTasks.has 0 = true ∧
      ((Sys.init [lit "a"] 1).runD runLateReport).c.ResponseTask (mapReport 0 (lit "a"))
        = ((Sys.init [lit "a"] 1).runD runLateReport).c :=
  ⟨⟨runLateReport, by decide⟩, by decide,
    untracked_report_noop_atomic [lit "a"] (by decide) 1 _ ⟨runLateReport, by decide⟩
      (mapReport 0 (lit "a")) (fun _ => by decide) (fun _ => by decide)⟩

/-- C18: in every reachable coordinator state in which Done() is false,
RequestTask returns TaskNumber = -1 if and only if the pending pool of the
current phase is empty; in that case Alive=true and the call leaves the
coordinator state unchanged, and the expiry check for id -1, in whatever
reachable state it runs later, changes nothing either. -/
theorem idle_sentinel (files : List GoString) (nReduce : Int) (s : Sys)
    (hreach : Reachable files nReduce s) (hnd : s.c.Done = false) (pick : Nat) :
    ((s.c.RequestTask pick).2.1.TaskNumber = -1 ↔ s.c.pendingPool.len = 0) ∧
    (s.c.pendingPool.len = 0 →
      (s.c.RequestTask pick).2.1.Alive = true ∧ (s.c.RequestTask pick).1 = s.c) ∧
    (∀ s' : Sys, Reachable files nReduce s' → s'.c.expiryCheck (-1) = s'.c) := by
  have hkeys := reachable_nonNegKeys files nReduce s hreach
  have hvalid := reachable_validPhase files nReduce s hreach
  have hgrant : ∀ (m : GoMap) (k : Int) (v : GoString), m.rangeFirst pick = some (k, v) →
      m.has k = true ∧ ¬ m.len = 0 := by
    intro m k v hrf
    refine ⟨GoMap.has_of_lookup _ _ _ (GoMap.rangeFirst_some _ _ _ _ hrf), ?_⟩
    intro h0
    rw [GoMap.len_eq_zero_iff, ← GoMap.rangeFirst_eq_none_iff _ pick, hrf] at h0
    cases h0
  refine ⟨?_, ?_, ?_⟩
  · rcases RequestTask_cases s.c pick with ⟨hd, _⟩ | ⟨_, hm, hnil, he⟩ | ⟨_, hm, k, v, hrf, he⟩ |
      ⟨_, hr, hnil, he⟩ | ⟨_, hr, k, v, hrf, he⟩ | ⟨_, h1, h2, _⟩
    · rw [hd] at hnd
      cases hnd
    · rw [he]
      simp [Coordinator.pendingPool, hm, GoMap.len, hnil]
    · rw [he]
      obtain ⟨hk, hl⟩ := hgrant _ k v hrf
      have h0 := hkeys k (Or.inl (Or.inl hk))
      simp only [Coordinator.pendingPool, hm, if_true]
      constructor
      · intro hneg
        simp only at hneg
        omega
      · intro h
        exact absurd h hl
    · have hr' : ¬ s.c.phase = MapPhase := fun h => mapPhase_ne_reducePhase (h.symm.trans hr)
      rw [he]
      simp [Coordinator.pendingPool, hr', GoMap.len, hnil]
    · have hr' : ¬ s.c.phase = MapPhase := fun h => mapPhase_ne_reducePhase (h.symm.trans hr)
      rw [he]
      obtain ⟨hk, hl⟩ := hgrant _ k v hrf
      have h0 := hkeys k (Or.inr (Or.inl hk))
      simp only [Coordinator.pendingPool, hr', if_false]
      constructor
      · intro hneg
        simp only at hneg
        omega
      · intro h
        exact absurd h hl
    · rcases hvalid with h | h
      · exact absurd h h1
      · exact absurd h h2
  · intro hpool
    rcases RequestTask_cases s.c pick with ⟨hd, _⟩ | ⟨_, hm, hnil, he⟩ | ⟨_, hm, k, v, hrf, he⟩ |
      ⟨_, hr, hnil, he⟩ | ⟨_, hr, k, v, hrf, he⟩ | ⟨_, h1, h2, _⟩
    · rw [hd] at hnd
      cases hnd
    · rw [he]
      exact ⟨rfl, rfl⟩
    · simp only [Coordinator.pendingPool, hm, if_true] at hpool
      exact absurd hpool (hgrant _ k v hrf).2
    · rw [he]
      exact ⟨rfl, rfl⟩
    · have hr' : ¬ s.c.phase = MapPhase := fun h => mapPhase_ne_reducePhase (h.symm.trans hr)
      simp only [Coordinator.pendingPool, hr', if_false] at hpool
      exact absurd hpool (hgrant _ k v hrf).2
    · rcases hvalid with h | h
      · exact absurd h h1
      · exact absurd h h2
  · intro s' hs'
    have hk' := reachable_nonNegKeys files nReduce s' hs'
    have hnot : ∀ m : GoMap, (m.has (-1) = true → (0 : Int) ≤ -1) → m.lookup (-1) = none := by
      intro m hm
      cases hl : m.lookup (-1) with
      | none => rfl
      | some v =>
        have := hm (GoMap.has_of_lookup _ _ _ hl)
        omega
    have h1 := hnot s'.c.mapWaitingResponseQueue (fun h => hk' (-1) (Or.inl (Or.inr h)))
    have h2 := hnot s'.c.reduceWaitingResponseQueue (fun h => hk' (-1) (Or.inr (Or.inr h)))
    unfold Coordinator.expiryCheck
    split_ifs
    · simp only [h1]
    · simp only [h2]
    · rfl

theorem idle_sentinel_witness :
    Reachable [lit "a"] 1 ((Sys.init [lit "a"] 1).runD [.requestTask 0]) ∧
      ((Sys.init [lit "a"] 1).runD [.requestTask 0]).c.Done = false ∧
      ((Sys.init [lit "a"] 1).runD [.requestTask 0]).c.pendingPool.len = 0 ∧
      (((Sys.init [lit "a"] 1).runD [.requestTask 0]).c.RequestTask 0).2.1.TaskNumber = -1 :=
  ⟨⟨[.requestTask 0], by decide⟩, by decide, by decide,
    (idle_sentinel [lit "a"] 1 _ ⟨[.requestTask 0], by decide⟩ (by decide) 0).1.mpr
      (by decide)⟩

/-! ## Worker ids -/

theorem requestTask_assignWorkerID (c : Coordinator) (pick : Nat) :
    (c.RequestTask pick).1.assignWorkerID = c.assignWorkerID := by
  rcases RequestTask_cases c pick with ⟨_, he⟩ | ⟨_, _, _, he⟩ | ⟨_, _, _, _, _, he⟩ |
    ⟨_, _, _, he⟩ | ⟨_, _, _, _, _, he⟩ | ⟨_, _, _, he⟩ <;> rw [he]

theorem responseTask_assignWorkerID (c : Coordinator) (args : Task) :
    (c.ResponseTask args).assignWorkerID = c.assignWorkerID := by
  unfold Coordinator.ResponseTask
  simp only []
  split_ifs <;> rfl

theorem expiryCheck_assignWorkerID (c : Coordinator) (k : Int) :
    (c.expiryCheck k).assignWorkerID = c.assignWorkerID := by
  unfold Coordinator.expiryCheck
  split_ifs with hm hr
  · cases hl : c.mapWaitingResponseQueue.lookup k <;> rfl
  · cases hl : c.reduceWaitingResponseQueue.lookup k <;> rfl
  · rfl

theorem step_assignWorkerID (s s' : Sys) (e : Event) (h : s.step e = some s') :
    s'.c.assignWorkerID = s.c.assignWorkerID + (registerCount [e] : Int) := by
  cases e with
  | requestTask pick =>
    simp only [Sys.step] at h
    split_ifs at h <;>
    · cases h
      simp [registerCount, requestTask_assignWorkerID]
  | responseTask args =>
    simp only [Sys.step, Option.some.injEq] at h
    subst h
    simp [registerCount, responseTask_assignWorkerID]
  | register =>
    simp only [Sys.step, Option.some.injEq] at h
    subst h
    simp [registerCount, Coordinator.Register]
  | expiry i =>
    simp only [Sys.step] at h
    cases ht : s.timers[i]? with
    | none => simp [ht] at h
    | some tm =>
      simp only [ht] at h
      split_ifs at h
      cases h
      simp [registerCount, expiryCheck_assignWorkerID]
  | advance dt =>
    simp only [Sys.step, Option.some.injEq] at h
    subst h
    simp [registerCount]

theorem registerReplies_spec (es : List Event) :
    ∀ s s' : Sys, s.run es = some s' →
      s.registerReplies es
        = (List.range (registerCount es)).map (fun (i : Nat) => s.c.assignWorkerID + (i : Int)) := by
  induction es with
  | nil =>
    intro s s' _
    rfl
  | cons e es ih =>
    intro s s' hrun
    simp only [Sys.run] at hrun
    cases hst : s.step e with
    | none => simp [hst] at hrun
    | some s1 =>
      simp only [hst, Option.some_bind] at hrun
      have hid := step_assignWorkerID s s1 e hst
      have hrec := ih s1 s' hrun
      cases e with
      | register =>
        simp only [Sys.registerReplies, hst, hrec, registerCount, List.range_succ_eq_map,
          List.map_cons, List.map_map]
        simp only [registerCount, Nat.zero_add, Nat.cast_one] at hid
        rw [hid]
        refine congrArg₂ List.cons ?_ ?_
        · simp [Coordinator.Register]
        · apply List.map_congr_left
          intro i _
          simp only [Function.comp, Nat.succ_eq_add_one]
          push_cast
          ring
      | requestTask pick =>
        simp only [registerCount, Nat.cast_zero, add_zero] at hid
        simp only [Sys.registerReplies, hst, hrec, registerCount, hid]
      | responseTask args =>
        simp only [registerCount, Nat.cast_zero, add_zero] at hid
        simp only [Sys.registerReplies, hst, hrec, registerCount, hid]
      | expiry i =>
        simp only [registerCount, Nat.cast_zero, add_zero] at hid
        simp only [Sys.registerReplies, hst, hrec, registerCount, hid]
      | advance dt =>
        simp only [registerCount, Nat.cast_zero, add_zero] at hid
        simp only [Sys.registerReplies, hst, hrec, registerCount, hid]

/-- C19: Register returns the current assignWorkerID and increments it by
one, touching no other field; along every run from MakeCoordinator, with
any RequestTask, ResponseTask and expiry steps in between, the Register
calls return 0, 1, 2, ... in order, so the returned ids are strictly
increasing and none is returned twice. -/
theorem register_ids (files : List GoString) (nReduce : Int) (es : List Event) (s : Sys)
    (hrun : (Sys.init files nReduce).run es = some s) :
    (∀ c : Coordinator,
      c.Register = ({ c with assignWorkerID := c.assignWorkerID + 1 }, c.assignWorkerID)) ∧
    (Sys.init files nReduce).registerReplies es
      = (List.range (registerCount es)).map (fun (n : Nat) => (n : Int)) ∧
    ((Sys.init files nReduce).registerReplies es).Pairwise (· < ·) ∧
    ((Sys.init files nReduce).registerReplies es).Nodup := by
  have hrep := registerReplies_spec es _ s hrun
  have h0 : (Sys.init files nReduce).c.assignWorkerID = 0 := rfl
  simp only [h0, zero_add] at hrep
  have hpw : ((List.range (registerCount es)).map (fun (n : Nat) => (n : Int))).Pairwise
      (· < ·) := by
    rw [List.pairwise_map]
    exact List.Pairwise.imp (fun h => by exact_mod_cast h) (List.pairwise_lt_range _)
  refine ⟨fun c => rfl, hrep, ?_, ?_⟩
  · rw [hrep]
    exact hpw
  · rw [hrep]
    exact hpw.imp (fun h => ne_of_lt h)

theorem register_ids_witness :
    (Sys.init [lit "a"] 1).run runThreeWorkers
        = some ((Sys.init [lit "a"] 1).runD runThreeWorkers) ∧
      (Sys.init [lit "a"] 1).registerReplies runThreeWorkers = [0, 1, 2] ∧
      ((Sys.init [lit "a"] 1).registerReplies runThreeWorkers).Nodup :=
  ⟨by decide, by decide,
    (register_ids [lit "a"] 1 runThreeWorkers ((Sys.init [lit "a"] 1).runD runThreeWorkers)
      (by decide)).2.2.2⟩

/-! ## Completion of the job -/

theorem GoMap.mem_keys_iff (m : GoMap) (k : Int) : k ∈ m.keys ↔ m.has k = true := by
  have h := GoMap.lookupEntries_eq_none_iff k m.entries
  simp only [GoMap.keys, GoMap.has, GoMap.lookup]
  cases hl : GoMap.lookupEntries k m.entries with
  | none =>
    rw [hl] at h
    simp [h.mp rfl]
  | some v =>
    rw [hl] at h
    simp only [Option.isSome_some, iff_true]
    by_contra hn
    have := h.mpr hn
    cases this

theorem keys_perm_filter (k : Int) :
    ∀ l : List (Int × GoString), (l.map Prod.fst).Nodup → k ∈ l.map Prod.fst →
      (l.map Prod.fst).Perm (k :: (l.filter (fun e => !decide (e.1 = k))).map Prod.fst) := by
  intro l
  induction l with
  | nil =>
    intro _ h
    simp at h
  | cons e rest ih =>
    intro hnd hk
    rw [List.map_cons, List.nodup_cons] at hnd
    by_cases he : e.1 = k
    · have hrest : rest.filter (fun e => !decide (e.1 = k)) = rest := by
        rw [List.filter_eq_self]
        intro x hx
        have : ¬ x.1 = k := by
          intro hxk
          apply hnd.1
          rw [he, ← hxk]
          exact List.mem_map.mpr ⟨x, hx, rfl⟩
        simp [this]
      simp only [List.filter_cons, he, decide_True, Bool.not_true, Bool.false_eq_true, if_false,
        hrest, List.map_cons]
      exact List.Perm.refl _
    · have hk' : k ∈ rest.map Prod.fst := by
        rw [List.map_cons] at hk
        rcases List.mem_cons.mp hk with h | h
        · exact absurd h.symm he
        · exact h
      simp only [List.filter_cons, he, decide_False, Bool.not_false, if_true, List.map_cons]
      exact ((ih hnd.2 hk').cons e.1).trans (List.Perm.swap _ _ _)

theorem GoMap.keys_perm_delete (m : GoMap) (k : Int) (h : m.has k = true) :
    m.keys.Perm (k :: (m.delete k).keys) :=
  keys_perm_filter k m.entries m.nodupKeys ((GoMap.mem_keys_iff m k).mpr h)

theorem GoMap.keys_eq_nil_iff (m : GoMap) : m.keys = [] ↔ m.entries = [] := by
  simp [GoMap.keys]

/-- One round in the Map phase when no map task is leased and some map task
is pending. -/
theorem requestAndReport_map (c : Coordinator) (pick : Nat) (hm : c.phase = MapPhase)
    (hw : c.mapWaitingResponseQueue.entries = []) (hp : c.mapTasks.entries ≠ []) :
    ∃ k, c.mapTasks.has k = true ∧
      (c.requestAndReport pick).2.TaskNumber = k ∧
      (c.requestAndReport pick).2.Alive = true ∧
      (c.requestAndReport pick).2.Phase = MapPhase ∧
      (c.requestAndReport pick).1.mapTasks = c.mapTasks.delete k ∧
      (c.requestAndReport pick).1.mapWaitingResponseQueue.entries = [] ∧
      (c.requestAndReport pick).1.reduceTasks = c.reduceTasks ∧
      (c.requestAndReport pick).1.reduceWaitingResponseQueue = c.reduceWaitingResponseQueue ∧
      (c.requestAndReport pick).1.phase
        = (if (c.mapTasks.delete k).entries = [] then ReducePhase else MapPhase) := by
  rcases RequestTask_cases c pick with ⟨hd, _⟩ | ⟨_, _, hnil, _⟩ | ⟨_, _, k, v, hrf, he⟩ |
    ⟨_, hr, _, _⟩ | ⟨_, hr, _, _, _, _⟩ | ⟨_, h1, _, _⟩
  · rw [done_iff] at hd
    exact absurd hd.1 hp
  · exact absurd hnil hp
  · have hk := GoMap.has_of_lookup _ _ _ (GoMap.rangeFirst_some _ _ _ _ hrf)
    have hwait : ((c.mapWaitingResponseQueue.set k v).delete k).entries = [] := by
      simp [GoMap.delete, GoMap.set, hw]
    refine ⟨k, hk, ?_⟩
    simp only [Coordinator.requestAndReport, he]
    by_cases hb : (c.mapTasks.delete k).entries = []
    · have hcond : (c.mapTasks.delete k).len = 0 ∧
          ((c.mapWaitingResponseQueue.set k v).delete k).len = 0 := by
        simp [GoMap.len, hb, hwait]
      simp [Coordinator.ResponseTask, hm, hcond, hb, hwait]
    · have hcond : ¬ ((c.mapTasks.delete k).len = 0 ∧
          ((c.mapWaitingResponseQueue.set k v).delete k).len = 0) := by
        intro h
        exact hb ((GoMap.len_eq_zero_iff _).mp h.1)
      simp [Coordinator.ResponseTask, hm, hcond, hb, hwait]
  · exact absurd (hm.symm.trans hr) mapPhase_ne_reducePhase
  · exact absurd (hm.symm.trans hr) mapPhase_ne_reducePhase
  · exact absurd hm h1

/-- One round in the Reduce phase when no reduce task is leased and some
reduce task is pending. -/
theorem requestAndReport_reduce (c : Coordinator) (pick : Nat) (hr : c.phase = ReducePhase)
    (hw : c.reduceWaitingResponseQueue.entries = []) (hp : c.reduceTasks.entries ≠ []) :
    ∃ k, c.reduceTasks.has k = true ∧
      (c.requestAndReport pick).2.TaskNumber = k ∧
      (c.requestAndReport pick).2.Alive = true ∧
      (c.requestAndReport pick).2.Phase = ReducePhase ∧
      (c.requestAndReport pick).1.reduceTasks = c.reduceTasks.delete k ∧
      (c.requestAndReport pick).1.reduceWaitingResponseQueue.entries = [] ∧
      (c.requestAndReport pick).1.mapTasks = c.mapTasks ∧
      (c.requestAndReport pick).1.mapWaitingResponseQueue = c.mapWaitingResponseQueue ∧
      (c.requestAndReport pick).1.phase = ReducePhase := by
  have hm' : ¬ c.phase = MapPhase := fun h => mapPhase_ne_reducePhase (h.symm.trans hr)
  rcases RequestTask_cases c pick with ⟨hd, _⟩ | ⟨_, hm, _, _⟩ | ⟨_, hm, _, _, _, _⟩ |
    ⟨_, _, hnil, _⟩ | ⟨_, _, k, v, hrf, he⟩ | ⟨_, _, h2, _⟩
  · rw [done_iff] at hd
    exact absurd hd.2.1 hp
  · exact absurd hm hm'
  · exact absurd hm hm'
  · exact absurd hnil hp
  · have hk := GoMap.has_of_lookup _ _ _ (GoMap.rangeFirst_some _ _ _ _ hrf)
    have hwait : ((c.reduceWaitingResponseQueue.set k v).delete k).entries = [] := by
      simp [GoMap.delete, GoMap.set, hw]
    refine ⟨k, hk, ?_⟩
    simp only [Coordinator.requestAndReport, he]
    simp [Coordinator.ResponseTask, hr, mapPhase_ne_reducePhase.symm, hwait]
  · exact absurd hr h2

theorem drainMap (picks : List Nat) :
    ∀ c : Coordinator, c.phase = MapPhase → c.mapWaitingResponseQueue.entries = [] →
      c.mapTasks.keys.length = picks.length → picks ≠ [] →
      (c.rounds picks).1.phase = ReducePhase ∧
      (c.rounds picks).1.mapTasks.entries = [] ∧
      (c.rounds picks).1.mapWaitingResponseQueue.entries = [] ∧
      (c.rounds picks).1.reduceTasks = c.reduceTasks ∧
      (c.rounds picks).1.reduceWaitingResponseQueue = c.reduceWaitingResponseQueue ∧
      ((c.rounds picks).2.map (fun t => t.TaskNumber)).Perm c.mapTasks.keys ∧
      (∀ t ∈ (c.rounds picks).2, t.Alive = true ∧ t.Phase = MapPhase) := by
  induction picks with
  | nil =>
    intro c _ _ _ h
    exact absurd rfl h
  | cons p ps ih =>
    intro c hm hw hlen _
    have hp : c.mapTasks.entries ≠ [] := by
      intro h0
      simp [GoMap.keys, h0] at hlen
    obtain ⟨k, hk, ht, ha, hph, h1, h2, h3, h4, h5⟩ := requestAndReport_map c p hm hw hp
    have hperm := GoMap.keys_perm_delete c.mapTasks k hk
    have hlen2 : (c.requestAndReport p).1.mapTasks.keys.length = ps.length := by
      rw [h1]
      have := hperm.length_eq
      simp only [List.length_cons] at this hlen
      omega
    simp only [Coordinator.rounds]
    by_cases hps : ps = []
    · subst hps
      have hnil : (c.mapTasks.delete k).entries = [] := by
        rw [h1] at hlen2
        rw [← GoMap.keys_eq_nil_iff]
        exact List.length_eq_zero.mp hlen2
      simp only [Coordinator.rounds]
      refine ⟨?_, ?_, h2, h3, h4, ?_, ?_⟩
      · rw [h5, if_pos hnil]
      · rw [h1]
        exact hnil
      · have hk0 : (c.mapTasks.delete k).keys = [] := (GoMap.keys_eq_nil_iff _).mpr hnil
        rw [hk0] at hperm
        simp only [List.map_cons, List.map_nil, ht]
        exact hperm.symm
      · intro t htm
        simp only [List.mem_singleton] at htm
        subst htm
        exact ⟨ha, hph⟩
    · have hne2 : (c.mapTasks.delete k).entries ≠ [] := by
        intro h0
        rw [h1] at hlen2
        simp only [GoMap.keys, h0, List.map_nil, List.length_nil] at hlen2
        exact hps (List.length_eq_zero.mp hlen2.symm)
      have hm2 : (c.requestAndReport p).1.phase = MapPhase := by
        rw [h5, if_neg hne2]
      obtain ⟨i1, i2, i3, i4, i5, i6, i7⟩ := ih (c.requestAndReport p).1 hm2 h2 hlen2 hps
      refine ⟨i1, i2, i3, i4.trans h3, i5.trans h4, ?_, ?_⟩
      · simp only [List.map_cons, ht]
        rw [h1] at i6
        exact (i6.cons k).trans hperm.symm
      · intro t htm
        rcases List.mem_cons.mp htm with h | h
        · subst h
          exact ⟨ha, hph⟩
        · exact i7 t h

theorem drainReduce (picks : List Nat) :
    ∀ c : Coordinator, c.phase = ReducePhase → c.reduceWaitingResponseQueue.entries = [] →
      c.mapTasks.entries = [] → c.mapWaitingResponseQueue.entries = [] →
      c.reduceTasks.keys.length = picks.length →
      (c.rounds picks).1.phase = ReducePhase ∧
      (c.rounds picks).1.Done = true ∧
      ((c.rounds picks).2.map (fun t => t.TaskNumber)).Perm c.reduceTasks.keys ∧
      (∀ t ∈ (c.rounds picks).2, t.Alive = true ∧ t.Phase = ReducePhase) := by
  induction picks with
  | nil =>
    intro c hr hw hmt hmw hlen
    have hnil : c.reduceTasks.entries = [] := by
      rw [← GoMap.keys_eq_nil_iff]
      exact List.length_eq_zero.mp hlen
    simp only [Coordinator.rounds]
    refine ⟨hr, (done_iff c).mpr ⟨hmt, hnil, hmw, hw⟩, ?_, ?_⟩
    · rw [(GoMap.keys_eq_nil_iff _).mpr hnil]
      exact List.Perm.refl _
    · intro t ht
      simp at ht
  | cons p ps ih =>
    intro c hr hw hmt hmw hlen
    have hp : c.reduceTasks.entries ≠ [] := by
      intro h0
      simp [GoMap.keys, h0] at hlen
    obtain ⟨k, hk, ht, ha, hph, h1, h2, h3, h4, h5⟩ := requestAndReport_reduce c p hr hw hp
    have hperm := GoMap.keys_perm_delete c.reduceTasks k hk
    have hlen2 : (c.requestAndReport p).1.reduceTasks.keys.length = ps.length := by
      rw [h1]
      have := hperm.length_eq
      simp only [List.length_cons] at this hlen
      omega
    obtain ⟨i1, i2, i3, i4⟩ := ih (c.requestAndReport p).1 h5 h2 (by rw [h3]; exact hmt)
      (by rw [h4]; exact hmw) hlen2
    simp only [Coordinator.rounds]
    refine ⟨i1, i2, ?_, ?_⟩
    · simp only [List.map_cons, ht]
      rw [h1] at i3
      exact (i3.cons k).trans hperm.symm
    · intro t htm
      rcases List.mem_cons.mp htm with h | h
      · subst h
        exact ⟨ha, hph⟩
      · exact i4 t h

theorem rounds_append (p1 p2 : List Nat) :
    ∀ c : Coordinator,
      c.rounds (p1 ++ p2)
        = (((c.rounds p1).1.rounds p2).1, (c.rounds p1).2 ++ ((c.rounds p1).1.rounds p2).2) := by
  induction p1 with
  | nil =>
    intro c
    simp [Coordinator.rounds]
  | cons p ps ih =>
    intro c
    have h := ih (c.requestAndReport p).1
    simp only [List.cons_append, Coordinator.rounds, List.append_eq] at h ⊢
    rw [h]

theorem keys_perm_range (m : GoMap) (n : Nat)
    (h : ∀ k : Int, m.has k = true ↔ (0 ≤ k ∧ k < (n : Int))) :
    m.keys.Perm ((List.range n).map (fun (i : Nat) => (i : Int))) := by
  have hnd2 : ((List.range n).map (fun (i : Nat) => (i : Int))).Nodup :=
    (List.nodup_range n).map (fun a b hab => by exact_mod_cast hab)
  have hnd1 : m.keys.Nodup := m.nodupKeys
  rw [List.perm_ext_iff_of_nodup hnd1 hnd2]
  intro k
  rw [GoMap.mem_keys_iff, h k]
  simp only [List.mem_map, List.mem_range]
  constructor
  · rintro ⟨h0, h1⟩
    exact ⟨k.toNat, by omega, by omega⟩
  · rintro ⟨i, hi, rfl⟩
    exact ⟨by omega, by omega⟩

theorem rounds_run (picks : List Nat) :
    ∀ s : Sys, ∃ s', s.run (roundEvents s.c picks) = some s' ∧ s'.c = (s.c.rounds picks).1 := by
  induction picks with
  | nil =>
    intro s
    exact ⟨s, rfl, rfl⟩
  | cons p ps ih =>
    intro s
    obtain ⟨s1, hs1, hc1⟩ : ∃ s1, s.step (.requestTask p) = some s1 ∧
        s1.c = (s.c.RequestTask p).1 := by
      simp only [Sys.step]
      split_ifs
      · exact ⟨_, rfl, rfl⟩
      · exact ⟨_, rfl, rfl⟩
    have hs2 : s1.step (.responseTask (s.c.requestAndReport p).2)
        = some { s1 with c := (s.c.requestAndReport p).1 } := by
      simp only [Sys.step, hc1, Coordinator.requestAndReport]
    obtain ⟨s', hrun, hc⟩ := ih { s1 with c := (s.c.requestAndReport p).1 }
    refine ⟨s', ?_, ?_⟩
    · simp only [roundEvents, Sys.run, hs1, Option.some_bind, hs2]
      exact hrun
    · rw [hc]
      simp only [Coordinator.rounds]

/-- C20: for every non-empty list of input files and every nReduce, from
MakeCoordinator(files, nReduce) any len(files) + nReduce rounds of
RequestTask followed by ResponseTask for the task just granted (whatever
entry each RequestTask picks) form a run of the coordinator after which the
phase is Reduce and Done() is true; every reply is a grant (Alive, not the
idle sentinel -1): first every map task 0..len(files)-1 exactly once, then
every reduce task 0..nReduce-1 exactly once. -/
theorem job_completes (files : List GoString) (hne : files ≠ []) (nReduce : Int)
    (picks : List Nat) (hlen : picks.length = files.length + nReduce.toNat) :
    ((MakeCoordinator files nReduce).rounds picks).1.phase = ReducePhase ∧
    ((MakeCoordinator files nReduce).rounds picks).1.Done = true ∧
    (∃ s, (Sys.init files nReduce).run (roundEvents (MakeCoordinator files nReduce) picks)
        = some s ∧ s.c = ((MakeCoordinator files nReduce).rounds picks).1) ∧
    (∀ t ∈ ((MakeCoordinator files nReduce).rounds picks).2,
      t.Alive = true ∧ t.TaskNumber ≠ -1) ∧
    (∃ gm gr : List Task, ((MakeCoordinator files nReduce).rounds picks).2 = gm ++ gr ∧
      (∀ t ∈ gm, t.Phase = MapPhase) ∧
      (gm.map (fun t => t.TaskNumber)).Perm
        ((List.range files.length).map (fun (i : Nat) => (i : Int))) ∧
      (∀ t ∈ gr, t.Phase = ReducePhase) ∧
      (gr.map (fun t => t.TaskNumber)).Perm
        ((List.range nReduce.toNat).map (fun (i : Nat) => (i : Int)))) := by
  have hkm := keys_perm_range (MakeCoordinator files nReduce).mapTasks files.length
    (fun k => has_mapTasks_MakeCoordinator files nReduce k)
  have hkr := keys_perm_range (MakeCoordinator files nReduce).reduceTasks nReduce.toNat
    (fun k => by
      rw [has_reduceTasks_MakeCoordinator]
      constructor
      · rintro ⟨h0, h1⟩
        exact ⟨h0, by omega⟩
      · rintro ⟨h0, h1⟩
        exact ⟨h0, by omega⟩)
  have hpos : 0 < files.length := List.length_pos.mpr hne
  have hsplit : picks = picks.take files.length ++ picks.drop files.length :=
    (List.take_append_drop _ _).symm
  have hl1 : (picks.take files.length).length = files.length := by
    rw [List.length_take]
    omega
  have hl2 : (picks.drop files.length).length = nReduce.toNat := by
    rw [List.length_drop]
    omega
  have hne1 : picks.take files.length ≠ [] := by
    intro h0
    rw [h0] at hl1
    simp only [List.length_nil] at hl1
    omega
  obtain ⟨m1, m2, m3, m4, m5, m6, m7⟩ := drainMap (picks.take files.length)
    (MakeCoordinator files nReduce) rfl rfl
    (by rw [hkm.length_eq, List.length_map, List.length_range, hl1]) hne1
  have hw2 : ((MakeCoordinator files nReduce).rounds
      (picks.take files.length)).1.reduceWaitingResponseQueue.entries = [] := by
    rw [m5]
    rfl
  obtain ⟨r1, r2, r3, r4⟩ := drainReduce (picks.drop files.length)
    ((MakeCoordinator files nReduce).rounds (picks.take files.length)).1 m1 hw2 m2 m3
    (by rw [m4, hkr.length_eq, List.length_map, List.length_range, hl2])
  have hrounds := rounds_append (picks.take files.length) (picks.drop files.length)
    (MakeCoordinator files nReduce)
  rw [← hsplit] at hrounds
  have hm6 := m6.trans hkm
  have hr3 : (((MakeCoordinator files nReduce).rounds (picks.take files.length)).1.rounds
      (picks.drop files.length)).2.map (fun t => t.TaskNumber) |>.Perm
      ((List.range nReduce.toNat).map (fun (i : Nat) => (i : Int))) := by
    refine r3.trans ?_
    rw [m4]
    exact hkr
  have hnonneg : ∀ (g : List Task) (n : Nat),
      (g.map (fun t => t.TaskNumber)).Perm ((List.range n).map (fun (i : Nat) => (i : Int))) →
      ∀ t ∈ g, t.TaskNumber ≠ -1 := by
    intro g n hperm t ht hneg
    have hmem : t.TaskNumber ∈ (List.range n).map (fun (i : Nat) => (i : Int)) :=
      hperm.mem_iff.mp (List.mem_map.mpr ⟨t, ht, rfl⟩)
    obtain ⟨i, _, hi⟩ := List.mem_map.mp hmem
    rw [hneg] at hi
    omega
  rw [hrounds]
  refine ⟨r1, r2, ?_, ?_, ?_⟩
  · obtain ⟨s, hs, hc⟩ := rounds_run picks (Sys.init files nReduce)
    refine ⟨s, hs, ?_⟩
    rw [hc]
    exact congrArg Prod.fst hrounds
  · intro t ht
    rcases List.mem_append.mp ht with h | h
    · exact ⟨(m7 t h).1, hnonneg _ _ hm6 t h⟩
    · exact ⟨(r4 t h).1, hnonneg _ _ hr3 t h⟩
  · exact ⟨_, _, rfl, fun t h => (m7 t h).2, hm6, fun t h => (r4 t h).2, hr3⟩

theorem job_completes_witness :
    ((MakeCoordinator [lit "a", lit "b"] 1).rounds [0, 1, 0]).2.map (fun t => t.TaskNumber)
        = [1, 0, 0] ∧
      ((MakeCoordinator [lit "a", lit "b"] 1).rounds [0, 1, 0]).1.phase = ReducePhase ∧
      ((MakeCoordinator [lit "a", lit "b"] 1).rounds [0, 1, 0]).1.Done = true :=
  ⟨by decide,
    (job_completes [lit "a", lit "b"] (by decide) 1 [0, 1, 0] (by decide)).1,
    (job_completes [lit "a", lit "b"] (by decide) 1 [0, 1, 0] (by decide)).2.1⟩

/-! # Schedules in which the goroutine interleaves with the handlers -/

theorem requestTaskLocked_of_not_done (c : Coordinator) (pick : Nat) (h : c.Done = false) :
    c.RequestTask pick = ((c.requestTaskLocked pick).1, (c.requestTaskLocked pick).2, true) := by
  cases h1 : c.mapTasks.rangeFirst pick <;> cases h2 : c.reduceTasks.rangeFirst pick <;>
    simp only [Coordinator.RequestTask, Coordinator.requestTaskLocked, h, Bool.false_eq_true,
      if_false, h1, h2] <;> split_ifs <;> rfl

theorem requestTaskLocked_of_done (c : Coordinator) (pick : Nat) (h : c.Done = true) :
    (c.requestTaskLocked pick).1 = c := by
  obtain ⟨h1, h2, _, _⟩ := (done_iff c).mp h
  have hr1 : c.mapTasks.rangeFirst pick = none := (GoMap.rangeFirst_eq_none_iff _ _).mpr h1
  have hr2 : c.reduceTasks.rangeFirst pick = none := (GoMap.rangeFirst_eq_none_iff _ _).mpr h2
  simp only [Coordinator.requestTaskLocked, hr1, hr2]
  split_ifs <;> rfl

/-- What every call of `RequestTask` keeps, its locked part keeps. -/
theorem requestTaskLocked_preserves (P : Coordinator → Prop)
    (hreq : ∀ c pick, P c → P (c.RequestTask pick).1) (c : Coordinator) (pick : Nat)
    (h : P c) : P (c.requestTaskLocked pick).1 := by
  cases hd : c.Done with
  | true =>
    rw [requestTaskLocked_of_done c pick hd]
    exact h
  | false =>
    have := hreq c pick h
    rw [requestTaskLocked_of_not_done c pick hd] at this
    exact this

theorem liveMap_requestTaskLocked (c : Coordinator) (pick : Nat) (k : Int) :
    liveMap (c.requestTaskLocked pick).1 k ↔ liveMap c k := by
  cases hd : c.Done with
  | true => rw [requestTaskLocked_of_done c pick hd]
  | false =>
    have := liveMap_RequestTask c pick k
    rw [requestTaskLocked_of_not_done c pick hd] at this
    exact this

theorem liveReduce_requestTaskLocked (c : Coordinator) (pick : Nat) (k : Int) :
    liveReduce (c.requestTaskLocked pick).1 k ↔ liveReduce c k := by
  cases hd : c.Done with
  | true => rw [requestTaskLocked_of_done c pick hd]
  | false =>
    have := liveReduce_RequestTask c pick k
    rw [requestTaskLocked_of_not_done c pick hd] at this
    exact this

theorem mem_eraseIdx_or {α : Type} (l : List α) (j : Nat) (g h : α) (hj : l[j]? = some g)
    (hh : h ∈ l) : h = g ∨ h ∈ l.eraseIdx j := by
  induction l generalizing j with
  | nil => cases hh
  | cons a l ih =>
    cases j with
    | zero =>
      simp only [List.getElem?_cons_zero, Option.some.injEq] at hj
      subst hj
      rcases List.mem_cons.mp hh with h1 | h1
      · exact Or.inl h1
      · exact Or.inr (by simpa using h1)
    | succ j =>
      simp only [List.getElem?_cons_succ] at hj
      rcases List.mem_cons.mp hh with h1 | h1
      · exact Or.inr (by simp [h1])
      · rcases ih j hj h1 with h2 | h2
        · exact Or.inl h2
        · exact Or.inr (by simp [h2])

theorem mem_set_or {α : Type} (l : List α) (j : Nat) (g g' h : α) (hj : l[j]? = some g)
    (hh : h ∈ l) : h = g ∨ h ∈ l.set j g' := by
  induction l generalizing j with
  | nil => cases hh
  | cons a l ih =>
    cases j with
    | zero =>
      simp only [List.getElem?_cons_zero, Option.some.injEq] at hj
      subst hj
      rcases List.mem_cons.mp hh with h1 | h1
      · exact Or.inl h1
      · exact Or.inr (by simp [h1])
    | succ j =>
      simp only [List.getElem?_cons_succ] at hj
      rcases List.mem_cons.mp hh with h1 | h1
      · exact Or.inr (by simp [h1])
      · rcases ih j hj h1 with h2 | h2
        · exact Or.inl h2
        · exact Or.inr (by simp [h2])

theorem mem_set_self_of_getElem? {α : Type} (l : List α) (j : Nat) (g g' : α)
    (hj : l[j]? = some g) : g' ∈ l.set j g' := by
  induction l generalizing j with
  | nil => simp at hj
  | cons a l ih =>
    cases j with
    | zero => simp
    | succ j =>
      simp only [List.getElem?_cons_succ] at hj
      simp [ih j hj]

theorem race_run_append (es es' : List RaceEvent) :
    ∀ s : RaceSys, s.run (es ++ es') = (s.run es).bind (fun s' => s'.run es') := by
  induction es with
  | nil =>
    intro s
    simp [RaceSys.run]
  | cons e es ih =>
    intro s
    simp only [List.cons_append, RaceSys.run]
    cases hst : s.step e with
    | none => simp
    | some s1 => simp [ih]

/-- A property of the steps so far and the state, kept by every step, holds
along every schedule. -/
theorem race_run_induction (Q : List RaceEvent → RaceSys → Prop) (s0 : RaceSys)
    (h0 : Q [] s0)
    (hstep : ∀ es s e s', Q es s → s.step e = some s' → Q (es ++ [e]) s')
    (es : List RaceEvent) : ∀ s : RaceSys, s0.run es = some s → Q es s := by
  induction es using List.reverseRecOn with
  | nil =>
    intro s hrun
    simp only [RaceSys.run, Option.some.injEq] at hrun
    subst hrun
    exact h0
  | append_singleton es e ih =>
    intro s hrun
    rw [race_run_append] at hrun
    cases hs1 : s0.run es with
    | none => simp [hs1] at hrun
    | some s1 =>
      simp only [hs1, Option.some_bind, RaceSys.run] at hrun
      cases hst : s1.step e with
      | none => simp [hst] at hrun
      | some s2 =>
        simp only [hst, Option.some_bind, Option.some.injEq] at hrun
        subst hrun
        exact hstep es s1 e s2 (ih s1 hs1) hst

theorem raceReportedIn_append (es : List RaceEvent) (e : RaceEvent) (phase : TaskPhase)
    (k : Int) :
    raceReportedIn (es ++ [e]) phase k =
      (raceReportedIn es phase k || raceReportedIn [e] phase k) := by
  simp [raceReportedIn, List.any_append]

theorem raceReportedIn_mono (es : List RaceEvent) (e : RaceEvent) (phase : TaskPhase) (k : Int)
    (h : raceReportedIn es phase k = true) : raceReportedIn (es ++ [e]) phase k = true := by
  rw [raceReportedIn_append, h]
  rfl

theorem raceReportedIn_response (es : List RaceEvent) (args : Task) :
    raceReportedIn (es ++ [.responseTask args]) args.Phase args.TaskNumber = true := by
  rw [raceReportedIn_append]
  simp [raceReportedIn]

theorem next_phase (g : Goroutine) (c : Coordinator) : (g.next c).1.phase = c.phase := by
  cases g with
  | atTest k =>
    simp only [Goroutine.next]
    split_ifs <;> rfl
  | atElseTest k =>
    simp only [Goroutine.next]
    split_ifs <;> rfl
  | atRead k b =>
    cases b
    · simp only [Goroutine.next]
      cases c.mapWaitingResponseQueue.lookup k <;> rfl
    · simp only [Goroutine.next]
      cases c.reduceWaitingResponseQueue.lookup k <;> rfl
  | atDelete k b v => cases b <;> rfl
  | atInsert k b v => cases b <;> rfl

/-- A goroutine that is at its assignment ends with it. -/
theorem next_of_atInsert (k : Int) (b : Branch) (v : GoString) (c : Coordinator) :
    ((Goroutine.atInsert k b v).next c).2 = none := by
  cases b <;> rfl

/-- One statement of a goroutine keeps a map task pending or leased, unless
it is the `delete` of that task, after which the goroutine is at its
assignment. -/
theorem liveMap_next (g : Goroutine) (c : Coordinator) (k : Int) (h : liveMap c k) :
    liveMap (g.next c).1 k ∨ ∃ v, (g.next c).2 = some (.atInsert k .mapBranch v) := by
  cases g with
  | atTest j =>
    left
    simp only [Goroutine.next]
    split_ifs <;> exact h
  | atElseTest j =>
    left
    simp only [Goroutine.next]
    split_ifs <;> exact h
  | atRead j b =>
    left
    cases b
    · simp only [Goroutine.next]
      cases c.mapWaitingResponseQueue.lookup j <;> exact h
    · simp only [Goroutine.next]
      cases c.reduceWaitingResponseQueue.lookup j <;> exact h
  | atDelete j b v =>
    cases b
    · by_cases hk : k = j
      · subst hk
        exact Or.inr ⟨v, rfl⟩
      · left
        simp only [Goroutine.next, liveMap, GoMap.has_delete_iff]
        rcases h with h | h
        · exact Or.inl h
        · exact Or.inr ⟨hk, h⟩
    · exact Or.inl h
  | atInsert j b v =>
    left
    cases b
    · simp only [Goroutine.next, liveMap, GoMap.has_set_iff]
      rcases h with h | h
      · exact Or.inl (Or.inr h)
      · exact Or.inr h
    · exact h

theorem liveReduce_next (g : Goroutine) (c : Coordinator) (k : Int) (h : liveReduce c k) :
    liveReduce (g.next c).1 k ∨ ∃ v, (g.next c).2 = some (.atInsert k .reduceBranch v) := by
  cases g with
  | atTest j =>
    left
    simp only [Goroutine.next]
    split_ifs <;> exact h
  | atElseTest j =>
    left
    simp only [Goroutine.next]
    split_ifs <;> exact h
  | atRead j b =>
    left
    cases b
    · simp only [Goroutine.next]
      cases c.mapWaitingResponseQueue.lookup j <;> exact h
    · simp only [Goroutine.next]
      cases c.reduceWaitingResponseQueue.lookup j <;> exact h
  | atDelete j b v =>
    cases b
    · exact Or.inl h
    · by_cases hk : k = j
      · subst hk
        exact Or.inr ⟨v, rfl⟩
      · left
        simp only [Goroutine.next, liveReduce, GoMap.has_delete_iff]
        rcases h with h | h
        · exact Or.inl h
        · exact Or.inr ⟨hk, h⟩
  | atInsert j b v =>
    left
    cases b
    · exact h
    · simp only [Goroutine.next, liveReduce, GoMap.has_set_iff]
      rcases h with h | h
      · exact Or.inl (Or.inr h)
      · exact Or.inr h

/-- The assignment of a goroutine puts its task in the pending pool. -/
theorem liveMap_next_atInsert (k : Int) (v : GoString) (c : Coordinator) :
    liveMap ((Goroutine.atInsert k .mapBranch v).next c).1 k := by
  simp [Goroutine.next, liveMap, GoMap.has_set_iff]

theorem liveReduce_next_atInsert (k : Int) (v : GoString) (c : Coordinator) :
    liveReduce ((Goroutine.atInsert k .reduceBranch v).next c).1 k := by
  simp [Goroutine.next, liveReduce, GoMap.has_set_iff]

/-- The shape of a goroutine step. -/
theorem step_goroutine (s s' : RaceSys) (j : Nat) (h : s.step (.goroutine j) = some s') :
    ∃ g, s.running[j]? = some g ∧ s'.c = (g.next s.c).1 ∧
      ((∃ g', (g.next s.c).2 = some g' ∧ s'.running = s.running.set j g') ∨
       ((g.next s.c).2 = none ∧ s'.running = s.running.eraseIdx j)) := by
  simp only [RaceSys.step] at h
  cases hg : s.running[j]? with
  | none => simp [hg] at h
  | some g =>
    simp only [hg] at h
    refine ⟨g, rfl, ?_⟩
    cases hn : (g.next s.c).2 with
    | none =>
      simp only [hn, Option.some.injEq] at h
      subst h
      exact ⟨rfl, Or.inr ⟨rfl, rfl⟩⟩
    | some g' =>
      simp only [hn, Option.some.injEq] at h
      subst h
      exact ⟨rfl, Or.inl ⟨g', rfl, rfl⟩⟩

/-- Across a goroutine step a map task stays pending, leased, or held by a
goroutine that is between its `delete` and its assignment. -/
theorem goroutine_step_tracksMap (s s' : RaceSys) (j : Nat) (k : Int)
    (h : s.step (.goroutine j) = some s')
    (hk : liveMap s.c k ∨ ∃ v, Goroutine.atInsert k .mapBranch v ∈ s.running) :
    liveMap s'.c k ∨ ∃ v, Goroutine.atInsert k .mapBranch v ∈ s'.running := by
  obtain ⟨g, hg, hc, hrun⟩ := step_goroutine s s' j h
  rw [hc]
  rcases hk with hl | ⟨v, hv⟩
  · rcases liveMap_next g s.c k hl with h1 | ⟨v, h1⟩
    · exact Or.inl h1
    · right
      rcases hrun with ⟨g', hg', hr⟩ | ⟨hn, _⟩
      · rw [h1, Option.some.injEq] at hg'
        subst hg'
        exact ⟨v, hr ▸ mem_set_self_of_getElem? _ _ _ _ hg⟩
      · rw [h1] at hn
        cases hn
  · rcases hrun with ⟨g', hg', hr⟩ | ⟨hn, hr⟩
    · rcases mem_set_or _ j g g' _ hg hv with h1 | h1
      · subst h1
        rw [next_of_atInsert] at hg'
        cases hg'
      · exact Or.inr ⟨v, hr ▸ h1⟩
    · rcases mem_eraseIdx_or _ j g _ hg hv with h1 | h1
      · subst h1
        exact Or.inl (liveMap_next_atInsert k v s.c)
      · exact Or.inr ⟨v, hr ▸ h1⟩

theorem goroutine_step_tracksReduce (s s' : RaceSys) (j : Nat) (k : Int)
    (h : s.step (.goroutine j) = some s')
    (hk : liveReduce s.c k ∨ ∃ v, Goroutine.atInsert k .reduceBranch v ∈ s.running) :
    liveReduce s'.c k ∨ ∃ v, Goroutine.atInsert k .reduceBranch v ∈ s'.running := by
  obtain ⟨g, hg, hc, hrun⟩ := step_goroutine s s' j h
  rw [hc]
  rcases hk with hl | ⟨v, hv⟩
  · rcases liveReduce_next g s.c k hl with h1 | ⟨v, h1⟩
    · exact Or.inl h1
    · right
      rcases hrun with ⟨g', hg', hr⟩ | ⟨hn, _⟩
      · rw [h1, Option.some.injEq] at hg'
        subst hg'
        exact ⟨v, hr ▸ mem_set_self_of_getElem? _ _ _ _ hg⟩
      · rw [h1] at hn
        cases hn
  · rcases hrun with ⟨g', hg', hr⟩ | ⟨hn, hr⟩
    · rcases mem_set_or _ j g g' _ hg hv with h1 | h1
      · subst h1
        rw [next_of_atInsert] at hg'
        cases hg'
      · exact Or.inr ⟨v, hr ▸ h1⟩
    · rcases mem_eraseIdx_or _ j g _ hg hv with h1 | h1
      · subst h1
        exact Or.inl (liveReduce_next_atInsert k v s.c)
      · exact Or.inr ⟨v, hr ▸ h1⟩

/-- Under every schedule the phase is `MapPhase` or `ReducePhase`. -/
theorem raceReachable_validPhase (files : List GoString) (nReduce : Int) (s : RaceSys)
    (h : RaceReachable files nReduce s) : ValidPhase s.c := by
  obtain ⟨es, hes⟩ := h
  refine race_run_induction (fun _ s => ValidPhase s.c) (RaceSys.init files nReduce)
    (Or.inl rfl) ?_ es s hes
  intro es s e s' hq hst
  cases e with
  | requestTaskDone =>
    simp only [RaceSys.step] at hst
    split_ifs at hst <;>
    · cases hst
      exact hq
  | requestTaskLocked pick =>
    simp only [RaceSys.step] at hst
    split_ifs at hst
    cases hst
    exact requestTaskLocked_preserves ValidPhase
      (fun c pick hc => by
        unfold ValidPhase
        rw [requestTask_phase]
        exact hc) s.c pick hq
  | responseTask args =>
    simp only [RaceSys.step, Option.some.injEq] at hst
    subst hst
    show ValidPhase (s.c.ResponseTask args)
    unfold ValidPhase
    rw [responseTask_phase]
    split_ifs
    · exact Or.inr rfl
    · exact hq
  | register =>
    simp only [RaceSys.step, Option.some.injEq] at hst
    subst hst
    exact hq
  | advance dt =>
    simp only [RaceSys.step, Option.some.injEq] at hst
    subst hst
    exact hq
  | fire i =>
    simp only [RaceSys.step] at hst
    cases ht : s.timers[i]? with
    | none => simp [ht] at hst
    | some tm =>
      simp only [ht] at hst
      split_ifs at hst
      cases hst
      exact hq
  | goroutine j =>
    obtain ⟨g, _, hc, _⟩ := step_goroutine s s' j hst
    unfold ValidPhase
    rw [hc, next_phase]
    exact hq

/-- Under every schedule, every task that `MakeCoordinator` created is
pending, leased, reported, or held by a goroutine that is between its
`delete` and its assignment. -/
theorem race_tracked (files : List GoString) (nReduce : Int) (es : List RaceEvent)
    (s : RaceSys) (hrun : (RaceSys.init files nReduce).run es = some s) :
    ∀ k : Int,
      (0 ≤ k ∧ k < files.length →
        raceReportedIn es MapPhase k = true ∨ liveMap s.c k ∨
          ∃ v, Goroutine.atInsert k .mapBranch v ∈ s.running) ∧
      (0 ≤ k ∧ k < nReduce →
        raceReportedIn es ReducePhase k = true ∨ liveReduce s.c k ∨
          ∃ v, Goroutine.atInsert k .reduceBranch v ∈ s.running) := by
  refine race_run_induction
    (fun es s => ∀ k : Int,
      (0 ≤ k ∧ k < files.length →
        raceReportedIn es MapPhase k = true ∨ liveMap s.c k ∨
          ∃ v, Goroutine.atInsert k .mapBranch v ∈ s.running) ∧
      (0 ≤ k ∧ k < nReduce →
        raceReportedIn es ReducePhase k = true ∨ liveReduce s.c k ∨
          ∃ v, Goroutine.atInsert k .reduceBranch v ∈ s.running))
    (RaceSys.init files nReduce) ?_ ?_ es s hrun
  · intro k
    exact ⟨fun h => Or.inr (Or.inl (Or.inl ((has_mapTasks_MakeCoordinator files nReduce k).mpr h))),
      fun h => Or.inr (Or.inl (Or.inl ((has_reduceTasks_MakeCoordinator files nReduce k).mpr h)))⟩
  · intro es s e s' hq hst k
    have hmono : ∀ (P P' : Prop) (phase : TaskPhase),
        (P → P') → (raceReportedIn es phase k = true ∨ P) →
          (raceReportedIn (es ++ [e]) phase k = true ∨ P') := by
      intro P P' phase hpp h
      rcases h with h | h
      · exact Or.inl (raceReportedIn_mono _ _ _ _ h)
      · exact Or.inr (hpp h)
    cases e with
    | requestTaskDone =>
      simp only [RaceSys.step] at hst
      split_ifs at hst <;>
      · cases hst
        exact ⟨fun h => hmono _ _ _ id ((hq k).1 h), fun h => hmono _ _ _ id ((hq k).2 h)⟩
    | requestTaskLocked pick =>
      simp only [RaceSys.step] at hst
      split_ifs at hst
      cases hst
      refine ⟨fun h => hmono _ _ _ ?_ ((hq k).1 h), fun h => hmono _ _ _ ?_ ((hq k).2 h)⟩
      · rintro (h1 | h1)
        · exact Or.inl ((liveMap_requestTaskLocked s.c pick k).mpr h1)
        · exact Or.inr h1
      · rintro (h1 | h1)
        · exact Or.inl ((liveReduce_requestTaskLocked s.c pick k).mpr h1)
        · exact Or.inr h1
    | responseTask args =>
      simp only [RaceSys.step, Option.some.injEq] at hst
      subst hst
      refine ⟨fun h => ?_, fun h => ?_⟩
      · by_cases hr : args.Phase = MapPhase ∧ args.TaskNumber = k
        · left
          have := raceReportedIn_response es args
          rw [hr.1, hr.2] at this
          exact this
        · refine hmono _ _ _ ?_ ((hq k).1 h)
          rintro (h1 | h1)
          · left
            show liveMap (s.c.ResponseTask args) k
            rw [liveMap_ResponseTask]
            rcases h1 with h1 | h1
            · exact Or.inl h1
            · exact Or.inr ⟨h1, hr⟩
          · exact Or.inr h1
      · by_cases hr : args.Phase = ReducePhase ∧ args.TaskNumber = k
        · left
          have := raceReportedIn_response es args
          rw [hr.1, hr.2] at this
          exact this
        · refine hmono _ _ _ ?_ ((hq k).2 h)
          rintro (h1 | h1)
          · left
            show liveReduce (s.c.ResponseTask args) k
            rw [liveReduce_ResponseTask]
            rcases h1 with h1 | h1
            · exact Or.inl h1
            · exact Or.inr ⟨h1, hr⟩
          · exact Or.inr h1
    | register =>
      simp only [RaceSys.step, Option.some.injEq] at hst
      subst hst
      exact ⟨fun h => hmono _ _ _ id ((hq k).1 h), fun h => hmono _ _ _ id ((hq k).2 h)⟩
    | advance dt =>
      simp only [RaceSys.step, Option.some.injEq] at hst
      subst hst
      exact ⟨fun h => hmono _ _ _ id ((hq k).1 h), fun h => hmono _ _ _ id ((hq k).2 h)⟩
    | fire i =>
      simp only [RaceSys.step] at hst
      cases ht : s.timers[i]? with
      | none => simp [ht] at hst
      | some tm =>
        simp only [ht] at hst
        split_ifs at hst
        cases hst
        refine ⟨fun h => hmono _ _ _ ?_ ((hq k).1 h), fun h => hmono _ _ _ ?_ ((hq k).2 h)⟩
        · rintro (h1 | ⟨v, h1⟩)
          · exact Or.inl h1
          · exact Or.inr ⟨v, List.mem_append_left _ h1⟩
        · rintro (h1 | ⟨v, h1⟩)
          · exact Or.inl h1
          · exact Or.inr ⟨v, List.mem_append_left _ h1⟩
    | goroutine j =>
      exact ⟨fun h => hmono _ _ _ (goroutine_step_tracksMap s s' j k hst) ((hq k).1 h),
        fun h => hmono _ _ _ (goroutine_step_tracksReduce s s' j k hst) ((hq k).2 h)⟩

theorem exists_liveMap_iff (c : Coordinator) :
    (∃ k, liveMap c k) ↔
      ¬ (c.mapTasks.entries = [] ∧ c.mapWaitingResponseQueue.entries = []) := by
  constructor
  · rintro ⟨k, h | h⟩ ⟨h1, h2⟩
    · rw [GoMap.has_eq_false_of_nil _ _ h1] at h
      cases h
    · rw [GoMap.has_eq_false_of_nil _ _ h2] at h
      cases h
  · intro h
    by_contra hne
    apply h
    constructor
    · refine GoMap.entries_nil_of_has _ (fun k => ?_)
      cases hh : c.mapTasks.has k with
      | false => rfl
      | true => exact absurd ⟨k, Or.inl hh⟩ hne
    · refine GoMap.entries_nil_of_has _ (fun k => ?_)
      cases hh : c.mapWaitingResponseQueue.has k with
      | false => rfl
      | true => exact absurd ⟨k, Or.inr hh⟩ hne

/-- Under every schedule of a job with at least one input file, in the Map
phase some map task is pending, leased, or held by a goroutine that is
between its `delete` and its assignment. -/
theorem race_mapBusy (files : List GoString) (hne : files ≠ []) (nReduce : Int) (s : RaceSys)
    (h : RaceReachable files nReduce s) :
    s.c.phase = MapPhase →
      ¬ (s.c.mapTasks.entries = [] ∧ s.c.mapWaitingResponseQueue.entries = []) ∨
        ∃ k v, Goroutine.atInsert k .mapBranch v ∈ s.running := by
  obtain ⟨es, hes⟩ := h
  refine race_run_induction
    (fun _ s => s.c.phase = MapPhase →
      ¬ (s.c.mapTasks.entries = [] ∧ s.c.mapWaitingResponseQueue.entries = []) ∨
        ∃ k v, Goroutine.atInsert k .mapBranch v ∈ s.running)
    (RaceSys.init files nReduce) ?_ ?_ es s hes
  · intro _
    left
    intro hb
    have h0 : (MakeCoordinator files nReduce).mapTasks.has 0 = true := by
      rw [has_mapTasks_MakeCoordinator]
      refine ⟨le_refl _, ?_⟩
      have : 0 < files.length := List.length_pos.mpr hne
      exact_mod_cast this
    have hb1 : (RaceSys.init files nReduce).c.mapTasks.entries = [] := hb.1
    rw [show (RaceSys.init files nReduce).c = MakeCoordinator files nReduce from rfl] at hb1
    rw [GoMap.has_eq_false_of_nil _ _ hb1] at h0
    cases h0
  · intro es s e s' hq hst
    have hhandler : ∀ c' : Coordinator, (MapBusy s.c → MapBusy c') →
        (c'.phase = MapPhase → s.c.phase = MapPhase) → c'.phase = MapPhase →
        ¬ (c'.mapTasks.entries = [] ∧ c'.mapWaitingResponseQueue.entries = []) ∨
          ∃ k v, Goroutine.atInsert k .mapBranch v ∈ s.running := by
      intro c' hb hph hp
      by_cases hin : ∃ k v, Goroutine.atInsert k .mapBranch v ∈ s.running
      · exact Or.inr hin
      · exact Or.inl (hb (fun hp0 => (hq hp0).resolve_right hin) hp)
    cases e with
    | requestTaskDone =>
      simp only [RaceSys.step] at hst
      split_ifs at hst <;>
      · cases hst
        exact hq
    | requestTaskLocked pick =>
      simp only [RaceSys.step] at hst
      split_ifs at hst
      cases hst
      refine hhandler _ (requestTaskLocked_preserves MapBusy mapBusy_RequestTask s.c pick) ?_
      intro hp
      have := requestTaskLocked_preserves (fun c => c.phase = s.c.phase)
        (fun c pick hc => by
          show (c.RequestTask pick).1.phase = s.c.phase
          rw [requestTask_phase]
          exact hc) s.c pick rfl
      exact this.symm.trans hp
    | responseTask args =>
      simp only [RaceSys.step, Option.some.injEq] at hst
      subst hst
      refine hhandler _ (mapBusy_ResponseTask s.c args) ?_
      intro hp
      have hp' : (s.c.ResponseTask args).phase = MapPhase := hp
      rw [responseTask_phase] at hp'
      split_ifs at hp'
      · exact absurd hp'.symm mapPhase_ne_reducePhase
      · exact hp'
    | register =>
      simp only [RaceSys.step, Option.some.injEq] at hst
      subst hst
      exact hq
    | advance dt =>
      simp only [RaceSys.step, Option.some.injEq] at hst
      subst hst
      exact hq
    | fire i =>
      simp only [RaceSys.step] at hst
      cases ht : s.timers[i]? with
      | none => simp [ht] at hst
      | some tm =>
        simp only [ht] at hst
        split_ifs at hst
        cases hst
        intro hp
        rcases hq hp with h1 | ⟨k, v, h1⟩
        · exact Or.inl h1
        · exact Or.inr ⟨k, v, List.mem_append_left _ h1⟩
    | goroutine j =>
      intro hp
      obtain ⟨g, _, hc, _⟩ := step_goroutine s s' j hst
      have hp0 : s.c.phase = MapPhase := by
        rw [← next_phase g s.c, ← hc]
        exact hp
      have hold : ∃ k, liveMap s.c k ∨ ∃ v, Goroutine.atInsert k .mapBranch v ∈ s.running := by
        rcases hq hp0 with h1 | ⟨k, v, h1⟩
        · obtain ⟨k, hk⟩ := (exists_liveMap_iff s.c).mpr h1
          exact ⟨k, Or.inl hk⟩
        · exact ⟨k, Or.inr ⟨v, h1⟩⟩
      obtain ⟨k, hk⟩ := hold
      rcases goroutine_step_tracksMap s s' j k hst hk with h1 | ⟨v, h1⟩
      · exact Or.inl ((exists_liveMap_iff s'.c).mp ⟨k, h1⟩)
      · exact Or.inr ⟨k, v, h1⟩

theorem requestTaskLocked_reducePhase (c : Coordinator) (pick : Nat)
    (hr : c.phase = ReducePhase) :
    (c.requestTaskLocked pick).1.phase = ReducePhase ∧
      (c.requestTaskLocked pick).1.mapTasks = c.mapTasks := by
  cases h2 : c.reduceTasks.rangeFirst pick <;>
    simp [Coordinator.requestTaskLocked, hr, mapPhase_ne_reducePhase.symm, h2]

theorem responseTask_mapTasks (c : Coordinator) (args : Task) :
    (c.ResponseTask args).mapTasks = c.mapTasks := by
  unfold Coordinator.ResponseTask
  simp only []
  split_ifs <;> rfl

theorem next_mapTasks_has (g : Goroutine) (c : Coordinator) (k : Int)
    (h : c.mapTasks.has k = true) : (g.next c).1.mapTasks.has k = true := by
  cases g with
  | atTest j =>
    simp only [Goroutine.next]
    split_ifs <;> exact h
  | atElseTest j =>
    simp only [Goroutine.next]
    split_ifs <;> exact h
  | atRead j b =>
    cases b
    · simp only [Goroutine.next]
      cases c.mapWaitingResponseQueue.lookup j <;> exact h
    · simp only [Goroutine.next]
      cases c.reduceWaitingResponseQueue.lookup j <;> exact h
  | atDelete j b v => cases b <;> exact h
  | atInsert j b v =>
    cases b
    · simp only [Goroutine.next, GoMap.has_set_iff]
      exact Or.inr h
    · exact h

/-- Once a map task is pending in the Reduce phase it stays pending under
every schedule, so `Done()` never returns true again: no call hands out a
map task in the Reduce phase. -/
theorem pending_map_in_reducePhase_never_done (s0 : RaceSys) (k : Int)
    (hp : s0.c.phase = ReducePhase) (hk : s0.c.mapTasks.has k = true)
    (es : List RaceEvent) (s : RaceSys) (hrun : s0.run es = some s) :
    s.c.phase = ReducePhase ∧ s.c.mapTasks.has k = true ∧ s.c.Done = false := by
  have hinv : s.c.phase = ReducePhase ∧ s.c.mapTasks.has k = true := by
    refine race_run_induction
      (fun _ s => s.c.phase = ReducePhase ∧ s.c.mapTasks.has k = true) s0 ⟨hp, hk⟩ ?_ es s hrun
    intro es s e s' hq hst
    cases e with
    | requestTaskDone =>
      simp only [RaceSys.step] at hst
      split_ifs at hst <;>
      · cases hst
        exact hq
    | requestTaskLocked pick =>
      simp only [RaceSys.step] at hst
      split_ifs at hst
      cases hst
      obtain ⟨h1, h2⟩ := requestTaskLocked_reducePhase s.c pick hq.1
      exact ⟨h1, by rw [h2]; exact hq.2⟩
    | responseTask args =>
      simp only [RaceSys.step, Option.some.injEq] at hst
      subst hst
      refine ⟨?_, ?_⟩
      · show (s.c.ResponseTask args).phase = ReducePhase
        rw [responseTask_phase]
        split_ifs
        · rfl
        · exact hq.1
      · show (s.c.ResponseTask args).mapTasks.has k = true
        rw [responseTask_mapTasks]
        exact hq.2
    | register =>
      simp only [RaceSys.step, Option.some.injEq] at hst
      subst hst
      exact hq
    | advance dt =>
      simp only [RaceSys.step, Option.some.injEq] at hst
      subst hst
      exact hq
    | fire i =>
      simp only [RaceSys.step] at hst
      cases ht : s.timers[i]? with
      | none => simp [ht] at hst
      | some tm =>
        simp only [ht] at hst
        split_ifs at hst
        cases hst
        exact hq
    | goroutine j =>
      obtain ⟨g, _, hc, _⟩ := step_goroutine s s' j hst
      rw [hc, next_phase]
      exact ⟨hq.1, next_mapTasks_has g s.c k hq.2⟩
  refine ⟨hinv.1, hinv.2, ?_⟩
  cases hd : s.c.Done with
  | false => rfl
  | true =>
    have h1 := ((done_iff s.c).mp hd).1
    rw [GoMap.has_eq_false_of_nil _ _ h1] at hinv
    exact absurd hinv.2 (by decide)

/-- Every step of a schedule with atomic calls and atomic expiry checks is a
sequence of steps of the schedules with interleaving. -/
theorem step_is_schedule (s s' : Sys) (e : Event) (h : s.step e = some s') :
    ∃ es, (RaceSys.ofSys s).run es = some (RaceSys.ofSys s') := by
  cases e with
  | requestTask pick =>
    cases hd : s.c.Done with
    | true =>
      refine ⟨[.requestTaskDone], ?_⟩
      have hr : s.c.RequestTask pick = (s.c, { Task.zero with Alive := false }, false) := by
        simp [Coordinator.RequestTask, hd]
      simp only [Sys.step, hr, Bool.false_eq_true, if_false, Option.some.injEq] at h
      subst h
      simp [RaceSys.run, RaceSys.step, RaceSys.ofSys, hd]
    | false =>
      refine ⟨[.requestTaskDone, .requestTaskLocked pick], ?_⟩
      simp only [Sys.step, requestTaskLocked_of_not_done s.c pick hd, if_true,
        Option.some.injEq] at h
      subst h
      simp [RaceSys.run, RaceSys.step, RaceSys.ofSys, hd]
  | responseTask args =>
    refine ⟨[.responseTask args], ?_⟩
    simp only [Sys.step, Option.some.injEq] at h
    subst h
    simp [RaceSys.run, RaceSys.step, RaceSys.ofSys]
  | register =>
    refine ⟨[.register], ?_⟩
    simp only [Sys.step, Option.some.injEq] at h
    subst h
    simp [RaceSys.run, RaceSys.step, RaceSys.ofSys]
  | advance dt =>
    refine ⟨[.advance dt], ?_⟩
    simp only [Sys.step, Option.some.injEq] at h
    subst h
    simp [RaceSys.run, RaceSys.step, RaceSys.ofSys]
  | expiry i =>
    simp only [Sys.step] at h
    cases ht : s.timers[i]? with
    | none => simp [ht] at h
    | some tm =>
      simp only [ht] at h
      split_ifs at h with hdl
      cases h
      by_cases hm : s.c.phase = MapPhase
      · cases hl : s.c.mapWaitingResponseQueue.lookup tm.taskNumber with
        | none =>
          refine ⟨[.fire i, .goroutine 0, .goroutine 0], ?_⟩
          simp [RaceSys.run, RaceSys.step, RaceSys.ofSys, ht, hdl, Goroutine.next, hm, hl,
            Coordinator.expiryCheck]
        | some v =>
          refine ⟨[.fire i, .goroutine 0, .goroutine 0, .goroutine 0, .goroutine 0], ?_⟩
          simp [RaceSys.run, RaceSys.step, RaceSys.ofSys, ht, hdl, Goroutine.next, hm, hl,
            Coordinator.expiryCheck]
      · by_cases hr : s.c.phase = ReducePhase
        · cases hl : s.c.reduceWaitingResponseQueue.lookup tm.taskNumber with
          | none =>
            refine ⟨[.fire i, .goroutine 0, .goroutine 0, .goroutine 0], ?_⟩
            simp [RaceSys.run, RaceSys.step, RaceSys.ofSys, ht, hdl, Goroutine.next, hr, hl,
              Coordinator.expiryCheck, mapPhase_ne_reducePhase.symm]
          | some v =>
            refine ⟨[.fire i, .goroutine 0, .goroutine 0, .goroutine 0, .goroutine 0,
              .goroutine 0], ?_⟩
            simp [RaceSys.run, RaceSys.step, RaceSys.ofSys, ht, hdl, Goroutine.next, hr, hl,
              Coordinator.expiryCheck, mapPhase_ne_reducePhase.symm]
        · refine ⟨[.fire i, .goroutine 0, .goroutine 0], ?_⟩
          simp [RaceSys.run, RaceSys.step, RaceSys.ofSys, ht, hdl, Goroutine.next, hm, hr,
            Coordinator.expiryCheck]

/-- Every run with atomic calls and atomic expiry checks is one of the
schedules with interleaving. -/
theorem run_is_schedule (es : List Event) :
    ∀ s s' : Sys, s.run es = some s' →
      ∃ es', (RaceSys.ofSys s).run es' = some (RaceSys.ofSys s') := by
  induction es with
  | nil =>
    intro s s' h
    simp only [Sys.run, Option.some.injEq] at h
    subst h
    exact ⟨[], rfl⟩
  | cons e es ih =>
    intro s s' h
    simp only [Sys.run] at h
    cases hst : s.step e with
    | none => simp [hst] at h
    | some s1 =>
      simp only [hst, Option.some_bind] at h
      obtain ⟨es1, h1⟩ := step_is_schedule s s1 e hst
      obtain ⟨es2, h2⟩ := ih s1 s' h
      refine ⟨es1 ++ es2, ?_⟩
      rw [race_run_append, h1]
      exact h2

/-- The function `Done()` can return true while a reduce task has never been
reported: with one input file and one reduce task, when `Done()` runs
between the `delete` and the assignment of the goroutine that reclaims the
lease of reduce task 0, all four maps are empty. -/
theorem done_between_delete_and_assignment :
    (RaceSys.init [lit "a"] 1).run raceDeleteOfReduce = some raceSysDeletedReduce ∧
      raceSysDeletedReduce.running = [.atInsert 0 .reduceBranch (lit "mr-reduce-0")] ∧
      raceSysDeletedReduce.c.Done = true ∧
      raceReportedIn raceDeleteOfReduce ReducePhase 0 = false := by
  decide

/-- A report of a task that is in no waiting-response queue can change the
phase: with two input files, map task 0 reported and the goroutine that
reclaims the lease of map task 1 between its `delete` and its assignment,
`mapTasks` and `mapWaitingResponseQueue` are both empty in the Map phase,
and a second report of map task 0 moves the coordinator to the Reduce
phase. -/
theorem report_between_delete_and_assignment :
    (RaceSys.init [lit "a", lit "b"] 1).run raceDeleteOfMap = some raceSysDeletedMap ∧
      raceSysDeletedMap.running = [.atInsert 1 .mapBranch (lit "b")] ∧
      raceReportedIn raceDeleteOfMap MapPhase 0 = true ∧
      raceSysDeletedMap.c.phase = MapPhase ∧
      raceSysDeletedMap.c.mapWaitingResponseQueue.has 0 = false ∧
      (raceSysDeletedMap.c.ResponseTask (mapReport 0 (lit "a"))).phase = ReducePhase ∧
      raceSysDeletedMap.c.ResponseTask (mapReport 0 (lit "a")) ≠ raceSysDeletedMap.c := by
  decide

/-- C2, amended: for every run from MakeCoordinator(files, nReduce), taken as
a sequence of steps in any order where a step is a call (the Done() test of
RequestTask, its locked part, ResponseTask, Register) or a single statement
of a lease-expiry goroutine: at every point between two steps at which no
lease-expiry goroutine is between its delete and its assignment, Done() is
true exactly when every map task id and every reduce task id has been
reported through ResponseTask earlier in the run and no task id is in any
of mapTasks, reduceTasks, mapWaitingResponseQueue, reduceWaitingResponseQueue. -/
theorem done_iff_reported_and_empty (files : List GoString) (nReduce : Int)
    (es : List RaceEvent) (s : RaceSys)
    (hrun : (RaceSys.init files nReduce).run es = some s)
    (hq : ∀ g ∈ s.running, g.midWrite = false) :
    s.c.Done = true ↔
      ((∀ k : Int, 0 ≤ k → k < files.length → raceReportedIn es MapPhase k = true) ∧
       (∀ k : Int, 0 ≤ k → k < nReduce → raceReportedIn es ReducePhase k = true) ∧
       (∀ k : Int, s.c.mapTasks.has k = false ∧ s.c.reduceTasks.has k = false ∧
          s.c.mapWaitingResponseQueue.has k = false ∧
          s.c.reduceWaitingResponseQueue.has k = false)) := by
  rw [done_iff]
  constructor
  · rintro ⟨h1, h2, h3, h4⟩
    have hnl : ∀ k, ¬ liveMap s.c k := by
      intro k hl
      rcases hl with hl | hl
      · rw [GoMap.has_eq_false_of_nil _ _ h1] at hl
        cases hl
      · rw [GoMap.has_eq_false_of_nil _ _ h3] at hl
        cases hl
    have hnr : ∀ k, ¬ liveReduce s.c k := by
      intro k hl
      rcases hl with hl | hl
      · rw [GoMap.has_eq_false_of_nil _ _ h2] at hl
        cases hl
      · rw [GoMap.has_eq_false_of_nil _ _ h4] at hl
        cases hl
    refine ⟨?_, ?_, ?_⟩
    · intro k hk0 hk1
      rcases (race_tracked files nReduce es s hrun k).1 ⟨hk0, hk1⟩ with h | h | ⟨v, h⟩
      · exact h
      · exact absurd h (hnl k)
      · exact absurd (hq _ h) (by simp [Goroutine.midWrite])
    · intro k hk0 hk1
      rcases (race_tracked files nReduce es s hrun k).2 ⟨hk0, hk1⟩ with h | h | ⟨v, h⟩
      · exact h
      · exact absurd h (hnr k)
      · exact absurd (hq _ h) (by simp [Goroutine.midWrite])
    · intro k
      exact ⟨GoMap.has_eq_false_of_nil _ _ h1, GoMap.has_eq_false_of_nil _ _ h2,
        GoMap.has_eq_false_of_nil _ _ h3, GoMap.has_eq_false_of_nil _ _ h4⟩
  · rintro ⟨_, _, h⟩
    exact ⟨GoMap.entries_nil_of_has _ (fun k => (h k).1),
      GoMap.entries_nil_of_has _ (fun k => (h k).2.1),
      GoMap.entries_nil_of_has _ (fun k => (h k).2.2.1),
      GoMap.entries_nil_of_has _ (fun k => (h k).2.2.2)⟩

theorem done_iff_reported_and_empty_witness :
    (RaceSys.init [lit "a"] 1).run raceWholeJob = some raceSysWholeJob ∧
      raceSysWholeJob.running = [.atRead 0 .reduceBranch] ∧
      raceSysWholeJob.c.Done = true ∧
      raceReportedIn raceWholeJob MapPhase 0 = true ∧
      raceReportedIn raceWholeJob ReducePhase 0 = true :=
  ⟨by decide, by decide, by decide,
    ((done_iff_reported_and_empty [lit "a"] 1 raceWholeJob raceSysWholeJob
        (by decide) (by decide)).mp (by decide)).1 0 (by decide) (by decide),
    ((done_iff_reported_and_empty [lit "a"] 1 raceWholeJob raceSysWholeJob
        (by decide) (by decide)).mp (by decide)).2.1 0 (by decide) (by decide)⟩

/-- C6 fails on the code: with one input file, the worker holding map task 0
reports it after the goroutine of its lease has read the lease from
mapWaitingResponseQueue and before that goroutine runs its delete and its
assignment.  After the report task 0 is in neither mapTasks nor
mapWaitingResponseQueue and has been reported, and the phase is Reduce; the
two statements of the goroutine then put task 0 back in mapTasks. -/
theorem reported_task_reenters_pool :
    (RaceSys.init [lit "a"] 1).run raceReportAfterRead = some raceSysReported ∧
      raceReportedIn raceReportAfterRead MapPhase 0 = true ∧
      raceSysReported.c.mapTasks.has 0 = false ∧
      raceSysReported.c.mapWaitingResponseQueue.has 0 = false ∧
      raceSysReported.c.phase = ReducePhase ∧
      raceSysReported.run raceWrites = some raceSysReentered ∧
      raceSysReentered.c.mapTasks.has 0 = true ∧
      raceSysReentered.c.phase = ReducePhase := by
  decide

/-- A task can be pending and leased at once: with one input file and one
reduce task, the goroutines of the map grant and of the reduce grant both
read the lease of reduce task 0; after the first has moved the task back and
the task has been granted again, the assignment of the second puts it in
reduceTasks while it is in reduceWaitingResponseQueue. -/
theorem task_pending_and_leased :
    (RaceSys.init [lit "a"] 1).run raceTwoReclaims = some raceSysTwoReclaims ∧
      raceSysTwoReclaims.c.reduceTasks.has 0 = true ∧
      raceSysTwoReclaims.c.reduceWaitingResponseQueue.has 0 = true := by
  decide

/-- C15, amended: for every coordinator state reached from
MakeCoordinator(files, nReduce) with at least one input file by a sequence
of steps in any order, where a step is a call (the Done() test of
RequestTask, its locked part, ResponseTask, Register) or a single statement
of a lease-expiry goroutine, in which no lease-expiry goroutine is between
its delete and its assignment, and for every reported task whose TaskNumber
is not in the waiting-response queue of the reported phase, a ResponseTask
call run as one step leaves the whole coordinator state unchanged. -/
theorem untracked_report_noop (files : List GoString) (hne : files ≠ [])
    (nReduce : Int) (s : RaceSys) (hreach : RaceReachable files nReduce s)
    (hq : ∀ g ∈ s.running, g.midWrite = false) (args : Task)
    (hmap : args.Phase = MapPhase → s.c.mapWaitingResponseQueue.has args.TaskNumber = false)
    (hred : args.Phase = ReducePhase →
      s.c.reduceWaitingResponseQueue.has args.TaskNumber = false) :
    s.c.ResponseTask args = s.c := by
  have hbusy : MapBusy s.c := by
    intro hp
    rcases race_mapBusy files hne nReduce s hreach hp with h | ⟨k, v, h⟩
    · exact h
    · exact absurd (hq _ h) (by simp [Goroutine.midWrite])
  have hvalid := raceReachable_validPhase files nReduce s hreach
  by_cases hm : args.Phase = MapPhase
  · have hdel := GoMap.delete_eq_self _ _ (hmap hm)
    simp only [Coordinator.ResponseTask, hm, if_true, hdel]
    split_ifs with hb
    · rcases hvalid with hp | hp
      · exact absurd (by simpa only [GoMap.len_eq_zero_iff] using hb) (hbusy hp)
      · rw [← hp]
    · rfl
  · by_cases hr : args.Phase = ReducePhase
    · have hdel := GoMap.delete_eq_self _ _ (hred hr)
      simp [Coordinator.ResponseTask, hr, mapPhase_ne_reducePhase.symm, hdel]
    · simp only [Coordinator.ResponseTask, hm, if_false, hr]

theorem untracked_report_noop_witness :
    RaceReachable [lit "a"] 1 raceSysReclaimed ∧
      raceSysReclaimed.running = [.atRead (-1) .mapBranch] ∧
      raceSysReclaimed.c.mapTasks.has 0 = true ∧
      raceSysReclaimed.c.ResponseTask (mapReport 0 (lit "a")) = raceSysReclaimed.c :=
  ⟨⟨raceReclaimed, by decide⟩, by decide, by decide,
    untracked_report_noop [lit "a"] (by decide) 1 raceSysReclaimed
      ⟨raceReclaimed, by decide⟩ (by decide) (mapReport 0 (lit "a"))
      (fun _ => by decide) (fun _ => by decide)⟩

end mr
